import Mathlib

/-!
# Binomial forest (`binomial_forest.c`, `binomial_forest.h`)

A shallow embedding of the binomial forest of `src/binomial_forest.c` and a
verification of its specification.

## Embedding

* A value of `BinomialTree` stands for a C value of type `BinomialTree *`:
  either `NULL` or the node it points to, given by the node's address and its
  three fields `order`, `children`, `siblings`.  The structure is owned
  tree-wise (a node is referenced from one place only), so a pointer is
  represented by the value it points to; the `addr` component keeps the
  identity of the node, which no operation changes.
* `unsigned int` is a natural number below `2 ^ 32`; arithmetic that can wrap
  is reduced with `u32`.
* A C function that mutates its arguments returns the new values of what it
  mutated, next to its C result.
* A run that fails an `assert`, or that leaves defined behaviour (a slot access
  outside the allocated array, a shift by 32 or more of a 32-bit value), ends in
  `Except.error`.  Assertions are compiled in, as in the test build.
* Every loop is a function recursive on the number of iterations left.
-/

namespace BF

/-! ## Data model -/

/-- Ways in which a run stops without returning. -/
inductive Abort where
  /-- The `assert` at the given line of `binomial_forest.c` fails. -/
  | assertion (line : Nat)
  /-- Evaluation of `1u << n` with `n ≥ 32` (undefined behaviour). -/
  | shift_overflow
  /-- Access to `f->trees[i]` outside the allocated array (undefined behaviour). -/
  | out_of_bounds
  /-- Access to a field through a `NULL` pointer (undefined behaviour). -/
  | null_dereference
  deriving DecidableEq, Repr

/-- Reduction of a natural number to the range of `unsigned int`. -/
def u32 (n : Nat) : Nat := n % 2 ^ 32

/-- A value of type `BinomialTree *`: `NULL`, or the node pointed to
(`struct binomial_tree`, together with the address of the node). -/
inductive BinomialTree where
  | NULL : BinomialTree
  | node (addr : Nat) (order : Nat) (children : BinomialTree) (siblings : BinomialTree) :
      BinomialTree
  deriving DecidableEq, Repr

namespace BinomialTree

/-- Field `order` of the node pointed to. -/
def order : BinomialTree → Nat
  | NULL => 0
  | node _ o _ _ => o

/-- Field `children` of the node pointed to. -/
def children : BinomialTree → BinomialTree
  | NULL => NULL
  | node _ _ c _ => c

/-- Field `siblings` of the node pointed to. -/
def siblings : BinomialTree → BinomialTree
  | NULL => NULL
  | node _ _ _ s => s

end BinomialTree

open BinomialTree

/-- A node at address `addr` initialised with `BINOMIAL_TREE_INIT`. -/
def BINOMIAL_TREE_INIT (addr : Nat) : BinomialTree := node addr 0 NULL NULL

/-- The record `struct binomial_forest`; `trees` is the allocated slot array. -/
structure BinomialForest where
  order : Nat
  num_nodes : Nat
  trees : List BinomialTree
  deriving DecidableEq, Repr

/-- The macro `POW_2(n)`, that is `1u << (n)`. -/
def POW_2 (n : Nat) : Except Abort Nat :=
  if n < 32 then .ok (2 ^ n) else .error .shift_overflow

/-- Read of `f->trees[i]`. -/
def load (f : BinomialForest) (i : Nat) : Except Abort BinomialTree :=
  match f.trees[i]? with
  | some t => .ok t
  | none => .error .out_of_bounds

/-- Assignment `f->trees[i] = t`. -/
def store (f : BinomialForest) (i : Nat) (t : BinomialTree) : Except Abort BinomialForest :=
  if i < f.trees.length then .ok { f with trees := f.trees.set i t }
  else .error .out_of_bounds

/-! ## Tree link / unlink -/

/-- The function `binomial_tree_link(a, b)`: `b` becomes the leftmost child of `a`. -/
def binomial_tree_link : BinomialTree → BinomialTree → Except Abort BinomialTree
  | node aa ao ac asib, node ba bo bc bsib =>
    if ao ≠ bo then .error (.assertion 25)
    else if bsib ≠ NULL then .error (.assertion 26)
    else .ok (node aa (u32 (ao + 1)) (node ba bo bc ac) asib)
  | _, _ => .error (.assertion 24)

/-- The function `binomial_tree_unlink(a)`; returns the new value of `a` and the
result (`NULL` when `a` has order 0). -/
def binomial_tree_unlink : BinomialTree → Except Abort (BinomialTree × BinomialTree)
  | NULL => .error (.assertion 39)
  | node aa ao ac asib =>
    if ao = 0 then .ok (node aa ao ac asib, NULL)
    else
      match ac with
      | NULL => .error (.assertion 43)
      | node ba bo bc bsib =>
        if asib ≠ NULL then .error (.assertion 44)
        else .ok (node aa (ao - 1) bsib asib, node ba bo bc NULL)

/-! ## Forest lifecycle and queries -/

/-- The function `binomial_forest_alloc(n)`, both allocations succeeding. -/
def binomial_forest_alloc (n : Nat) : Except Abort BinomialForest :=
  if n ≤ 32 then .ok { order := n, num_nodes := 0, trees := List.replicate n NULL }
  else .error (.assertion 64)

/-- Loop of `binomial_forest_empty`, with `k` iterations left at index `i`:
`false` when a slot is occupied, `true` when the loop runs to its end. -/
def empty_loop (f : BinomialForest) : Nat → Nat → Except Abort Bool
  | 0, _ => .ok true
  | k + 1, i =>
    match load f i with
    | .error e => .error e
    | .ok t => if t ≠ NULL then .ok false else empty_loop f k (i + 1)

/-- The function `binomial_forest_empty(f)`. -/
def binomial_forest_empty (f : BinomialForest) : Except Abort Bool :=
  match empty_loop f f.order 0 with
  | .error e => .error e
  | .ok false => .ok false
  | .ok true => if f.num_nodes = 0 then .ok true else .error (.assertion 112)

/-- Loop of `binomial_forest_full`, with `k` iterations left at index `i`. -/
def full_loop (f : BinomialForest) : Nat → Nat → Except Abort Bool
  | 0, _ => .ok true
  | k + 1, i =>
    match load f i with
    | .error e => .error e
    | .ok t => if t = NULL then .ok false else full_loop f k (i + 1)

/-- The function `binomial_forest_full(f)`. -/
def binomial_forest_full (f : BinomialForest) : Except Abort Bool :=
  match full_loop f f.order 0 with
  | .error e => .error e
  | .ok false => .ok false
  | .ok true =>
    match POW_2 f.order with
    | .error e => .error e
    | .ok p => if f.num_nodes = u32 (p + (2 ^ 32 - 1)) then .ok true else .error (.assertion 126)

/-- Loop of `binomial_forest_rep`, with `k` iterations left at index `i` and
accumulator `n`. -/
def rep_loop (f : BinomialForest) : Nat → Nat → Nat → Except Abort Nat
  | 0, _, n => .ok n
  | k + 1, i, n =>
    match load f i with
    | .error e => .error e
    | .ok t =>
      if t ≠ NULL then
        match POW_2 i with
        | .error e => .error e
        | .ok p => rep_loop f k (i + 1) (u32 (n + p))
      else rep_loop f k (i + 1) (u32 (n + 0))

/-- The function `binomial_forest_rep(f)`. -/
def binomial_forest_rep (f : BinomialForest) : Except Abort Nat :=
  match rep_loop f f.order 0 0 with
  | .error e => .error e
  | .ok n => if n = f.num_nodes then .ok n else .error (.assertion 143)

/-! ## push and pop -/

/-- Loop of `binomial_forest_push`, with `k` iterations left at index `i` and
carried tree `t`; returns the forest and the final value of `i`. -/
def push_loop : Nat → Nat → BinomialForest → BinomialTree → Except Abort (BinomialForest × Nat)
  | 0, i, f, _ => .ok (f, i)
  | k + 1, i, f, t =>
    match load f i with
    | .error e => .error e
    | .ok s =>
      if s ≠ NULL then
        match binomial_tree_link t s with
        | .error e => .error e
        | .ok t1 =>
          match store f i NULL with
          | .error e => .error e
          | .ok f1 => push_loop k (i + 1) f1 t1
      else
        match store f i t with
        | .error e => .error e
        | .ok f1 => .ok (f1, i)

/-- The function `binomial_forest_push(f, t)`; returns the new value of `*f`. -/
def binomial_forest_push (f : BinomialForest) (t : BinomialTree) : Except Abort BinomialForest :=
  match t with
  | NULL => .error (.assertion 153)
  | node a o c s =>
    if o ≠ 0 then .error (.assertion 154)
    else
      match push_loop f.order 0 f (node a o c s) with
      | .error e => .error e
      | .ok (f1, i) =>
        if i < f1.order then .ok { f1 with num_nodes := u32 (f1.num_nodes + 1) }
        else .error (.assertion 171)

/-- Loop of `binomial_forest_merge` over the chain `children`, with the current
value of the local `order`; returns the forest and the final value of `order`. -/
def merge_loop : BinomialTree → BinomialForest → Nat → Except Abort (BinomialForest × Nat)
  | NULL, f, order => .ok (f, order)
  | node ca co cc csib, f, order =>
    if co ≠ u32 (order + (2 ^ 32 - 1)) then .error (.assertion 186)
    else
      match store f (u32 (order + (2 ^ 32 - 1))) (node ca co cc NULL) with
      | .error e => .error e
      | .ok f1 => merge_loop csib f1 (u32 (order + (2 ^ 32 - 1)))

/-- The function `binomial_forest_merge(f, t)`; returns the new values of `*f`
and of `t`. -/
def binomial_forest_merge (f : BinomialForest) (t : BinomialTree) :
    Except Abort (BinomialForest × BinomialTree) :=
  match t with
  | NULL => .error (.assertion 178)
  | node a o c s =>
    match merge_loop c f o with
    | .error e => .error e
    | .ok (f1, order) =>
      if order ≠ 0 then .error (.assertion 192)
      else .ok (f1, node a o NULL s)

/-- Loop of `binomial_forest_pop`, with `k` iterations left at index `i`; returns
the forest, the tree found (`NULL` when none) and the final value of `i`. -/
def pop_loop (f : BinomialForest) : Nat → Nat → Except Abort (BinomialForest × BinomialTree × Nat)
  | 0, i => .ok (f, NULL, i)
  | k + 1, i =>
    match load f i with
    | .error e => .error e
    | .ok s =>
      if s ≠ NULL then
        match store f i NULL with
        | .error e => .error e
        | .ok f1 => .ok (f1, s, i)
      else pop_loop f k (i + 1)

/-- The function `binomial_forest_pop(f)`; returns the new value of `*f` and the
result. -/
def binomial_forest_pop (f : BinomialForest) : Except Abort (BinomialForest × BinomialTree) :=
  match pop_loop f f.order 0 with
  | .error e => .error e
  | .ok (f1, NULL, _) =>
    match binomial_forest_empty f1 with
    | .error e => .error e
    | .ok false => .error (.assertion 215)
    | .ok true => .ok (f1, NULL)
  | .ok (f1, node a o c s, i) =>
    if o ≠ i then .error (.assertion 220)
    else if s ≠ NULL then .error (.assertion 221)
    else
      match binomial_forest_merge f1 (node a o c s) with
      | .error e => .error e
      | .ok (f2, t) =>
        if t.children ≠ NULL then .error (.assertion 225)
        else .ok ({ f2 with num_nodes := u32 (f2.num_nodes + (2 ^ 32 - 1)) }, t)

/-! ## Steal family and seed -/

/-- Loop of `remove_highest`, at index `i` counting down; returns the forest,
the tree found (`NULL` when none) and the final value of `i`. -/
def highest_loop (f : BinomialForest) : Nat → Except Abort (BinomialForest × BinomialTree × Nat)
  | 0 => .ok (f, NULL, 0)
  | i + 1 =>
    match load f i with
    | .error e => .error e
    | .ok s =>
      if s ≠ NULL then
        match store f i NULL with
        | .error e => .error e
        | .ok f1 => .ok (f1, s, i + 1)
      else highest_loop f i

/-- The function `remove_highest(f)`; returns the new value of `*f` and the result. -/
def remove_highest (f : BinomialForest) : Except Abort (BinomialForest × BinomialTree) :=
  match binomial_forest_empty f with
  | .error e => .error e
  | .ok true => .ok (f, NULL)
  | .ok false =>
    if ¬ f.order > 0 then .error (.assertion 242)
    else
      match highest_loop f f.order with
      | .error e => .error e
      | .ok (f1, t, i) =>
        if ¬ i > 0 then .error (.assertion 254)
        else
          match t with
          | NULL => .error (.assertion 255)
          | node a o c s =>
            if o ≠ i - 1 then .error (.assertion 256)
            else if s ≠ NULL then .error (.assertion 257)
            else
              match POW_2 (i - 1) with
              | .error e => .error e
              | .ok p =>
                .ok ({ f1 with num_nodes := u32 (f1.num_nodes + (2 ^ 32 - p)) }, node a o c s)

/-- The function `split_merge(f, t)`; returns the new value of `*f` and the result. -/
def split_merge (f : BinomialForest) (t : BinomialTree) :
    Except Abort (BinomialForest × BinomialTree) :=
  match t with
  | NULL => .ok (f, NULL)
  | node a o ch s =>
    match binomial_tree_unlink (node a o ch s) with
    | .error e => .error e
    | .ok (t1, NULL) =>
      if t1.order ≠ 0 then .error (.assertion 275)
      else
        match binomial_forest_empty f with
        | .error e => .error e
        | .ok false => .error (.assertion 277)
        | .ok true => .ok (f, t1)
    | .ok (t1, node ca co cc cs) =>
      if t1.order ≠ co then .error (.assertion 280)
      else
        match load f t1.order with
        | .error e => .error e
        | .ok occ =>
          match
            (if occ ≠ NULL then
              match binomial_tree_link occ t1 with
              | .error e => .error e
              | .ok (node ta _ tc ts) =>
                -- `assert(tt->order = t->order+1)` assigns, then tests the value
                if u32 (t1.order + 1) = 0 then .error (.assertion 284)
                else
                  match store f (u32 (t1.order + 1)) (node ta (u32 (t1.order + 1)) tc ts) with
                  | .error e => .error e
                  | .ok f1 => store f1 t1.order NULL
              | .ok NULL => .error (.assertion 284)
            else store f t1.order t1) with
          | .error e => .error e
          | .ok f2 =>
            match POW_2 co with
            | .error e => .error e
            | .ok p => .ok ({ f2 with num_nodes := u32 (f2.num_nodes + p) }, node ca co cc cs)

/-- The function `binomial_forest_steal_1(f)`. -/
def binomial_forest_steal_1 (f : BinomialForest) : Except Abort (BinomialForest × BinomialTree) :=
  match remove_highest f with
  | .error e => .error e
  | .ok (f1, t) => split_merge f1 t

/-- The function `binomial_forest_steal_2(f)`. -/
def binomial_forest_steal_2 (f : BinomialForest) : Except Abort (BinomialForest × BinomialTree) :=
  remove_highest f

/-- The function `binomial_forest_steal_3(f)`. -/
def binomial_forest_steal_3 (f : BinomialForest) : Except Abort (BinomialForest × BinomialTree) :=
  match remove_highest f with
  | .error e => .error e
  | .ok (f1, NULL) => .ok (f1, NULL)
  | .ok (f1, node a o c s) =>
    match POW_2 o with
    | .error e => .error e
    | .ok x =>
      if f1.num_nodes > x / 2 then .ok (f1, node a o c s)
      else split_merge f1 (node a o c s)

/-- The function `binomial_forest_seed(f, t)`; `none` stands for a `NULL` first
argument, and the allocation succeeds. -/
def binomial_forest_seed (f : Option BinomialForest) (t : BinomialTree) :
    Except Abort BinomialForest :=
  match t with
  | NULL => .error (.assertion 341)
  | node a o c s =>
    match (match f with
      | none => binomial_forest_alloc (u32 (o + 1))
      | some f0 => .ok f0) with
    | .error e => .error e
    | .ok f1 =>
      match binomial_forest_empty f1 with
      | .error e => .error e
      | .ok false => .error (.assertion 349)
      | .ok true =>
        if ¬ o < f1.order then .error (.assertion 350)
        else
          match store f1 o (node a o c s) with
          | .error e => .error e
          | .ok f2 =>
            match POW_2 o with
            | .error e => .error e
            | .ok p => .ok { f2 with num_nodes := p }

/-! ## Specification vocabulary -/

/-- Number of nodes reachable from a pointer through `children` and `siblings`;
for a root (no siblings) this is the node count of its tree. -/
def BinomialTree.size : BinomialTree → Nat
  | NULL => 0
  | node _ _ c s => 1 + BinomialTree.size c + BinomialTree.size s

/-- Addresses of the nodes reachable from a pointer, newest first: a later
sibling (a lower order) comes before an earlier one, a node before its children. -/
def elems : BinomialTree → List Nat
  | NULL => []
  | node a _ c s => elems s ++ a :: elems c

/-- The chain starting at the pointer has orders `k-1, k-2, ..., 0`, and so has,
for its own order, the children chain of each of its nodes. -/
def wf_chain : Nat → BinomialTree → Prop
  | 0, NULL => True
  | k + 1, node _ o c s => o = k ∧ wf_chain k c ∧ wf_chain k s
  | 0, node _ _ _ _ => False
  | _ + 1, NULL => False

instance wf_chain_decidable : (k : Nat) → (t : BinomialTree) → Decidable (wf_chain k t)
  | 0, NULL => isTrue trivial
  | k + 1, node _ o c s =>
    have := wf_chain_decidable k c
    have := wf_chain_decidable k s
    (inferInstance : Decidable (o = k ∧ wf_chain k c ∧ wf_chain k s))
  | 0, node _ _ _ _ => isFalse (fun h => h)
  | _ + 1, NULL => isFalse (fun h => h)

/-- A well-formed binomial tree: a node without siblings whose children chain
has orders `order-1, ..., 0`, recursively. -/
def wf_tree (t : BinomialTree) : Prop :=
  t ≠ NULL ∧ t.siblings = NULL ∧ wf_chain t.order t.children

instance wf_tree_decidable (t : BinomialTree) : Decidable (wf_tree t) := by
  unfold wf_tree; infer_instance

/-- Content of slot `i` of the forest (`NULL` outside the array). -/
def slot (f : BinomialForest) (i : Nat) : BinomialTree := f.trees.getD i NULL

/-- Sum of `2^i` over the occupied slots `i` of the forest. -/
def slot_sum (f : BinomialForest) : Nat :=
  ((List.range f.order).map fun i => if slot f i = NULL then 0 else 2 ^ i).sum

/-- A well-formed forest: exactly `order` slots, slot `i` empty or holding a
well-formed tree of order `i`, and `num_nodes` the sum of `2^i` over the
occupied slots. -/
def wf_forest (f : BinomialForest) : Prop :=
  f.trees.length = f.order ∧
  (∀ i, i < f.order → slot f i = NULL ∨ (wf_tree (slot f i) ∧ (slot f i).order = i)) ∧
  f.num_nodes = slot_sum f

instance wf_forest_decidable (f : BinomialForest) : Decidable (wf_forest f) := by
  unfold wf_forest; infer_instance

/-- Every slot of the forest is unoccupied. -/
def all_empty (f : BinomialForest) : Prop := ∀ i, i < f.order → slot f i = NULL

instance all_empty_decidable (f : BinomialForest) : Decidable (all_empty f) := by
  unfold all_empty; infer_instance

/-- Every slot of the forest is occupied. -/
def all_occupied (f : BinomialForest) : Prop := ∀ i, i < f.order → slot f i ≠ NULL

instance all_occupied_decidable (f : BinomialForest) : Decidable (all_occupied f) := by
  unfold all_occupied; infer_instance

/-- Slots `i, i+1, ...` given as a list: each is empty or holds a well-formed
tree of the order of its index. -/
def wf_slots : Nat → List BinomialTree → Prop
  | _, [] => True
  | i, t :: ts => (t = NULL ∨ (wf_tree t ∧ t.order = i)) ∧ wf_slots (i + 1) ts

/-- Sum of `2^j` over the occupied slots of a list of slots `i, i+1, ...`. -/
def count_slots : Nat → List BinomialTree → Nat
  | _, [] => 0
  | i, t :: ts => (if t = NULL then 0 else 2 ^ i) + count_slots (i + 1) ts

/-- Addresses of the nodes held by a list of slots, lower slots first. -/
def slots_elems : List BinomialTree → List Nat
  | [] => []
  | t :: ts => elems t ++ slots_elems ts

/-- Addresses of the nodes of the forest, newest first. -/
def to_stack (f : BinomialForest) : List Nat := slots_elems f.trees

/-- The nodes of a children chain as roots, lowest order first. -/
def chain_slots : BinomialTree → List BinomialTree
  | NULL => []
  | node a o c s => chain_slots s ++ [node a o c NULL]

/-! ## Runs -/

/-- The pointer value itself: the address of the node pointed to, `none` for
`NULL`. -/
def ptr : BinomialTree → Option Nat
  | NULL => none
  | node a _ _ _ => some a

/-- A call made by the owner of a forest: a push of a node at the given address,
freshly initialised with `BINOMIAL_TREE_INIT`, or a pop. -/
inductive Op where
  | push (addr : Nat)
  | pop
  deriving DecidableEq, Repr

/-- A sequence of calls on a forest; returns the final forest and the results of
the pops, in the order of the calls. -/
def run : BinomialForest → List Op → Except Abort (BinomialForest × List BinomialTree)
  | f, [] => .ok (f, [])
  | f, Op.push a :: ops =>
    match binomial_forest_push f (BINOMIAL_TREE_INIT a) with
    | .error e => .error e
    | .ok f1 => run f1 ops
  | f, Op.pop :: ops =>
    match binomial_forest_pop f with
    | .error e => .error e
    | .ok (f1, t) =>
      match run f1 ops with
      | .error e => .error e
      | .ok (f2, ts) => .ok (f2, t :: ts)

/-- Reference model, a stack of addresses (top first): the final stack and the
pointer each pop is to return, the most recently pushed address not yet popped
(`none` on the empty stack). -/
def stack_run : List Op → List Nat → List Nat × List (Option Nat)
  | [], st => (st, [])
  | Op.push a :: ops, st => stack_run ops (a :: st)
  | Op.pop :: ops, st => ((stack_run ops st.tail).1, st.head? :: (stack_run ops st.tail).2)

/-- The calls respect the contract of push on a stack of at most `cap` nodes:
a pushed node is not in the forest already, and the forest is not full. -/
def admissible (cap : Nat) : List Op → List Nat → Prop
  | [], _ => True
  | Op.push a :: ops, st => a ∉ st ∧ st.length < cap ∧ admissible cap ops (a :: st)
  | Op.pop :: ops, st => admissible cap ops st.tail

instance admissible_decidable (cap : Nat) : (ops : List Op) → (st : List Nat) →
    Decidable (admissible cap ops st)
  | [], _ => isTrue trivial
  | Op.push a :: ops, st =>
    have := admissible_decidable cap ops (a :: st)
    (inferInstance : Decidable (a ∉ st ∧ st.length < cap ∧ admissible cap ops (a :: st)))
  | Op.pop :: ops, st => admissible_decidable cap ops st.tail

/-! ## The test of the steal functions -/

/-- Loop "Push numbers [0, 99]" of `test_push_steal`, with `k` iterations left at
index `i`: the node with `data == i` is the node at address `i`. -/
def test_push_numbers : Nat → Nat → BinomialForest → Except Abort BinomialForest
  | 0, _, f => .ok f
  | k + 1, i, f =>
    match binomial_forest_push f (BINOMIAL_TREE_INIT i) with
    | .error e => .error e
    | .ok f1 => test_push_numbers k (i + 1) f1

/-- Inner loop of `test_push_steal`, with `k` iterations left at index `i`: pops
`g` and checks `t->data == 99-n-i`. -/
def test_drain (n : Nat) : Nat → Nat → BinomialForest → Except Abort BinomialForest
  | 0, _, g => .ok g
  | k + 1, i, g =>
    match binomial_forest_pop g with
    | .error e => .error e
    | .ok (_, NULL) => .error .null_dereference
    | .ok (g1, node a _ _ _) =>
      if a ≠ u32 (u32 (99 + (2 ^ 32 - n)) + (2 ^ 32 - i)) then .error (.assertion 455)
      else test_drain n k (i + 1) g1

/-- Loop "Steal and pop numbers until f is empty" of `test_push_steal`, with at
most `fuel` iterations; `none` when the iterations are used up before `f` is
empty. -/
def test_steal_loop (steal : BinomialForest → Except Abort (BinomialForest × BinomialTree)) :
    Nat → BinomialForest → Option BinomialForest →
    Except Abort (Option (BinomialForest × Option BinomialForest))
  | 0, _, _ => .ok none
  | fuel + 1, f, g =>
    match binomial_forest_empty f with
    | .error e => .error e
    | .ok true => .ok (some (f, g))
    | .ok false =>
      match steal f with
      | .error e => .error e
      | .ok (f1, t) =>
        match binomial_forest_seed g t with
        | .error e => .error e
        | .ok g1 =>
          match test_drain f1.num_nodes g1.num_nodes 0 g1 with
          | .error e => .error e
          | .ok g2 =>
            match binomial_forest_empty g2 with
            | .error e => .error e
            | .ok false => .error (.assertion 458)
            | .ok true => test_steal_loop steal fuel f1 (some g2)

/-- The function `test_push_steal(steal)`, its loop given `fuel` iterations:
`some (f, g)`, the two forests before they are freed, when every assertion of
the test passes. -/
def test_push_steal (steal : BinomialForest → Except Abort (BinomialForest × BinomialTree))
    (fuel : Nat) : Except Abort (Option (BinomialForest × BinomialForest)) :=
  match binomial_forest_alloc 10 with
  | .error e => .error e
  | .ok f0 =>
    match binomial_forest_empty f0 with
    | .error e => .error e
    | .ok false => .error (.assertion 433)
    | .ok true =>
      match binomial_forest_rep f0 with
      | .error e => .error e
      | .ok r0 =>
        if r0 ≠ 0 then .error (.assertion 434)
        else
          match test_push_numbers 100 0 f0 with
          | .error e => .error e
          | .ok f1 =>
            match binomial_forest_rep f1 with
            | .error e => .error e
            | .ok r1 =>
              if r1 ≠ 100 then .error (.assertion 445)
              else
                match test_steal_loop steal fuel f1 none with
                | .error e => .error e
                | .ok none => .ok none
                | .ok (some (_, none)) => .error (.assertion 106)
                | .ok (some (f2, some g)) =>
                  match binomial_forest_empty f2 with
                  | .error e => .error e
                  | .ok false => .error (.assertion 461)
                  | .ok true =>
                    match binomial_forest_empty g with
                    | .error e => .error e
                    | .ok false => .error (.assertion 462)
                    | .ok true =>
                      match binomial_forest_rep f2 with
                      | .error e => .error e
                      | .ok r2 =>
                        if r2 ≠ 0 then .error (.assertion 463)
                        else
                          match binomial_forest_rep g with
                          | .error e => .error e
                          | .ok r3 =>
                            if r3 ≠ 0 then .error (.assertion 464)
                            else .ok (some (f2, g))

/-! ## Vocabulary of the round trip of a steal -/

/-- The first argument of `binomial_forest_seed` is fit for the tree `t`: `NULL`,
or a well-formed forest without nodes whose capacity exponent exceeds the order
of `t`. -/
def seed_target (g : Option BinomialForest) (t : BinomialTree) : Prop :=
  match g with
  | none => True
  | some g0 => wf_forest g0 ∧ all_empty g0 ∧ g0.order ≤ 32 ∧ t.order < g0.order

/-- Round trip of one call of `steal` on the forest `f`: the call returns a tree
`t` that holds the `2 ^ t.order` oldest nodes of `f` and leaves a well-formed
forest `f1` with the newer ones; seeding `t` into any fit target and popping
`2 ^ t.order` times returns pointers to the nodes of `t`, newest first, and leaves
the seeded forest empty; `f1` still pops its nodes newest first. -/
def steal_round_trip (steal : BinomialForest → Except Abort (BinomialForest × BinomialTree))
    (f : BinomialForest) : Prop :=
  ∃ f1 t, steal f = .ok (f1, t) ∧ t ≠ NULL ∧ wf_forest f1 ∧ f1.order = f.order ∧
    (elems t).length = 2 ^ t.order ∧ to_stack f = to_stack f1 ++ elems t ∧
    (∀ g, seed_target g t → ∃ g1 g2 ts, binomial_forest_seed g t = .ok g1 ∧
      run g1 (List.replicate (2 ^ t.order) Op.pop) = .ok (g2, ts) ∧
      ts.map ptr = (elems t).map some ∧ binomial_forest_empty g2 = .ok true) ∧
    (∃ f2 ts, run f1 (List.replicate f1.num_nodes Op.pop) = .ok (f2, ts) ∧
      ts.map ptr = (to_stack f1).map some)

/-! ## Sample inputs -/

/-- The forest of capacity exponent 3 after the pushes of nodes 0, 1, 2, 3, 4. -/
def sample_forest : BinomialForest :=
  ⟨3, 5, [node 4 0 NULL NULL, NULL,
    node 3 2 (node 1 1 (node 0 0 NULL NULL) (node 2 0 NULL NULL)) NULL]⟩

/-- The forest of capacity exponent 1 after the push of node 0. -/
def single_node_forest : BinomialForest := ⟨1, 1, [node 0 0 NULL NULL]⟩

/-- The forest of capacity exponent 2 after the pushes of nodes 0 and 1. -/
def two_node_forest : BinomialForest := ⟨2, 2, [NULL, node 1 1 (node 0 0 NULL NULL) NULL]⟩

/-- The forest of capacity exponent 3 after the pushes of nodes 0, 1, 2, 3. -/
def four_node_forest : BinomialForest :=
  ⟨3, 4, [NULL, NULL, node 3 2 (node 1 1 (node 0 0 NULL NULL) (node 2 0 NULL NULL)) NULL]⟩

/-- The forest of capacity exponent 3 after the pushes of nodes 0, 1, 2, 3, 4, 5. -/
def six_node_forest : BinomialForest :=
  ⟨3, 6, [NULL, node 5 1 (node 4 0 NULL NULL) NULL,
    node 3 2 (node 1 1 (node 0 0 NULL NULL) (node 2 0 NULL NULL)) NULL]⟩

/-- A well-formed tree of order 2. -/
def sample_tree : BinomialTree :=
  node 3 2 (node 1 1 (node 0 0 NULL NULL) (node 2 0 NULL NULL)) NULL

deriving instance DecidableEq for Except

/-! ## Vocabulary of the frame of pop -/

/-- The child of order `j` in a children chain, with its `siblings` cleared
(`NULL` when the chain has no such child). -/
def chain_find (j : Nat) : BinomialTree → BinomialTree
  | NULL => NULL
  | node a o c s => if o = j then node a o c NULL else chain_find j s

/-! ## split_merge with assertions compiled out -/

/-- The function `binomial_tree_link(a, b)` compiled with `NDEBUG`: no assertion is
evaluated. -/
def binomial_tree_link_ndebug : BinomialTree → BinomialTree → Except Abort BinomialTree
  | node aa ao ac asib, node ba bo bc _ =>
    .ok (node aa (u32 (ao + 1)) (node ba bo bc ac) asib)
  | _, _ => .error .null_dereference

/-- The function `binomial_tree_unlink(a)` compiled with `NDEBUG`. -/
def binomial_tree_unlink_ndebug : BinomialTree → Except Abort (BinomialTree × BinomialTree)
  | NULL => .error .null_dereference
  | node aa ao ac asib =>
    if ao = 0 then .ok (node aa ao ac asib, NULL)
    else
      match ac with
      | NULL => .error .null_dereference
      | node ba bo bc bsib => .ok (node aa (ao - 1) bsib asib, node ba bo bc NULL)

/-- The function `split_merge(f, t)` compiled with `NDEBUG`: no assertion is
evaluated, so `binomial_forest_empty` is not called and `tt->order` is not assigned. -/
def split_merge_ndebug (f : BinomialForest) (t : BinomialTree) :
    Except Abort (BinomialForest × BinomialTree) :=
  match t with
  | NULL => .ok (f, NULL)
  | node a o ch s =>
    match binomial_tree_unlink_ndebug (node a o ch s) with
    | .error e => .error e
    | .ok (t1, NULL) => .ok (f, t1)
    | .ok (t1, node ca co cc cs) =>
      match load f t1.order with
      | .error e => .error e
      | .ok occ =>
        match
          (if occ ≠ NULL then
            match binomial_tree_link_ndebug occ t1 with
            | .error e => .error e
            | .ok tt =>
              match store f tt.order tt with
              | .error e => .error e
              | .ok f1 => store f1 t1.order NULL
          else store f t1.order t1) with
        | .error e => .error e
        | .ok f2 =>
          match POW_2 co with
          | .error e => .error e
          | .ok p => .ok ({ f2 with num_nodes := u32 (f2.num_nodes + p) }, node ca co cc cs)

/-! ## Repeated steals -/

/-- A call made on a forest while nothing is pushed: a steal or a pop. -/
inductive ThiefOp where
  | steal
  | pop
  deriving DecidableEq, Repr

/-- A sequence of steals (with the given steal function) and pops on a forest;
returns the final forest and the results of the steals, in the order of the
calls. -/
def steal_run (steal : BinomialForest → Except Abort (BinomialForest × BinomialTree)) :
    BinomialForest → List ThiefOp → Except Abort (BinomialForest × List BinomialTree)
  | f, [] => .ok (f, [])
  | f, ThiefOp.steal :: ops =>
    match steal f with
    | .error e => .error e
    | .ok (f1, t) =>
      match steal_run steal f1 ops with
      | .error e => .error e
      | .ok (f2, ts) => .ok (f2, t :: ts)
  | f, ThiefOp.pop :: ops =>
    match binomial_forest_pop f with
    | .error e => .error e
    | .ok (f1, _) => steal_run steal f1 ops

/-- The trees among the results of the steals (the results that are not `NULL`). -/
def stolen_trees (ts : List BinomialTree) : List BinomialTree :=
  ts.filter fun t => decide (t ≠ NULL)

/-- Stolen orders never grow along the calls `ops` on `f`: the run returns, the
order of each tree stolen is at most the order of every tree stolen before it,
and the forest seeded from the first tree with `binomial_forest_seed(NULL, _)` has
a capacity exponent above the order of every later tree, so that seeding a later
tree into that forest, once it is empty again, returns. -/
def orders_never_grow (steal : BinomialForest → Except Abort (BinomialForest × BinomialTree))
    (f : BinomialForest) (ops : List ThiefOp) : Prop :=
  ∃ f1 ts, steal_run steal f ops = .ok (f1, ts) ∧
    ((stolen_trees ts).map BinomialTree.order).Pairwise (fun x y => y ≤ x) ∧
    ∀ t0 rest, stolen_trees ts = t0 :: rest →
      ∃ g, binomial_forest_seed none t0 = .ok g ∧ g.order = t0.order + 1 ∧
        ∀ t, t ∈ rest → t.order < g.order ∧
          ∀ g1, wf_forest g1 → all_empty g1 → g1.order = g.order →
            ∃ g2, binomial_forest_seed (some g1) t = .ok g2

/-! ## Counting pushes and pops, and the test on heap data -/

/-- Number of pushes in a sequence of calls. -/
def num_pushes : List Op → Nat
  | [] => 0
  | Op.push _ :: ops => num_pushes ops + 1
  | Op.pop :: ops => num_pushes ops

/-- Number of results of pops that are not `NULL` (the successful pops). -/
def num_returned : List BinomialTree → Nat
  | [] => 0
  | NULL :: ts => num_returned ts
  | node _ _ _ _ :: ts => num_returned ts + 1

/-- Loop "Pop numbers [30, 20]" of `test_push_pop_heap_data`, with `k` iterations
left at index `i`: pops and checks `t->data == 30-i`. -/
def test_pop_numbers : Nat → Nat → BinomialForest → Except Abort BinomialForest
  | 0, _, f => .ok f
  | k + 1, i, f =>
    match binomial_forest_pop f with
    | .error e => .error e
    | .ok (_, NULL) => .error .null_dereference
    | .ok (f1, node a _ _ _) =>
      if a ≠ 30 - i then .error (.assertion 417)
      else test_pop_numbers k (i + 1) f1

/-- The function `test_push_pop_heap_data`: the forest before it is freed, when
every assertion of the test passes. -/
def test_push_pop_heap_data : Except Abort BinomialForest :=
  match binomial_forest_alloc 5 with
  | .error e => .error e
  | .ok f0 =>
    match binomial_forest_empty f0 with
    | .error e => .error e
    | .ok false => .error (.assertion 399)
    | .ok true =>
      match binomial_forest_rep f0 with
      | .error e => .error e
      | .ok r0 =>
        if r0 ≠ 0 then .error (.assertion 400)
        else
          match test_push_numbers 31 0 f0 with
          | .error e => .error e
          | .ok f1 =>
            match binomial_forest_rep f1 with
            | .error e => .error e
            | .ok r1 =>
              if r1 ≠ 31 then .error (.assertion 411)
              else
                match binomial_forest_full f1 with
                | .error e => .error e
                | .ok false => .error (.assertion 412)
                | .ok true =>
                  match test_pop_numbers 11 0 f1 with
                  | .error e => .error e
                  | .ok f2 =>
                    match binomial_forest_empty f2 with
                    | .error e => .error e
                    | .ok true => .error (.assertion 421)
                    | .ok false =>
                      match binomial_forest_full f2 with
                      | .error e => .error e
                      | .ok true => .error (.assertion 422)
                      | .ok false =>
                        match binomial_forest_rep f2 with
                        | .error e => .error e
                        | .ok r2 =>
                          if r2 ≠ 20 then .error (.assertion 423)
                          else .ok f2

/-! # Verification -/

/-! ## Arithmetic on `unsigned int` -/

theorem u32_of_lt {n : Nat} (h : n < 2 ^ 32) : u32 n = n := Nat.mod_eq_of_lt h

theorem u32_sub {n p : Nat} (hp : p ≤ n) (hn : n < 2 ^ 32) : u32 (n + (2 ^ 32 - p)) = n - p := by
  unfold u32
  have h : n + (2 ^ 32 - p) = (n - p) + 2 ^ 32 := by omega
  rw [h, Nat.add_mod_right]
  exact Nat.mod_eq_of_lt (by omega)

theorem u32_pred {n : Nat} (hp : 0 < n) (hn : n < 2 ^ 32) : u32 (n + (2 ^ 32 - 1)) = n - 1 :=
  u32_sub hp hn

theorem two_pow_le_of_le_32 {k : Nat} (h : k ≤ 32) : 2 ^ k ≤ 2 ^ 32 :=
  Nat.pow_le_pow_right (by decide) h

theorem two_pow_lt_of_lt_32 {k : Nat} (h : k < 32) : 2 ^ k < 2 ^ 32 :=
  Nat.pow_lt_pow_right (by decide) h

theorem lt_two_pow_32_of_le_32 {k : Nat} (h : k ≤ 32) : k < 2 ^ 32 := by
  have : (32 : Nat) < 2 ^ 32 := by decide
  omega

theorem POW_2_of_lt {n : Nat} (h : n < 32) : POW_2 n = .ok (2 ^ n) := by
  simp [POW_2, h]

/-! ## Trees -/

theorem size_eq_length_elems (t : BinomialTree) : t.size = (elems t).length := by
  induction t with
  | NULL => rfl
  | node a o c s ihc ihs => simp [BinomialTree.size, elems, ihc, ihs]; omega

theorem wf_chain_zero {t : BinomialTree} : wf_chain 0 t ↔ t = NULL := by
  cases t <;> simp [wf_chain]

theorem wf_chain_succ {k : Nat} {t : BinomialTree} :
    wf_chain (k + 1) t ↔ ∃ a c s, t = node a k c s ∧ wf_chain k c ∧ wf_chain k s := by
  cases t with
  | NULL => simp [wf_chain]
  | node a o c s =>
    simp only [wf_chain, node.injEq]
    constructor
    · rintro ⟨rfl, hc, hs⟩; exact ⟨a, c, s, ⟨rfl, rfl, rfl, rfl⟩, hc, hs⟩
    · rintro ⟨a', c', s', ⟨rfl, rfl, rfl, rfl⟩, hc, hs⟩; exact ⟨rfl, hc, hs⟩

theorem wf_chain_size : ∀ (k : Nat) (t : BinomialTree), wf_chain k t → t.size + 1 = 2 ^ k
  | 0, NULL, _ => rfl
  | k + 1, node _ o c s, h => by
    obtain ⟨_, hc, hs⟩ := h
    have h1 := wf_chain_size k c hc
    have h2 := wf_chain_size k s hs
    simp only [BinomialTree.size, pow_succ]
    omega
  | 0, node _ _ _ _, h => h.elim
  | _ + 1, NULL, h => h.elim

theorem wf_tree_iff {t : BinomialTree} :
    wf_tree t ↔ ∃ a c, t = node a t.order c NULL ∧ wf_chain t.order c := by
  cases t with
  | NULL => simp [wf_tree]
  | node a o c s =>
    simp only [wf_tree, BinomialTree.siblings, BinomialTree.order, BinomialTree.children,
      node.injEq, ne_eq, not_false_eq_true, true_and, reduceCtorEq]
    constructor
    · rintro ⟨rfl, h⟩; exact ⟨a, c, ⟨rfl, rfl, rfl⟩, h⟩
    · rintro ⟨a', c', ⟨rfl, rfl, rfl⟩, h⟩; exact ⟨rfl, h⟩

theorem wf_tree_node {a o : Nat} {c s : BinomialTree} :
    wf_tree (node a o c s) ↔ s = NULL ∧ wf_chain o c := by
  simp [wf_tree, BinomialTree.siblings, BinomialTree.order, BinomialTree.children]

theorem wf_tree_size {t : BinomialTree} (h : wf_tree t) : t.size = 2 ^ t.order := by
  cases t with
  | NULL => exact absurd rfl h.1
  | node a o c s =>
    obtain ⟨rfl, hc⟩ := wf_tree_node.1 h
    have := wf_chain_size o c hc
    simp only [BinomialTree.size, BinomialTree.order]
    omega

theorem wf_tree_INIT (a : Nat) : wf_tree (BINOMIAL_TREE_INIT a) := by
  simp [BINOMIAL_TREE_INIT, wf_tree_node, wf_chain]

/-- Linking two well-formed trees of equal order `k < 2^32 - 1`. -/
theorem link_wf {t s : BinomialTree} (ht : wf_tree t) (hs : wf_tree s)
    (ho : t.order = s.order) (hk : t.order + 1 < 2 ^ 32) :
    ∃ t1, binomial_tree_link t s = .ok t1 ∧ wf_tree t1 ∧ t1.order = t.order + 1 ∧
      elems t1 = elems t ++ elems s := by
  cases t with
  | NULL => exact absurd rfl ht.1
  | node ta k tc ts =>
    cases s with
    | NULL => exact absurd rfl hs.1
    | node sa so sc ss =>
      obtain ⟨rfl, htc⟩ := wf_tree_node.1 ht
      obtain ⟨rfl, hsc⟩ := wf_tree_node.1 hs
      simp only [BinomialTree.order] at ho hk
      subst ho
      refine ⟨node ta (k + 1) (node sa k sc tc) NULL, ?_, ?_, rfl, ?_⟩
      · simp [binomial_tree_link, u32_of_lt hk]
      · exact wf_tree_node.2 ⟨rfl, rfl, hsc, htc⟩
      · simp [elems]

/-! ## Slots as lists -/

theorem wf_slots_cons {i : Nat} {t : BinomialTree} {ts : List BinomialTree} :
    wf_slots i (t :: ts) ↔ (t = NULL ∨ (wf_tree t ∧ t.order = i)) ∧ wf_slots (i + 1) ts := Iff.rfl

theorem count_slots_cons {i : Nat} {t : BinomialTree} {ts : List BinomialTree} :
    count_slots i (t :: ts) = (if t = NULL then 0 else 2 ^ i) + count_slots (i + 1) ts := rfl

theorem slots_elems_cons {t : BinomialTree} {ts : List BinomialTree} :
    slots_elems (t :: ts) = elems t ++ slots_elems ts := rfl

theorem wf_slots_iff (l : List BinomialTree) : ∀ i, wf_slots i l ↔
    ∀ j, j < l.length → l.getD j NULL = NULL ∨ (wf_tree (l.getD j NULL) ∧ (l.getD j NULL).order = i + j) := by
  induction l with
  | nil => intro i; simp [wf_slots]
  | cons t ts ih =>
    intro i
    simp only [wf_slots, ih, List.length_cons]
    constructor
    · rintro ⟨h0, hr⟩ j hj
      cases j with
      | zero => simpa using h0
      | succ j =>
        have := hr j (by omega)
        simpa [Nat.add_assoc, Nat.add_comm 1 j] using this
    · intro h
      refine ⟨by simpa using h 0 (by omega), fun j hj => ?_⟩
      have := h (j + 1) (by omega)
      simpa [Nat.add_assoc, Nat.add_comm 1 j] using this

theorem count_slots_eq_sum (l : List BinomialTree) : ∀ i, count_slots i l =
    ((List.range l.length).map fun j => if l.getD j NULL = NULL then 0 else 2 ^ (i + j)).sum := by
  induction l with
  | nil => intro i; simp [count_slots]
  | cons t ts ih =>
    intro i
    simp only [count_slots, ih, List.length_cons, List.range_succ_eq_map, List.map_cons,
      List.sum_cons, List.map_map]
    congr 1
    congr 1
    apply List.map_congr_left
    intro j _
    simp [Nat.add_assoc, Nat.add_comm 1 j]

theorem wf_forest_iff (f : BinomialForest) : wf_forest f ↔
    f.trees.length = f.order ∧ wf_slots 0 f.trees ∧ f.num_nodes = count_slots 0 f.trees := by
  unfold wf_forest slot_sum slot
  constructor
  · rintro ⟨hl, hs, hn⟩
    refine ⟨hl, (wf_slots_iff _ _).2 ?_, ?_⟩
    · intro j hj; simpa using hs j (hl ▸ hj)
    · rw [hn, count_slots_eq_sum, hl]; simp
  · rintro ⟨hl, hs, hn⟩
    refine ⟨hl, ?_, ?_⟩
    · intro j hj; simpa using (wf_slots_iff _ _).1 hs j (hl ▸ hj)
    · rw [hn, count_slots_eq_sum, hl]; simp

theorem wf_slots_append {l1 l2 : List BinomialTree} : ∀ {i : Nat},
    wf_slots i (l1 ++ l2) ↔ wf_slots i l1 ∧ wf_slots (i + l1.length) l2 := by
  induction l1 with
  | nil => intro i; simp [wf_slots]
  | cons t ts ih =>
    intro i
    rw [List.cons_append, wf_slots_cons, wf_slots_cons, ih, List.length_cons, and_assoc,
      show i + 1 + ts.length = i + (ts.length + 1) by omega]

theorem count_slots_append {l1 l2 : List BinomialTree} : ∀ {i : Nat},
    count_slots i (l1 ++ l2) = count_slots i l1 + count_slots (i + l1.length) l2 := by
  induction l1 with
  | nil => intro i; simp [count_slots]
  | cons t ts ih =>
    intro i
    rw [List.cons_append, count_slots_cons, count_slots_cons, ih, List.length_cons,
      show i + 1 + ts.length = i + (ts.length + 1) by omega]
    omega

theorem slots_elems_append {l1 l2 : List BinomialTree} :
    slots_elems (l1 ++ l2) = slots_elems l1 ++ slots_elems l2 := by
  induction l1 with
  | nil => rfl
  | cons t ts ih => rw [List.cons_append, slots_elems_cons, slots_elems_cons, ih, List.append_assoc]

theorem wf_slots_replicate_NULL (m : Nat) : ∀ i, wf_slots i (List.replicate m NULL) := by
  induction m with
  | zero => intro i; simp [wf_slots]
  | succ m ih => intro i; simp [List.replicate_succ, wf_slots, ih]

theorem count_slots_replicate_NULL (m : Nat) : ∀ i, count_slots i (List.replicate m NULL) = 0 := by
  induction m with
  | zero => intro i; simp [count_slots]
  | succ m ih => intro i; simp [List.replicate_succ, count_slots, ih]

theorem slots_elems_replicate_NULL (m : Nat) : slots_elems (List.replicate m NULL) = [] := by
  induction m with
  | zero => rfl
  | succ m ih => simp [List.replicate_succ, slots_elems, elems, ih]

/-- Total of a list of slots starting at `i` is below `2^(i + length)`, by `2^i`. -/
theorem count_slots_lt (l : List BinomialTree) : ∀ i, count_slots i l + 2 ^ i ≤ 2 ^ (i + l.length) := by
  induction l with
  | nil => intro i; simp [count_slots]
  | cons t ts ih =>
    intro i
    have := ih (i + 1)
    simp only [count_slots, List.length_cons]
    rw [show i + (ts.length + 1) = i + 1 + ts.length by omega]
    have h2 : 2 ^ (i + 1) = 2 * 2 ^ i := by rw [pow_succ]; omega
    split <;> omega

theorem count_slots_eq_zero {l : List BinomialTree} : ∀ {i : Nat},
    count_slots i l = 0 ↔ ∀ x ∈ l, x = NULL := by
  induction l with
  | nil => intro i; simp [count_slots]
  | cons t ts ih =>
    intro i
    simp only [count_slots, Nat.add_eq_zero, ih, List.mem_cons, forall_eq_or_imp]
    have : 2 ^ i ≠ 0 := by positivity
    by_cases h : t = NULL <;> simp [h, this]

theorem count_slots_all_occupied {l : List BinomialTree} : ∀ {i : Nat},
    (∀ x ∈ l, x ≠ NULL) → count_slots i l + 2 ^ i = 2 ^ (i + l.length) := by
  induction l with
  | nil => intro i _; simp [count_slots]
  | cons t ts ih =>
    intro i h
    have h1 := ih (i := i + 1) (fun x hx => h x (List.mem_cons_of_mem _ hx))
    have h0 : t ≠ NULL := h t (List.mem_cons_self _ _)
    simp only [count_slots, List.length_cons, h0, if_false]
    rw [show i + (ts.length + 1) = i + 1 + ts.length by omega]
    have h2 : 2 ^ (i + 1) = 2 * 2 ^ i := by rw [pow_succ]; omega
    omega

/-- The length of the stack of a well-formed list of slots is its count. -/
theorem length_elems_of_wf_tree {t : BinomialTree} (h : wf_tree t) :
    (elems t).length = 2 ^ t.order := by
  rw [← size_eq_length_elems]; exact wf_tree_size h

theorem length_slots_elems {l : List BinomialTree} : ∀ {i : Nat}, wf_slots i l →
    (slots_elems l).length = count_slots i l := by
  induction l with
  | nil => intro i _; rfl
  | cons t ts ih =>
    intro i h
    obtain ⟨h0, hr⟩ := h
    simp only [slots_elems, count_slots, List.length_append, ih hr]
    rcases h0 with rfl | ⟨hw, ho⟩
    · simp [elems]
    · have : t ≠ NULL := hw.1
      simp [this, length_elems_of_wf_tree hw, ho]

/-! ## Slot access -/

theorem load_append (o n : Nat) (pre : List BinomialTree) (s : BinomialTree)
    (suf : List BinomialTree) : load ⟨o, n, pre ++ s :: suf⟩ pre.length = .ok s := by
  unfold load
  simp only
  rw [List.getElem?_append_right (le_refl _)]
  simp

theorem store_append (o n : Nat) (pre : List BinomialTree) (s t : BinomialTree)
    (suf : List BinomialTree) :
    store ⟨o, n, pre ++ s :: suf⟩ pre.length t = .ok ⟨o, n, pre ++ t :: suf⟩ := by
  simp [store]

theorem append_cons_eq (pre : List BinomialTree) (s : BinomialTree) (suf : List BinomialTree) :
    pre ++ s :: suf = (pre ++ [s]) ++ suf := by simp

/-! ## Queries -/

theorem empty_loop_eq (o n : Nat) (suf : List BinomialTree) : ∀ pre : List BinomialTree,
    empty_loop ⟨o, n, pre ++ suf⟩ suf.length pre.length = .ok (decide (∀ x ∈ suf, x = NULL)) := by
  induction suf with
  | nil => intro pre; simp [empty_loop]
  | cons s suf ih =>
    intro pre
    have h := ih (pre ++ [s])
    rw [← append_cons_eq, List.length_append, List.length_singleton] at h
    simp only [List.length_cons, empty_loop, load_append, h]
    by_cases hs : s = NULL <;> simp [hs]

theorem full_loop_eq (o n : Nat) (suf : List BinomialTree) : ∀ pre : List BinomialTree,
    full_loop ⟨o, n, pre ++ suf⟩ suf.length pre.length = .ok (decide (∀ x ∈ suf, x ≠ NULL)) := by
  induction suf with
  | nil => intro pre; simp [full_loop]
  | cons s suf ih =>
    intro pre
    have h := ih (pre ++ [s])
    rw [← append_cons_eq, List.length_append, List.length_singleton] at h
    simp only [List.length_cons, full_loop, load_append, h]
    by_cases hs : s = NULL <;> simp [hs]

theorem rep_loop_eq (o n : Nat) (suf : List BinomialTree) : ∀ (pre : List BinomialTree) (acc : Nat),
    pre.length + suf.length ≤ 32 → acc + count_slots pre.length suf < 2 ^ 32 →
    rep_loop ⟨o, n, pre ++ suf⟩ suf.length pre.length acc
      = .ok (acc + count_slots pre.length suf) := by
  induction suf with
  | nil => intro pre acc _ _; simp [rep_loop, count_slots]
  | cons s suf ih =>
    intro pre acc hl hc
    have h := ih (pre ++ [s])
    rw [← append_cons_eq, List.length_append, List.length_singleton] at h
    simp only [List.length_cons] at hl
    rw [count_slots_cons] at hc ⊢
    simp only [List.length_cons, rep_loop, load_append]
    by_cases hs : s = NULL
    · subst hs
      simp only [ne_eq, not_true_eq_false, if_false, if_true, Nat.add_zero, Nat.zero_add] at hc ⊢
      rw [u32_of_lt (by omega), h acc (by omega) hc]
    · simp only [hs, ne_eq, not_false_eq_true, if_true, if_false] at hc ⊢
      rw [POW_2_of_lt (by omega)]
      simp only
      rw [u32_of_lt (by omega), h _ (by omega) (by omega)]
      simp [Nat.add_assoc]

theorem wf_forest_mk {o n : Nat} {l : List BinomialTree} :
    wf_forest ⟨o, n, l⟩ ↔ l.length = o ∧ wf_slots 0 l ∧ n = count_slots 0 l :=
  wf_forest_iff _

theorem count_slots_lt_two_pow {l : List BinomialTree} (h : l.length ≤ 32) :
    count_slots 0 l < 2 ^ 32 := by
  have h1 := count_slots_lt l 0
  have h2 : 2 ^ (0 + l.length) ≤ 2 ^ 32 := two_pow_le_of_le_32 (by omega)
  simp only [pow_zero] at h1
  omega

theorem num_nodes_lt_of_wf {f : BinomialForest} (h : wf_forest f) (ho : f.order ≤ 32) :
    f.num_nodes < 2 ^ 32 := by
  obtain ⟨hl, _, hn⟩ := (wf_forest_iff f).1 h
  rw [hn]; exact count_slots_lt_two_pow (by omega)

theorem all_empty_iff {f : BinomialForest} (hl : f.trees.length = f.order) :
    all_empty f ↔ ∀ x ∈ f.trees, x = NULL := by
  unfold all_empty slot
  constructor
  · intro h x hx
    obtain ⟨i, hi, rfl⟩ := List.getElem_of_mem hx
    have := h i (hl ▸ hi)
    simpa [List.getD_eq_getElem?_getD, List.getElem?_eq_getElem hi] using this
  · intro h i hi
    have hi' : i < f.trees.length := hl ▸ hi
    simp only [List.getD_eq_getElem?_getD, List.getElem?_eq_getElem hi', Option.getD_some]
    exact h _ (List.getElem_mem _)

theorem all_occupied_iff {f : BinomialForest} (hl : f.trees.length = f.order) :
    all_occupied f ↔ ∀ x ∈ f.trees, x ≠ NULL := by
  unfold all_occupied slot
  constructor
  · intro h x hx
    obtain ⟨i, hi, rfl⟩ := List.getElem_of_mem hx
    have := h i (hl ▸ hi)
    simpa [List.getD_eq_getElem?_getD, List.getElem?_eq_getElem hi] using this
  · intro h i hi
    have hi' : i < f.trees.length := hl ▸ hi
    simp only [List.getD_eq_getElem?_getD, List.getElem?_eq_getElem hi', Option.getD_some]
    exact h _ (List.getElem_mem _)

/-- On a well-formed forest `binomial_forest_empty` returns, and tells whether
every slot is unoccupied. -/
theorem empty_eq_of_wf {f : BinomialForest} (h : wf_forest f) :
    binomial_forest_empty f = .ok (decide (all_empty f)) := by
  obtain ⟨o, n, l⟩ := f
  obtain ⟨hl, _, hn⟩ := wf_forest_mk.1 h
  have hae : all_empty ⟨o, n, l⟩ ↔ ∀ x ∈ l, x = NULL := all_empty_iff hl
  subst hl
  have h1 := empty_loop_eq l.length n l []
  simp only [List.nil_append, List.length_nil] at h1
  simp only [binomial_forest_empty, h1]
  by_cases he : ∀ x ∈ l, x = NULL
  · have : n = 0 := by rw [hn]; exact count_slots_eq_zero.2 he
    rw [decide_eq_true he, decide_eq_true (hae.2 he)]
    simp [this]
  · rw [decide_eq_false he, decide_eq_false (fun h => he (hae.1 h))]

/-- On a well-formed forest `binomial_forest_rep` returns `num_nodes`. -/
theorem rep_eq_of_wf {f : BinomialForest} (h : wf_forest f) (ho : f.order ≤ 32) :
    binomial_forest_rep f = .ok f.num_nodes := by
  obtain ⟨o, n, l⟩ := f
  obtain ⟨hl, _, hn⟩ := wf_forest_mk.1 h
  simp only at ho
  subst hl
  have h1 := rep_loop_eq l.length n l [] 0 (by simp; omega)
    (by simpa using count_slots_lt_two_pow (l := l) (by omega))
  simp only [List.nil_append, List.length_nil, Nat.zero_add] at h1
  subst hn
  simp only [binomial_forest_rep, h1, if_true]

/-- On a well-formed forest of capacity exponent below 32 `binomial_forest_full`
returns, and tells whether every slot is occupied. -/
theorem full_eq_of_wf {f : BinomialForest} (h : wf_forest f) (ho : f.order < 32) :
    binomial_forest_full f = .ok (decide (all_occupied f)) := by
  obtain ⟨o, n, l⟩ := f
  obtain ⟨hl, _, hn⟩ := wf_forest_mk.1 h
  simp only at ho
  have hao : all_occupied ⟨o, n, l⟩ ↔ ∀ x ∈ l, x ≠ NULL := all_occupied_iff hl
  subst hl
  have h1 := full_loop_eq l.length n l []
  simp only [List.nil_append, List.length_nil] at h1
  simp only [binomial_forest_full, h1]
  by_cases he : ∀ x ∈ l, x ≠ NULL
  · have h2 := count_slots_all_occupied (i := 0) he
    simp only [pow_zero, Nat.zero_add] at h2
    have h3 : 2 ^ l.length < 2 ^ 32 := two_pow_lt_of_lt_32 (by omega)
    have h4 : 0 < 2 ^ l.length := by positivity
    rw [decide_eq_true he, decide_eq_true (hao.2 he)]
    simp only [POW_2_of_lt (show l.length < 32 by omega)]
    rw [u32_pred h4 h3]
    have : n = 2 ^ l.length - 1 := by omega
    simp [this]
  · rw [decide_eq_false he, decide_eq_false (fun h => he (hao.1 h))]

/-- On a forest of capacity exponent 32 with every slot occupied,
`binomial_forest_full` evaluates `1u << 32`. -/
theorem full_undefined_of_order_32 {f : BinomialForest} (hl : f.trees.length = f.order)
    (ho : f.order = 32) (hocc : all_occupied f) :
    binomial_forest_full f = .error .shift_overflow := by
  obtain ⟨o, n, l⟩ := f
  simp only at ho hl
  have hao : ∀ x ∈ l, x ≠ NULL := (all_occupied_iff hl).1 hocc
  subst hl
  have h1 := full_loop_eq l.length n l []
  simp only [List.nil_append, List.length_nil] at h1
  simp only [binomial_forest_full, h1]
  rw [decide_eq_true hao]
  simp [POW_2, ho]

/-! ## push -/

theorem push_loop_spec (o n : Nat) (suf : List BinomialTree) :
    ∀ (pre : List BinomialTree) (t : BinomialTree),
    wf_slots pre.length suf → wf_tree t → t.order = pre.length →
    pre.length + suf.length ≤ 32 → (∃ x ∈ suf, x = NULL) →
    ∃ suf1 j, push_loop suf.length pre.length ⟨o, n, pre ++ suf⟩ t = .ok (⟨o, n, pre ++ suf1⟩, j) ∧
      suf1.length = suf.length ∧ j < pre.length + suf.length ∧ wf_slots pre.length suf1 ∧
      count_slots pre.length suf1 = count_slots pre.length suf + 2 ^ pre.length ∧
      slots_elems suf1 = elems t ++ slots_elems suf := by
  induction suf with
  | nil => intro pre t _ _ _ _ h; simp at h
  | cons s suf ih =>
    intro pre t hw ht hto hlen hnull
    obtain ⟨hs, hw'⟩ := wf_slots_cons.1 hw
    simp only [List.length_cons] at hlen ⊢
    simp only [push_loop, load_append]
    by_cases hsn : s = NULL
    · subst hsn
      refine ⟨t :: suf, pre.length, ?_, rfl, by omega, ?_, ?_, ?_⟩
      · simp [store_append]
      · exact wf_slots_cons.2 ⟨Or.inr ⟨ht, hto⟩, hw'⟩
      · simp only [count_slots_cons, ht.1, if_false, if_true]; omega
      · simp [slots_elems_cons, elems]
    · have hs' : wf_tree s ∧ s.order = pre.length := hs.resolve_left hsn
      obtain ⟨t1, hlink, ht1, ht1o, ht1e⟩ := link_wf ht hs'.1 (hto.trans hs'.2.symm)
        (by rw [hto]; have : (32 : Nat) < 2 ^ 32 := by decide
            omega)
      have hnull' : ∃ x ∈ suf, x = NULL := by
        obtain ⟨x, hx, rfl⟩ := hnull
        rcases List.mem_cons.1 hx with h | h
        · exact absurd h.symm hsn
        · exact ⟨NULL, h, rfl⟩
      have hpl : (pre ++ [NULL]).length = pre.length + 1 := by simp
      obtain ⟨suf1, j, hrun, hl1, hj, hw1, hc1, he1⟩ := ih (pre ++ [NULL]) t1
        (by rw [hpl]; exact hw') ht1 (by rw [hpl, ht1o, hto]) (by rw [hpl]; omega) hnull'
      rw [hpl, ← append_cons_eq] at hrun
      refine ⟨NULL :: suf1, j, ?_, by simp [hl1], by rw [hpl] at hj; omega, ?_, ?_, ?_⟩
      · simp only [ne_eq, hsn, not_false_eq_true, if_true, hlink, store_append, hrun]
        simp
      · rw [hpl] at hw1; exact wf_slots_cons.2 ⟨Or.inl rfl, hw1⟩
      · rw [hpl] at hc1
        simp only [count_slots_cons, hsn, if_false, if_true, hc1, pow_succ]
        omega
      · simp [slots_elems_cons, elems, he1, ht1e]

theorem push_loop_full (o n : Nat) (suf : List BinomialTree) :
    ∀ (pre : List BinomialTree) (t : BinomialTree),
    wf_slots pre.length suf → wf_tree t → t.order = pre.length →
    pre.length + suf.length ≤ 32 → (∀ x ∈ suf, x ≠ NULL) →
    ∃ l, push_loop suf.length pre.length ⟨o, n, pre ++ suf⟩ t
      = .ok (⟨o, n, l⟩, pre.length + suf.length) := by
  induction suf with
  | nil => intro pre t _ _ _ _ _; exact ⟨pre ++ [], by simp [push_loop]⟩
  | cons s suf ih =>
    intro pre t hw ht hto hlen hocc
    obtain ⟨hs, hw'⟩ := wf_slots_cons.1 hw
    simp only [List.length_cons] at hlen ⊢
    simp only [push_loop, load_append]
    have hsn : s ≠ NULL := hocc s (List.mem_cons_self _ _)
    have hs' : wf_tree s ∧ s.order = pre.length := hs.resolve_left hsn
    obtain ⟨t1, hlink, ht1, ht1o, -⟩ := link_wf ht hs'.1 (hto.trans hs'.2.symm)
      (by rw [hto]; have : (32 : Nat) < 2 ^ 32 := by decide
          omega)
    have hpl : (pre ++ [NULL]).length = pre.length + 1 := by simp
    obtain ⟨l, hrun⟩ := ih (pre ++ [NULL]) t1
      (by rw [hpl]; exact hw') ht1 (by rw [hpl, ht1o, hto]) (by rw [hpl]; omega)
      (fun x hx => hocc x (List.mem_cons_of_mem _ hx))
    rw [hpl, ← append_cons_eq] at hrun
    refine ⟨l, ?_⟩
    simp only [ne_eq, hsn, not_false_eq_true, if_true, hlink, store_append, hrun]
    congr 2
    omega

/-- A push into a well-formed forest with a free slot: it returns, the forest
stays well-formed, and the node goes on top of the stack. -/
theorem push_spec {f : BinomialForest} (a : Nat) (h : wf_forest f) (ho : f.order ≤ 32)
    (hfree : ¬ all_occupied f) :
    ∃ f1, binomial_forest_push f (BINOMIAL_TREE_INIT a) = .ok f1 ∧ wf_forest f1 ∧
      f1.order = f.order ∧ f1.num_nodes = f.num_nodes + 1 ∧ to_stack f1 = a :: to_stack f := by
  obtain ⟨o, n, l⟩ := f
  obtain ⟨hl, hw, hn⟩ := wf_forest_mk.1 h
  have hao : all_occupied ⟨o, n, l⟩ ↔ ∀ x ∈ l, x ≠ NULL := all_occupied_iff hl
  subst hl
  simp only at ho
  have hnull : ∃ x ∈ l, x = NULL := by
    by_contra hc
    exact hfree (hao.2 (fun x hx hxn => hc ⟨x, hx, hxn⟩))
  obtain ⟨l1, j, hrun, hl1, hj, hw1, hc1, he1⟩ := push_loop_spec l.length n l [] _
    (by simpa using hw) (wf_tree_INIT a) rfl (by simpa using ho) hnull
  simp only [List.nil_append, List.length_nil, Nat.zero_add, pow_zero] at hrun hj hw1 hc1
  have hlt : count_slots 0 l1 < 2 ^ 32 := count_slots_lt_two_pow (by omega)
  refine ⟨⟨l.length, n + 1, l1⟩, ?_, ?_, rfl, rfl, ?_⟩
  · simp only [binomial_forest_push, BINOMIAL_TREE_INIT, ne_eq, not_true_eq_false, if_false]
    simp only [BINOMIAL_TREE_INIT] at hrun
    rw [hrun]
    simp only [hj, if_true]
    rw [u32_of_lt (by omega)]
  · exact wf_forest_mk.2 ⟨hl1, hw1, by omega⟩
  · simp only [to_stack, he1, BINOMIAL_TREE_INIT, elems]
    simp

/-- A push into a well-formed forest whose slots are all occupied fails the
assertion "Insertion overflow". -/
theorem push_overflow {f : BinomialForest} (a : Nat) (h : wf_forest f) (ho : f.order ≤ 32)
    (hfull : all_occupied f) :
    binomial_forest_push f (BINOMIAL_TREE_INIT a) = .error (.assertion 171) := by
  obtain ⟨o, n, l⟩ := f
  obtain ⟨hl, hw, hn⟩ := wf_forest_mk.1 h
  have hao : ∀ x ∈ l, x ≠ NULL := (all_occupied_iff hl).1 hfull
  subst hl
  simp only at ho
  obtain ⟨l1, hrun⟩ := push_loop_full l.length n l [] _
    (by simpa using hw) (wf_tree_INIT a) rfl (by simpa using ho) hao
  simp only [List.nil_append, List.length_nil, Nat.zero_add] at hrun
  simp only [binomial_forest_push, BINOMIAL_TREE_INIT, ne_eq, not_true_eq_false, if_false]
  simp only [BINOMIAL_TREE_INIT] at hrun
  rw [hrun]
  simp

/-! ## pop -/

theorem exists_lowest (l : List BinomialTree) (h : ∃ x ∈ l, x ≠ NULL) :
    ∃ m s rest, l = List.replicate m NULL ++ s :: rest ∧ s ≠ NULL := by
  induction l with
  | nil => simp at h
  | cons t ts ih =>
    by_cases ht : t = NULL
    · subst ht
      have h' : ∃ x ∈ ts, x ≠ NULL := by
        obtain ⟨x, hx, hxn⟩ := h
        rcases List.mem_cons.1 hx with h1 | h1
        · exact absurd h1 hxn
        · exact ⟨x, h1, hxn⟩
      obtain ⟨m, s, rest, rfl, hs⟩ := ih h'
      exact ⟨m + 1, s, rest, by simp [List.replicate_succ], hs⟩
    · exact ⟨0, t, ts, by simp, ht⟩

theorem pop_loop_found (o n : Nat) (s : BinomialTree) (rest : List BinomialTree) (hs : s ≠ NULL) :
    ∀ (m : Nat) (pre : List BinomialTree),
    pop_loop ⟨o, n, pre ++ (List.replicate m NULL ++ s :: rest)⟩ (m + (rest.length + 1)) pre.length
      = .ok (⟨o, n, pre ++ (List.replicate m NULL ++ NULL :: rest)⟩, s, pre.length + m) := by
  intro m
  induction m with
  | zero =>
    intro pre
    simp only [List.replicate_zero, List.nil_append, Nat.zero_add, pop_loop, load_append,
      ne_eq, hs, not_false_eq_true, if_true, store_append, Nat.add_zero]
  | succ m ih =>
    intro pre
    have h := ih (pre ++ [NULL])
    simp only [List.append_assoc, List.singleton_append, List.length_append,
      List.length_singleton] at h
    rw [show m + 1 + (rest.length + 1) = (m + (rest.length + 1)) + 1 by omega]
    rw [List.replicate_succ, List.cons_append, pop_loop]
    simp only [load_append, ne_eq, not_true_eq_false, if_false, h]
    congr 3
    omega

theorem pop_loop_none (o n : Nat) : ∀ (m : Nat) (pre : List BinomialTree),
    pop_loop ⟨o, n, pre ++ List.replicate m NULL⟩ m pre.length
      = .ok (⟨o, n, pre ++ List.replicate m NULL⟩, NULL, pre.length + m) := by
  intro m
  induction m with
  | zero => intro pre; simp [pop_loop]
  | succ m ih =>
    intro pre
    have h := ih (pre ++ [NULL])
    simp only [List.append_assoc, List.singleton_append, List.length_append,
      List.length_singleton] at h
    rw [List.replicate_succ, pop_loop]
    simp only [load_append, ne_eq, not_true_eq_false, if_false, h]
    congr 3
    omega

theorem chain_slots_length : ∀ (k : Nat) (c : BinomialTree), wf_chain k c →
    (chain_slots c).length = k
  | 0, NULL, _ => rfl
  | k + 1, node _ o c s, h => by
    simp [chain_slots, chain_slots_length k s h.2.2]
  | 0, node _ _ _ _, h => h.elim
  | _ + 1, NULL, h => h.elim

theorem chain_slots_wf : ∀ (k : Nat) (c : BinomialTree), wf_chain k c →
    wf_slots 0 (chain_slots c)
  | 0, NULL, _ => trivial
  | k + 1, node a o c s, h => by
    obtain ⟨rfl, hc, hs⟩ := h
    simp only [chain_slots]
    refine wf_slots_append.2 ⟨chain_slots_wf o s hs, ?_⟩
    rw [chain_slots_length o s hs]
    exact wf_slots_cons.2 ⟨Or.inr ⟨wf_tree_node.2 ⟨rfl, hc⟩, by simp [BinomialTree.order]⟩, trivial⟩
  | 0, node _ _ _ _, h => h.elim
  | _ + 1, NULL, h => h.elim

theorem chain_slots_count : ∀ (k : Nat) (c : BinomialTree), wf_chain k c →
    count_slots 0 (chain_slots c) + 1 = 2 ^ k
  | 0, NULL, _ => rfl
  | k + 1, node a o c s, h => by
    obtain ⟨rfl, hc, hs⟩ := h
    have ih := chain_slots_count o s hs
    simp only [chain_slots]
    rw [count_slots_append, chain_slots_length o s hs]
    simp only [count_slots_cons, count_slots, Nat.zero_add, reduceCtorEq, if_false, pow_succ]
    omega
  | 0, node _ _ _ _, h => h.elim
  | _ + 1, NULL, h => h.elim

theorem chain_slots_elems (c : BinomialTree) : slots_elems (chain_slots c) = elems c := by
  induction c with
  | NULL => rfl
  | node a o c s _ ihs =>
    simp [chain_slots, slots_elems_append, ihs, slots_elems_cons, slots_elems, elems]

theorem merge_loop_spec (o n : Nat) : ∀ (k : Nat) (c : BinomialTree) (pre suf : List BinomialTree),
    wf_chain k c → pre.length = k → k ≤ 32 →
    merge_loop c ⟨o, n, pre ++ suf⟩ k = .ok (⟨o, n, chain_slots c ++ suf⟩, 0)
  | 0, NULL, pre, suf, _, hp, _ => by
    have : pre = [] := List.length_eq_zero.1 hp
    simp [merge_loop, chain_slots, this]
  | k + 1, node a o' c s, pre, suf, h, hp, hk => by
    obtain ⟨rfl, hc, hs⟩ := h
    obtain ⟨pre', x, rfl⟩ : ∃ pre' x, pre = pre' ++ [x] := by
      rcases List.eq_nil_or_concat pre with h | ⟨p, x, h⟩
      · simp [h] at hp
      · exact ⟨p, x, by simpa using h⟩
    have hp' : pre'.length = o' := by simpa using hp
    have h32 : (32 : Nat) < 2 ^ 32 := by decide
    have hu : u32 (o' + 1 + (2 ^ 32 - 1)) = o' := by
      rw [u32_pred (by omega) (by omega)]; omega
    have ih := merge_loop_spec o n o' s pre' (node a o' c NULL :: suf) hs hp' (by omega)
    simp only [merge_loop, hu, ne_eq, not_true_eq_false, if_false]
    rw [List.append_assoc, List.singleton_append]
    have hst := store_append o n pre' x (node a o' c NULL) suf
    rw [hp'] at hst
    simp only [hst, ih, chain_slots, List.append_assoc, List.singleton_append]
  | 0, node _ _ _ _, _, _, h, _, _ => h.elim
  | _ + 1, NULL, _, _, h, _, _ => h.elim

/-- Pop on a forest whose lowest occupied slot is `m`, in terms of the slot list. -/
theorem pop_decomp {o n m a k : Nat} {c s : BinomialTree} {rest : List BinomialTree}
    (h : wf_forest ⟨o, n, List.replicate m NULL ++ node a k c s :: rest⟩) (ho : o ≤ 32) :
    k = m ∧ s = NULL ∧ wf_chain m c ∧ 0 < n ∧
    binomial_forest_pop ⟨o, n, List.replicate m NULL ++ node a k c s :: rest⟩
      = .ok (⟨o, n - 1, chain_slots c ++ NULL :: rest⟩, node a m NULL NULL) ∧
    wf_forest ⟨o, n - 1, chain_slots c ++ NULL :: rest⟩ := by
  obtain ⟨hl, hw, hn⟩ := wf_forest_mk.1 h
  obtain ⟨-, hw2⟩ := wf_slots_append.1 hw
  simp only [List.length_replicate, Nat.zero_add] at hw2
  obtain ⟨hs, hrest⟩ := wf_slots_cons.1 hw2
  have hs' := hs.resolve_left (by simp)
  obtain ⟨hsib, hc⟩ := wf_tree_node.1 hs'.1
  have hk : k = m := hs'.2
  subst hk hsib
  rw [count_slots_append, count_slots_replicate_NULL, count_slots_cons] at hn
  simp only [List.length_replicate, Nat.zero_add, reduceCtorEq, if_false] at hn
  have hpos : 0 < 2 ^ k := by positivity
  have hnlt : n < 2 ^ 32 := by
    have := num_nodes_lt_of_wf h ho
    simpa using this
  have hlen : k + (rest.length + 1) = o := by simpa using hl
  have hcl := chain_slots_length k c hc
  subst hlen
  have hwf1 : wf_forest ⟨k + (rest.length + 1), n - 1, chain_slots c ++ NULL :: rest⟩ := by
    refine wf_forest_mk.2 ⟨by simp [hcl], ?_, ?_⟩
    · refine wf_slots_append.2 ⟨chain_slots_wf k c hc, ?_⟩
      rw [hcl, Nat.zero_add]
      exact wf_slots_cons.2 ⟨Or.inl rfl, hrest⟩
    · have := chain_slots_count k c hc
      rw [count_slots_append, hcl, count_slots_cons]
      simp only [Nat.zero_add, if_true]
      omega
  refine ⟨rfl, rfl, hc, by omega, ?_, hwf1⟩
  have h1 := pop_loop_found (k + (rest.length + 1)) n (node a k c NULL) rest (by simp) k []
  simp only [List.nil_append, List.length_nil, Nat.zero_add] at h1
  have h2 := merge_loop_spec (k + (rest.length + 1)) n k c (List.replicate k NULL) (NULL :: rest) hc (by simp) (by omega)
  simp only [binomial_forest_pop, h1, ne_eq, not_true_eq_false, if_false,
    binomial_forest_merge, h2, BinomialTree.children]
  rw [u32_pred (by omega) hnlt]

theorem to_stack_mk (o n : Nat) (l : List BinomialTree) : to_stack ⟨o, n, l⟩ = slots_elems l := rfl

theorem slot_mk (o n : Nat) (l : List BinomialTree) (i : Nat) :
    slot ⟨o, n, l⟩ i = l.getD i NULL := rfl

theorem getD_replicate_append_lt {m i : Nat} (l : List BinomialTree) (h : i < m) :
    (List.replicate m NULL ++ l).getD i NULL = NULL := by
  rw [List.getD_eq_getElem?_getD, List.getElem?_append_left (by simpa using h)]
  simp [List.getElem?_replicate, h]

theorem getD_append_length (pre : List BinomialTree) (s : BinomialTree) (suf : List BinomialTree) :
    (pre ++ s :: suf).getD pre.length NULL = s := by
  rw [List.getD_eq_getElem?_getD, List.getElem?_append_right (le_refl _)]
  simp

theorem getD_append_add (pre suf : List BinomialTree) (j : Nat) :
    (pre ++ suf).getD (pre.length + j) NULL = suf.getD j NULL := by
  rw [List.getD_eq_getElem?_getD, List.getD_eq_getElem?_getD,
    List.getElem?_append_right (by omega)]
  simp

/-- A pop from a well-formed forest that holds a node: it returns the root of
the lowest occupied slot `m`, with `children` cleared and `order` still `m`; the
forest stays well-formed and loses the top of its stack. -/
theorem pop_spec {f : BinomialForest} (h : wf_forest f) (ho : f.order ≤ 32)
    (hne : ¬ all_empty f) :
    ∃ f1 a m, binomial_forest_pop f = .ok (f1, node a m NULL NULL) ∧ wf_forest f1 ∧
      f1.order = f.order ∧ f1.num_nodes + 1 = f.num_nodes ∧ to_stack f = a :: to_stack f1 ∧
      (∀ i, i < m → slot f i = NULL) ∧ slot f m ≠ NULL ∧ m < f.order := by
  obtain ⟨o, n, l⟩ := f
  obtain ⟨hl, -, -⟩ := wf_forest_mk.1 h
  have hex : ∃ x ∈ l, x ≠ NULL := by
    by_contra hc
    exact hne ((all_empty_iff hl).2 (fun x hx => by
      by_contra hxn
      exact hc ⟨x, hx, hxn⟩))
  obtain ⟨m, s, rest, rfl, hs⟩ := exists_lowest l hex
  cases s with
  | NULL => exact absurd rfl hs
  | node a k c s =>
    obtain ⟨rfl, rfl, hc, hn, hpop, hwf1⟩ := pop_decomp h ho
    refine ⟨_, a, k, hpop, hwf1, rfl, ?_, ?_, ?_, ?_, ?_⟩
    · simp only; omega
    · simp only [to_stack_mk, slots_elems_append, slots_elems_replicate_NULL, slots_elems_cons,
        chain_slots_elems, elems, List.nil_append, List.cons_append]
    · intro i hi
      rw [slot_mk]; exact getD_replicate_append_lt _ hi
    · rw [slot_mk]
      have := getD_append_length (List.replicate k NULL) (node a k c NULL) rest
      simp only [List.length_replicate] at this
      rw [this]; simp
    · simp only [List.length_append, List.length_replicate, List.length_cons] at hl
      simp only; omega

/-- A pop from a well-formed forest without nodes returns `NULL` and leaves the
forest as it is. -/
theorem pop_empty {f : BinomialForest} (h : wf_forest f) (he : all_empty f) :
    binomial_forest_pop f = .ok (f, NULL) := by
  have hem := empty_eq_of_wf h
  obtain ⟨o, n, l⟩ := f
  obtain ⟨hl, -, -⟩ := wf_forest_mk.1 h
  have hall : ∀ x ∈ l, x = NULL := (all_empty_iff hl).1 he
  have hrep : l = List.replicate o NULL := by
    rw [← hl]; exact List.eq_replicate_of_mem hall
  subst hrep
  have h1 := pop_loop_none o n o []
  simp only [List.nil_append, List.length_nil, Nat.zero_add] at h1
  simp only [binomial_forest_pop, h1, hem, decide_eq_true he]

/-! ## remove_highest -/

theorem exists_highest (l : List BinomialTree) (h : ∃ x ∈ l, x ≠ NULL) :
    ∃ pre s m, l = pre ++ s :: List.replicate m NULL ∧ s ≠ NULL := by
  have h' : ∃ x ∈ l.reverse, x ≠ NULL := by
    obtain ⟨x, hx, hxn⟩ := h
    exact ⟨x, List.mem_reverse.2 hx, hxn⟩
  obtain ⟨m, s, rest, hr, hs⟩ := exists_lowest l.reverse h'
  refine ⟨rest.reverse, s, m, ?_, hs⟩
  have := congrArg List.reverse hr
  simpa using this

theorem highest_loop_found (o n : Nat) (pre : List BinomialTree) (s : BinomialTree)
    (hs : s ≠ NULL) : ∀ (m : Nat) (tail : List BinomialTree),
    highest_loop ⟨o, n, pre ++ s :: (List.replicate m NULL ++ tail)⟩ (pre.length + 1 + m)
      = .ok (⟨o, n, pre ++ NULL :: (List.replicate m NULL ++ tail)⟩, s, pre.length + 1) := by
  intro m
  induction m with
  | zero =>
    intro tail
    simp only [List.replicate_zero, List.nil_append, Nat.add_zero]
    rw [highest_loop]
    simp only [load_append, ne_eq, hs, not_false_eq_true, if_true, store_append]
  | succ m ih =>
    intro tail
    have h := ih (NULL :: tail)
    have e1 : List.replicate (m + 1) NULL ++ tail = List.replicate m NULL ++ NULL :: tail := by
      rw [List.replicate_succ']; simp
    have e2 : pre ++ s :: (List.replicate m NULL ++ NULL :: tail)
        = (pre ++ s :: List.replicate m NULL) ++ NULL :: tail := by simp
    have e3 : (pre ++ s :: List.replicate m NULL).length = pre.length + 1 + m := by
      simp; omega
    rw [e1, show pre.length + 1 + (m + 1) = (pre.length + 1 + m) + 1 by omega, highest_loop]
    have hload : load ⟨o, n, pre ++ s :: (List.replicate m NULL ++ NULL :: tail)⟩
        (pre.length + 1 + m) = .ok NULL := by
      rw [e2, ← e3]; exact load_append _ _ _ _ _
    simp only [hload, ne_eq, not_true_eq_false, if_false, h]

/-- The function `remove_highest` on a forest whose highest occupied slot is
the one after `pre`, in terms of the slot list. -/
theorem remove_highest_decomp {o n m a k : Nat} {c s : BinomialTree} {pre : List BinomialTree}
    (h : wf_forest ⟨o, n, pre ++ node a k c s :: List.replicate m NULL⟩) (ho : o ≤ 32) :
    k = pre.length ∧ s = NULL ∧ wf_chain k c ∧ k < 32 ∧ n = count_slots 0 pre + 2 ^ k ∧
    count_slots 0 pre < 2 ^ k ∧ wf_slots 0 pre ∧
    remove_highest ⟨o, n, pre ++ node a k c s :: List.replicate m NULL⟩
      = .ok (⟨o, n - 2 ^ k, pre ++ NULL :: List.replicate m NULL⟩, node a k c NULL) ∧
    wf_forest ⟨o, n - 2 ^ k, pre ++ NULL :: List.replicate m NULL⟩ := by
  obtain ⟨hl, hw, hn⟩ := wf_forest_mk.1 h
  obtain ⟨hwpre, hw2⟩ := wf_slots_append.1 hw
  simp only [Nat.zero_add] at hw2
  obtain ⟨hs, -⟩ := wf_slots_cons.1 hw2
  have hs' := hs.resolve_left (by simp)
  obtain ⟨hsib, hc⟩ := wf_tree_node.1 hs'.1
  have hk : k = pre.length := hs'.2
  subst hsib
  rw [count_slots_append, count_slots_cons, count_slots_replicate_NULL] at hn
  simp only [Nat.zero_add, reduceCtorEq, if_false, Nat.add_zero] at hn
  have hlen : pre.length + (m + 1) = o := by simpa using hl
  have hnlt : n < 2 ^ 32 := by simpa using num_nodes_lt_of_wf h ho
  have hcp : count_slots 0 pre < 2 ^ pre.length := by
    have := count_slots_lt pre 0
    simp only [pow_zero, Nat.zero_add] at this
    omega
  have hwf1 : wf_forest ⟨o, n - 2 ^ k, pre ++ NULL :: List.replicate m NULL⟩ := by
    refine wf_forest_mk.2 ⟨by simpa using hl, ?_, ?_⟩
    · refine wf_slots_append.2 ⟨hwpre, ?_⟩
      exact wf_slots_cons.2 ⟨Or.inl rfl, wf_slots_replicate_NULL _ _⟩
    · rw [count_slots_append, count_slots_cons, count_slots_replicate_NULL]
      simp only [if_true, Nat.add_zero]
      rw [hk]; omega
  refine ⟨hk, rfl, hc, by omega, by rw [hk]; omega, by rw [hk]; exact hcp, hwpre, ?_, hwf1⟩
  have hne : ¬ all_empty ⟨o, n, pre ++ node a k c NULL :: List.replicate m NULL⟩ := by
    intro hall
    have := (all_empty_iff hl).1 hall (node a k c NULL) (by simp)
    simp at this
  have hem := empty_eq_of_wf h
  rw [decide_eq_false hne] at hem
  have h1 := highest_loop_found o n pre (node a k c NULL) (by simp) m []
  simp only [List.append_nil] at h1
  have ho' : o = pre.length + 1 + m := by omega
  have hpo : 0 < o := by omega
  have hp2 : 2 ^ k ≤ n := by rw [hk]; omega
  simp only [remove_highest, hem]
  rw [if_neg (not_not.2 hpo)]
  rw [ho'] at h1 ⊢
  rw [h1]
  simp only [gt_iff_lt, Nat.zero_lt_succ, not_true_eq_false, if_false, ne_eq,
    Nat.add_sub_cancel, hk, POW_2_of_lt (show pre.length < 32 by omega)]
  rw [hk] at hp2
  rw [u32_sub hp2 hnlt]

/-- The function `remove_highest` on a well-formed forest without nodes returns
`NULL` and leaves the forest as it is. -/
theorem remove_highest_empty {f : BinomialForest} (h : wf_forest f) (he : all_empty f) :
    remove_highest f = .ok (f, NULL) := by
  simp only [remove_highest, empty_eq_of_wf h, decide_eq_true he]

/-! ## split_merge -/

theorem load_at {o n i : Nat} {pre : List BinomialTree} {s : BinomialTree}
    {suf : List BinomialTree} (hi : i = pre.length) :
    load ⟨o, n, pre ++ s :: suf⟩ i = .ok s := by
  subst hi; exact load_append _ _ _ _ _

theorem store_at {o n i : Nat} {pre : List BinomialTree} {s : BinomialTree}
    {suf : List BinomialTree} (t : BinomialTree) (hi : i = pre.length) :
    store ⟨o, n, pre ++ s :: suf⟩ i t = .ok ⟨o, n, pre ++ t :: suf⟩ := by
  subst hi; exact store_append _ _ _ _ _ _

/-- The function `split_merge` on the last node of a forest. -/
theorem split_merge_zero {f : BinomialForest} (a : Nat) (h : wf_forest f) (he : all_empty f) :
    split_merge f (node a 0 NULL NULL) = .ok (f, node a 0 NULL NULL) := by
  simp only [split_merge, binomial_tree_unlink, if_true, BinomialTree.order, ne_eq,
    not_true_eq_false, if_false, empty_eq_of_wf h, decide_eq_true he]

/-- The function `split_merge` when the slot below the removed tree is free:
the remainder goes into that slot. -/
theorem split_merge_free (o n a ca k : Nat) (cc cs x : BinomialTree)
    (pre rest : List BinomialTree) (hk : k = pre.length) (hk32 : k < 32)
    (hn : n + 2 ^ k < 2 ^ 32) :
    split_merge ⟨o, n, pre ++ NULL :: x :: rest⟩ (node a (k + 1) (node ca k cc cs) NULL)
      = .ok (⟨o, n + 2 ^ k, pre ++ node a k cs NULL :: x :: rest⟩, node ca k cc NULL) := by
  simp only [split_merge, binomial_tree_unlink, Nat.succ_ne_zero, if_false, ne_eq,
    not_true_eq_false, Nat.add_sub_cancel, BinomialTree.order, load_at hk, if_true,
    store_at _ hk, POW_2_of_lt hk32]
  rw [u32_of_lt hn]

/-- The function `split_merge` when the slot below the removed tree is occupied:
the remainder becomes the leftmost child of the occupant, which moves up. -/
theorem split_merge_occupied (o n a ca oa k : Nat) (cc cs oc x : BinomialTree)
    (pre rest : List BinomialTree) (hk : k = pre.length) (hk32 : k < 32)
    (hn : n + 2 ^ k < 2 ^ 32) :
    split_merge ⟨o, n, pre ++ node oa k oc NULL :: x :: rest⟩
        (node a (k + 1) (node ca k cc cs) NULL)
      = .ok (⟨o, n + 2 ^ k, pre ++ NULL :: node oa (k + 1) (node a k cs oc) NULL :: rest⟩,
          node ca k cc NULL) := by
  have hk1 : k + 1 < 2 ^ 32 := by
    have : (32 : Nat) < 2 ^ 32 := by decide
    omega
  have e1 : pre ++ node oa k oc NULL :: x :: rest
      = (pre ++ [node oa k oc NULL]) ++ x :: rest := by simp
  have hst : store ⟨o, n, pre ++ node oa k oc NULL :: x :: rest⟩ (k + 1)
      (node oa (k + 1) (node a k cs oc) NULL)
      = .ok ⟨o, n, pre ++ node oa k oc NULL :: node oa (k + 1) (node a k cs oc) NULL :: rest⟩ := by
    rw [e1, store_at _ (by simp [hk])]; simp
  simp only [split_merge, binomial_tree_unlink, Nat.succ_ne_zero, if_false, ne_eq,
    not_true_eq_false, Nat.add_sub_cancel, BinomialTree.order, load_at hk, if_true,
    reduceCtorEq, not_false_eq_true, binomial_tree_link, u32_of_lt hk1, hst,
    store_at _ hk, POW_2_of_lt hk32]
  rw [u32_of_lt hn]

/-! ## Steal family -/

theorem getD_highest_gt (pre : List BinomialTree) (s : BinomialTree) (m : Nat) {i : Nat}
    (hi : pre.length < i) : (pre ++ s :: List.replicate m NULL).getD i NULL = NULL := by
  obtain ⟨j, rfl⟩ : ∃ j, i = pre.length + (j + 1) := ⟨i - pre.length - 1, by omega⟩
  rw [getD_append_add]
  simp only [List.getD_eq_getElem?_getD, List.getElem?_cons_succ, List.getElem?_replicate]
  split <;> rfl

theorem not_all_empty_iff {f : BinomialForest} (hl : f.trees.length = f.order) :
    ¬ all_empty f ↔ ∃ x ∈ f.trees, x ≠ NULL := by
  rw [all_empty_iff hl]
  push_neg
  rfl

/-- Every well-formed forest that holds a node has a highest occupied slot:
its slot list is `pre ++ node a k c NULL :: NULL ... NULL` with `k` the length
of `pre`. -/
theorem exists_highest_of_wf {f : BinomialForest} (h : wf_forest f) (hne : ¬ all_empty f) :
    ∃ pre a k c m, f = ⟨f.order, f.num_nodes, pre ++ node a k c NULL :: List.replicate m NULL⟩ ∧
      k = pre.length ∧ wf_chain k c := by
  obtain ⟨o, n, l⟩ := f
  obtain ⟨hl, hw, -⟩ := wf_forest_mk.1 h
  obtain ⟨pre, s, m, rfl, hs⟩ := exists_highest l ((not_all_empty_iff hl).1 hne)
  cases s with
  | NULL => exact absurd rfl hs
  | node a k c s =>
    obtain ⟨-, hw2⟩ := wf_slots_append.1 hw
    obtain ⟨h0, -⟩ := wf_slots_cons.1 hw2
    have h0' := h0.resolve_left (by simp)
    obtain ⟨rfl, hc⟩ := wf_tree_node.1 h0'.1
    refine ⟨pre, a, k, c, m, rfl, ?_, hc⟩
    simpa [BinomialTree.order] using h0'.2

/-- The function `split_merge` applied to what `remove_highest` leaves and
returns, for a well-formed forest whose highest occupied slot is `k`. -/
theorem split_merge_after_remove {o n m a k : Nat} {c : BinomialTree} {pre : List BinomialTree}
    (h : wf_forest ⟨o, n, pre ++ node a k c NULL :: List.replicate m NULL⟩) (ho : o ≤ 32) :
    ∃ f2 t, split_merge ⟨o, n - 2 ^ k, pre ++ NULL :: List.replicate m NULL⟩ (node a k c NULL)
        = .ok (f2, t) ∧ wf_forest f2 ∧ f2.order = o ∧ wf_tree t ∧
      to_stack ⟨o, n, pre ++ node a k c NULL :: List.replicate m NULL⟩ = to_stack f2 ++ elems t ∧
      f2.num_nodes + 2 ^ t.order = n ∧ t.order = k - 1 := by
  obtain ⟨hk, -, hc, hk32, hn, hcp, hwpre, -, hwf1⟩ := remove_highest_decomp h ho
  obtain ⟨hl, -, -⟩ := wf_forest_mk.1 h
  have hlen : pre.length + (m + 1) = o := by simpa using hl
  have hnlt : n < 2 ^ 32 := by simpa using num_nodes_lt_of_wf h ho
  cases k with
  | zero =>
    have hpre : pre = [] := List.length_eq_zero.1 hk.symm
    subst hpre
    have hcn : c = NULL := wf_chain_zero.1 hc
    subst hcn
    simp only [count_slots, pow_zero, Nat.zero_add] at hn
    subst hn
    have he1 : all_empty ⟨o, 1 - 2 ^ 0, [] ++ NULL :: List.replicate m NULL⟩ := by
      refine (all_empty_iff (by simpa using hl)).2 ?_
      intro x hx
      simp only [List.nil_append, List.mem_cons, List.mem_replicate] at hx
      rcases hx with hx | hx
      · exact hx
      · exact hx.2
    refine ⟨_, _, split_merge_zero a hwf1 he1, hwf1, rfl, by simp [wf_tree_node, wf_chain],
      ?_, ?_, rfl⟩
    · simp [to_stack_mk, slots_elems_cons, slots_elems_replicate_NULL, elems]
    · simp [BinomialTree.order]
  | succ k =>
    obtain ⟨ca, cc, cs, rfl, hcc, hcs⟩ := wf_chain_succ.1 hc
    obtain ⟨pre', occ, rfl⟩ : ∃ pre' occ, pre = pre' ++ [occ] := by
      rcases List.eq_nil_or_concat pre with h | ⟨p, x, h⟩
      · simp [h] at hk
      · exact ⟨p, x, by simpa using h⟩
    have hk' : k = pre'.length := by simpa using hk
    obtain ⟨hwpre', hwocc⟩ := wf_slots_append.1 hwpre
    simp only [Nat.zero_add] at hwocc
    obtain ⟨hocc, -⟩ := wf_slots_cons.1 hwocc
    rw [count_slots_append, count_slots_cons] at hn hcp
    simp only [count_slots, Nat.zero_add, Nat.add_zero, ← hk'] at hn hcp
    have hp : 2 ^ (k + 1) = 2 * 2 ^ k := by rw [pow_succ]; omega
    have hcp' : count_slots 0 pre' < 2 ^ k := by
      have := count_slots_lt pre' 0
      simp only [pow_zero, Nat.zero_add, ← hk'] at this
      omega
    have hlen' : pre'.length + 1 + (m + 1) = o := by simpa using hlen
    simp only [List.append_assoc, List.singleton_append]
    rcases hocc with rfl | ⟨hoccw, hocco⟩
    · simp only [if_true, Nat.add_zero] at hn hcp
      rw [split_merge_free _ _ _ _ _ _ _ _ _ _ hk' (by omega) (by omega)]
      refine ⟨_, _, rfl, ?_, rfl, wf_tree_node.2 ⟨rfl, hcc⟩, ?_, ?_, rfl⟩
      · refine wf_forest_mk.2 ⟨by simp; omega, ?_, ?_⟩
        · refine wf_slots_append.2 ⟨hwpre', ?_⟩
          rw [Nat.zero_add, ← hk']
          exact wf_slots_cons.2 ⟨Or.inr ⟨wf_tree_node.2 ⟨rfl, hcs⟩, rfl⟩,
            wf_slots_cons.2 ⟨Or.inl rfl, wf_slots_replicate_NULL _ _⟩⟩
        · rw [count_slots_append, count_slots_cons, count_slots_cons,
            count_slots_replicate_NULL]
          simp only [reduceCtorEq, if_false, if_true, Nat.zero_add, ← hk']
          omega
      · simp [to_stack_mk, slots_elems_append, slots_elems_cons, slots_elems_replicate_NULL,
          elems, slots_elems]
      · simp only [BinomialTree.order]; omega
    · cases occ with
      | NULL => exact absurd rfl hoccw.1
      | node oa ok oc os =>
        obtain ⟨rfl, hoc⟩ := wf_tree_node.1 hoccw
        simp only [BinomialTree.order] at hocco
        rw [← hk'] at hocco
        subst hocco
        simp only [reduceCtorEq, if_false] at hn hcp
        rw [split_merge_occupied _ _ _ _ _ _ _ _ _ _ _ _ hk' (by omega) (by omega)]
        refine ⟨_, _, rfl, ?_, rfl, wf_tree_node.2 ⟨rfl, hcc⟩, ?_, ?_, rfl⟩
        · refine wf_forest_mk.2 ⟨by simp; omega, ?_, ?_⟩
          · refine wf_slots_append.2 ⟨hwpre', ?_⟩
            rw [Nat.zero_add, ← hk']
            refine wf_slots_cons.2 ⟨Or.inl rfl, wf_slots_cons.2 ⟨Or.inr ⟨?_, rfl⟩,
              wf_slots_replicate_NULL _ _⟩⟩
            exact wf_tree_node.2 ⟨rfl, rfl, hcs, hoc⟩
          · rw [count_slots_append, count_slots_cons, count_slots_cons,
              count_slots_replicate_NULL]
            simp only [reduceCtorEq, if_false, if_true, Nat.zero_add, ← hk']
            omega
        · simp [to_stack_mk, slots_elems_append, slots_elems_cons, slots_elems_replicate_NULL,
            elems, slots_elems]
        · simp only [BinomialTree.order]; omega

/-- Facts on the highest occupied slot `k` of a well-formed forest given by its
slot list. -/
theorem highest_slot_facts {o n m a k : Nat} {c : BinomialTree} {pre : List BinomialTree}
    (h : wf_forest ⟨o, n, pre ++ node a k c NULL :: List.replicate m NULL⟩) (ho : o ≤ 32) :
    k < o ∧ slot ⟨o, n, pre ++ node a k c NULL :: List.replicate m NULL⟩ k = node a k c NULL ∧
    (∀ i, k < i → slot ⟨o, n, pre ++ node a k c NULL :: List.replicate m NULL⟩ i = NULL) ∧
    2 ^ k ≤ n ∧ n < 2 * 2 ^ k ∧
    (n = 2 ^ k ↔ ∀ i, i < k → slot ⟨o, n, pre ++ node a k c NULL :: List.replicate m NULL⟩ i = NULL) := by
  obtain ⟨hk, -, hc, hk32, hn, hcp, hwpre, -, hwf1⟩ := remove_highest_decomp h ho
  obtain ⟨hl, -, -⟩ := wf_forest_mk.1 h
  have hlen : pre.length + (m + 1) = o := by simpa using hl
  refine ⟨by omega, ?_, ?_, by omega, by omega, ?_⟩
  · rw [slot_mk, hk, getD_append_length]
  · intro i hi
    rw [slot_mk]; exact getD_highest_gt _ _ _ (hk ▸ hi)
  · have hz : n = 2 ^ k ↔ count_slots 0 pre = 0 := by omega
    rw [hz, count_slots_eq_zero]
    constructor
    · intro hall i hi
      rw [slot_mk, List.getD_eq_getElem?_getD, List.getElem?_append_left (by omega),
        List.getElem?_eq_getElem (by omega)]
      exact hall _ (List.getElem_mem _)
    · intro hall x hx
      obtain ⟨i, hi, rfl⟩ := List.getElem_of_mem hx
      have := hall i (by omega)
      rw [slot_mk, List.getD_eq_getElem?_getD, List.getElem?_append_left hi,
        List.getElem?_eq_getElem hi] at this
      simpa using this

/-! ## alloc and seed -/

theorem wf_forest_replicate (n : Nat) : wf_forest ⟨n, 0, List.replicate n NULL⟩ :=
  wf_forest_mk.2 ⟨by simp, wf_slots_replicate_NULL _ _, (count_slots_replicate_NULL _ _).symm⟩

theorem all_empty_replicate (o n m : Nat) : all_empty ⟨o, n, List.replicate m NULL⟩ := by
  intro i _
  rw [slot_mk, List.getD_eq_getElem?_getD, List.getElem?_replicate]
  split <;> rfl

theorem eq_replicate_of_all_empty {f : BinomialForest} (hl : f.trees.length = f.order)
    (he : all_empty f) : f.trees = List.replicate f.order NULL := by
  rw [← hl]; exact List.eq_replicate_of_mem ((all_empty_iff hl).1 he)

theorem num_nodes_eq_zero_of_all_empty {f : BinomialForest} (h : wf_forest f)
    (he : all_empty f) : f.num_nodes = 0 := by
  obtain ⟨hl, -, hn⟩ := (wf_forest_iff f).1 h
  rw [hn]; exact count_slots_eq_zero.2 ((all_empty_iff hl).1 he)

/-- The function `binomial_forest_alloc` with `n ≤ 32` returns the empty forest
of capacity exponent `n`. -/
theorem alloc_spec {n : Nat} (hn : n ≤ 32) :
    binomial_forest_alloc n = .ok ⟨n, 0, List.replicate n NULL⟩ := by
  simp [binomial_forest_alloc, hn]

theorem replicate_split {k o : Nat} (h : k < o) : List.replicate o NULL
    = List.replicate k NULL ++ NULL :: List.replicate (o - k - 1) NULL := by
  have : o = k + ((o - k - 1) + 1) := by omega
  conv_lhs => rw [this, List.replicate_add, List.replicate_succ]

/-- The forest that `binomial_forest_seed` builds from a tree of order `k`. -/
theorem wf_forest_seeded {o a k : Nat} {c : BinomialTree} (hc : wf_chain k c) (hk : k < o) :
    wf_forest ⟨o, 2 ^ k, List.replicate k NULL ++ node a k c NULL :: List.replicate (o - k - 1) NULL⟩ := by
  refine wf_forest_mk.2 ⟨by simp; omega, ?_, ?_⟩
  · refine wf_slots_append.2 ⟨wf_slots_replicate_NULL _ _, ?_⟩
    simp only [List.length_replicate, Nat.zero_add]
    exact wf_slots_cons.2 ⟨Or.inr ⟨wf_tree_node.2 ⟨rfl, hc⟩, rfl⟩, wf_slots_replicate_NULL _ _⟩
  · rw [count_slots_append, count_slots_cons, count_slots_replicate_NULL,
      count_slots_replicate_NULL]
    simp

/-- The function `binomial_forest_seed` on a well-formed empty forest. -/
theorem seed_some_spec {g : BinomialForest} {a k : Nat} {c : BinomialTree}
    (hg : wf_forest g) (he : all_empty g) (ho : g.order ≤ 32) (hk : k < g.order) :
    binomial_forest_seed (some g) (node a k c NULL) = .ok ⟨g.order, 2 ^ k,
      List.replicate k NULL ++ node a k c NULL :: List.replicate (g.order - k - 1) NULL⟩ := by
  have hem := empty_eq_of_wf hg
  rw [decide_eq_true he] at hem
  obtain ⟨o, n, l⟩ := g
  obtain ⟨hl, -, -⟩ := wf_forest_mk.1 hg
  have hrep : l = List.replicate o NULL := eq_replicate_of_all_empty hl he
  subst hrep
  simp only at hk ho
  simp only [binomial_forest_seed, hem, hk, not_true_eq_false, if_false,
    POW_2_of_lt (show k < 32 by omega)]
  have hst : store ⟨o, n, List.replicate o NULL⟩ k (node a k c NULL) = .ok ⟨o, n,
      List.replicate k NULL ++ node a k c NULL :: List.replicate (o - k - 1) NULL⟩ := by
    rw [replicate_split hk]
    exact store_at _ (by simp)
  rw [hst]

/-- The function `binomial_forest_seed` with a `NULL` first argument. -/
theorem seed_none_spec {a k : Nat} {c : BinomialTree} (hk : k ≤ 31) :
    binomial_forest_seed none (node a k c NULL) = .ok ⟨k + 1, 2 ^ k,
      List.replicate k NULL ++ [node a k c NULL]⟩ := by
  have hlt : k + 1 < 2 ^ 32 := by
    have : (32 : Nat) < 2 ^ 32 := by decide
    omega
  have h1 := seed_some_spec (a := a) (c := c) (wf_forest_replicate (k + 1))
    (all_empty_replicate _ _ _) (show k + 1 ≤ 32 by omega) (Nat.lt_succ_self k)
  simp only [Nat.add_sub_cancel_left, Nat.sub_self, List.replicate_zero] at h1
  rw [← h1]
  simp only [binomial_forest_seed, u32_of_lt hlt, alloc_spec (show k + 1 ≤ 32 by omega)]

theorem to_stack_seeded (o n a k m : Nat) (c : BinomialTree) :
    to_stack ⟨o, n, List.replicate k NULL ++ node a k c NULL :: List.replicate m NULL⟩
      = elems (node a k c NULL) := by
  simp [to_stack_mk, slots_elems_append, slots_elems_cons, slots_elems_replicate_NULL]

theorem to_stack_eq_nil_of_all_empty {f : BinomialForest} (hl : f.trees.length = f.order)
    (he : all_empty f) : to_stack f = [] := by
  unfold to_stack
  rw [eq_replicate_of_all_empty hl he]; exact slots_elems_replicate_NULL _

theorem length_to_stack {f : BinomialForest} (h : wf_forest f) :
    (to_stack f).length = f.num_nodes := by
  obtain ⟨-, hw, hn⟩ := (wf_forest_iff f).1 h
  rw [hn]; exact length_slots_elems hw

theorem all_empty_iff_num_nodes {f : BinomialForest} (h : wf_forest f) :
    all_empty f ↔ f.num_nodes = 0 := by
  obtain ⟨hl, -, hn⟩ := (wf_forest_iff f).1 h
  rw [all_empty_iff hl, hn, count_slots_eq_zero]

theorem count_slots_full_iff (l : List BinomialTree) : ∀ i,
    count_slots i l + 2 ^ i = 2 ^ (i + l.length) ↔ ∀ x ∈ l, x ≠ NULL := by
  induction l with
  | nil => intro i; simp [count_slots]
  | cons t ts ih =>
    intro i
    have hlt := count_slots_lt ts (i + 1)
    have h2 : 2 ^ (i + 1) = 2 * 2 ^ i := by rw [pow_succ]; omega
    have hpos : 0 < 2 ^ i := by positivity
    have e : i + (t :: ts).length = i + 1 + ts.length := by simp; omega
    rw [count_slots_cons, e, List.forall_mem_cons, ← ih (i + 1)]
    by_cases ht : t = NULL
    · simp only [ht, if_true, ne_eq, not_true_eq_false, false_and, iff_false]
      omega
    · simp only [ht, if_false, ne_eq, not_false_eq_true, true_and]
      omega

theorem all_occupied_iff_num_nodes {f : BinomialForest} (h : wf_forest f) :
    all_occupied f ↔ f.num_nodes = 2 ^ f.order - 1 := by
  obtain ⟨hl, -, hn⟩ := (wf_forest_iff f).1 h
  rw [all_occupied_iff hl, hn]
  have hlt := count_slots_lt f.trees 0
  simp only [pow_zero, Nat.zero_add, hl] at hlt
  constructor
  · intro hocc
    have := count_slots_all_occupied (i := 0) hocc
    simp only [pow_zero, Nat.zero_add, hl] at this
    omega
  · intro hc
    have hpos : 0 < 2 ^ f.order := by positivity
    have hfull : count_slots 0 f.trees + 1 = 2 ^ (0 + f.trees.length) := by
      rw [Nat.zero_add, hl]; omega
    exact (count_slots_full_iff f.trees 0).1 (by simpa using hfull)

/-! ## Runs of pushes and pops against the reference stack -/

theorem run_push (f : BinomialForest) (a : Nat) (ops : List Op) :
    run f (Op.push a :: ops) =
      match binomial_forest_push f (BINOMIAL_TREE_INIT a) with
      | .error e => .error e
      | .ok f1 => run f1 ops := rfl

theorem run_pop (f : BinomialForest) (ops : List Op) :
    run f (Op.pop :: ops) =
      match binomial_forest_pop f with
      | .error e => .error e
      | .ok (f1, t) =>
        match run f1 ops with
        | .error e => .error e
        | .ok (f2, ts) => .ok (f2, t :: ts) := rfl

theorem stack_run_push (a : Nat) (ops : List Op) (st : List Nat) :
    stack_run (Op.push a :: ops) st = stack_run ops (a :: st) := rfl

theorem stack_run_pop (ops : List Op) (st : List Nat) :
    stack_run (Op.pop :: ops) st
      = ((stack_run ops st.tail).1, st.head? :: (stack_run ops st.tail).2) := rfl

theorem not_all_occupied_of_lt {f : BinomialForest} (h : wf_forest f)
    (hlt : (to_stack f).length < 2 ^ f.order - 1) : ¬ all_occupied f := by
  rw [all_occupied_iff_num_nodes h, ← length_to_stack h]
  omega

theorem all_empty_iff_to_stack {f : BinomialForest} (h : wf_forest f) :
    all_empty f ↔ to_stack f = [] := by
  rw [all_empty_iff_num_nodes h, ← length_to_stack h, List.length_eq_zero]

/-- Any admissible sequence of calls on a well-formed forest runs to its end, and
the pops return what the reference stack returns. -/
theorem run_refines (ops : List Op) : ∀ (f : BinomialForest), wf_forest f → f.order ≤ 32 →
    admissible (2 ^ f.order - 1) ops (to_stack f) →
    ∃ f1 ts, run f ops = .ok (f1, ts) ∧ wf_forest f1 ∧ f1.order = f.order ∧
      ts.map ptr = (stack_run ops (to_stack f)).2 ∧ to_stack f1 = (stack_run ops (to_stack f)).1 := by
  induction ops with
  | nil => intro f h _ _; exact ⟨f, [], rfl, h, rfl, rfl, rfl⟩
  | cons op ops ih =>
    intro f h ho hadm
    cases op with
    | push a =>
      obtain ⟨-, hlt, hadm'⟩ := hadm
      obtain ⟨f1, hpush, hw1, ho1, -, hst1⟩ :=
        push_spec a h ho (not_all_occupied_of_lt h hlt)
      rw [← hst1, ← ho1] at hadm'
      obtain ⟨f2, ts, hrun, hw2, ho2, hts, hst2⟩ := ih f1 hw1 (ho1 ▸ ho) hadm'
      refine ⟨f2, ts, ?_, hw2, ho2.trans ho1, ?_, ?_⟩
      · simp only [run, hpush, hrun]
      · simpa only [stack_run, hst1] using hts
      · simpa only [stack_run, hst1] using hst2
    | pop =>
      have hadm' : admissible (2 ^ f.order - 1) ops (to_stack f).tail := hadm
      by_cases he : all_empty f
      · have hnil : to_stack f = [] := (all_empty_iff_to_stack h).1 he
        rw [hnil] at hadm'
        simp only [List.tail_nil] at hadm'
        rw [← hnil] at hadm'
        obtain ⟨f2, ts, hrun, hw2, ho2, hts, hst2⟩ := ih f h ho hadm'
        refine ⟨f2, NULL :: ts, ?_, hw2, ho2, ?_, ?_⟩
        · simp only [run, pop_empty h he, hrun]
        · simp only [List.map_cons, ptr, stack_run, hts, hnil, List.head?_nil, List.tail_nil]
        · simp only [stack_run, hst2, hnil, List.tail_nil]
      · obtain ⟨f1, a, m, hpop, hw1, ho1, -, hst1, -⟩ := pop_spec h ho he
        rw [hst1, List.tail_cons, ← ho1] at hadm'
        obtain ⟨f2, ts, hrun, hw2, ho2, hts, hst2⟩ := ih f1 hw1 (ho1 ▸ ho) hadm'
        refine ⟨f2, node a m NULL NULL :: ts, ?_, hw2, ho2.trans ho1, ?_, ?_⟩
        · simp only [run, hpop, hrun]
        · simp only [List.map_cons, ptr, stack_run, hts, hst1, List.head?_cons, List.tail_cons]
        · simp only [stack_run, hst2, hst1, List.tail_cons]

theorem stack_run_pushes (as : List Nat) : ∀ (ops : List Op) (st : List Nat),
    stack_run (as.map Op.push ++ ops) st = stack_run ops (as.reverse ++ st) := by
  induction as with
  | nil => intro ops st; rfl
  | cons a as ih =>
    intro ops st
    rw [List.map_cons, List.cons_append, stack_run_push, ih, List.reverse_cons,
      List.append_assoc, List.singleton_append]

theorem stack_run_pops (st : List Nat) :
    stack_run (List.replicate st.length Op.pop) st = ([], st.map some) := by
  induction st with
  | nil => rfl
  | cons a st ih =>
    simp only [List.length_cons, List.replicate_succ, stack_run, List.tail_cons, ih,
      List.head?_cons, List.map_cons]

theorem admissible_pops (cap k : Nat) : ∀ st : List Nat, admissible cap (List.replicate k Op.pop) st := by
  induction k with
  | zero => intro st; trivial
  | succ k ih => intro st; exact ih st.tail

theorem admissible_pushes (cap : Nat) (as : List Nat) : ∀ (ops : List Op) (st : List Nat),
    as.Nodup → (∀ a ∈ as, a ∉ st) → st.length + as.length ≤ cap →
    admissible cap ops (as.reverse ++ st) → admissible cap (as.map Op.push ++ ops) st := by
  induction as with
  | nil => intro ops st _ _ _ h; exact h
  | cons a as ih =>
    intro ops st hnd hdis hlen hadm
    obtain ⟨ha, hnd'⟩ := List.nodup_cons.1 hnd
    simp only [List.length_cons] at hlen
    refine ⟨hdis a (List.mem_cons_self _ _), by omega, ?_⟩
    refine ih ops (a :: st) hnd' ?_ (by simp only [List.length_cons]; omega) ?_
    · intro b hb hmem
      rcases List.mem_cons.1 hmem with h | h
      · exact ha (h ▸ hb)
      · exact hdis b (List.mem_cons_of_mem _ hb) h
    · simpa only [List.reverse_cons, List.append_assoc, List.singleton_append] using hadm

/-- Pushing fresh nodes at distinct addresses, within capacity, into a
well-formed forest without nodes: the run returns and the stack is the reverse
of the push order. -/
theorem run_pushes {f : BinomialForest} (as : List Nat) (h : wf_forest f) (ho : f.order ≤ 32)
    (he : all_empty f) (hnd : as.Nodup) (hlen : as.length ≤ 2 ^ f.order - 1) :
    ∃ f1, run f (as.map Op.push) = .ok (f1, []) ∧ wf_forest f1 ∧ f1.order = f.order ∧
      to_stack f1 = as.reverse ∧ f1.num_nodes = as.length := by
  have hnil := (all_empty_iff_to_stack h).1 he
  have hadm : admissible (2 ^ f.order - 1) (as.map Op.push ++ []) (to_stack f) :=
    admissible_pushes _ as [] _ hnd (by simp [hnil]) (by simp [hnil, hlen]) trivial
  rw [List.append_nil] at hadm
  obtain ⟨f1, ts, hrun, hw1, ho1, hts, hst⟩ := run_refines _ f h ho hadm
  have hsr := stack_run_pushes as [] (to_stack f)
  rw [List.append_nil] at hsr
  rw [hsr, hnil] at hts hst
  simp only [stack_run, List.append_nil, List.map_eq_nil_iff] at hts hst
  subst hts
  refine ⟨f1, hrun, hw1, ho1, hst, ?_⟩
  rw [← length_to_stack hw1, hst, List.length_reverse]

/-- Popping a well-formed forest as many times as it has nodes: the run returns
the nodes of the stack from the top down and leaves the forest without nodes. -/
theorem run_drain {f : BinomialForest} (h : wf_forest f) (ho : f.order ≤ 32) :
    ∃ f1 ts, run f (List.replicate f.num_nodes Op.pop) = .ok (f1, ts) ∧ wf_forest f1 ∧
      f1.order = f.order ∧ ts.map ptr = (to_stack f).map some ∧ all_empty f1 ∧
      binomial_forest_empty f1 = .ok true := by
  obtain ⟨f1, ts, hrun, hw1, ho1, hts, hst⟩ :=
    run_refines (List.replicate f.num_nodes Op.pop) f h ho (admissible_pops _ _ _)
  rw [← length_to_stack h, stack_run_pops] at hts hst
  have he : all_empty f1 := (all_empty_iff_to_stack hw1).2 hst
  refine ⟨f1, ts, hrun, hw1, ho1, hts, he, ?_⟩
  rw [empty_eq_of_wf hw1, decide_eq_true he]

theorem run_append (ops1 : List Op) : ∀ (ops2 : List Op) (f f1 f2 : BinomialForest)
    (ts1 ts2 : List BinomialTree), run f ops1 = .ok (f1, ts1) → run f1 ops2 = .ok (f2, ts2) →
    run f (ops1 ++ ops2) = .ok (f2, ts1 ++ ts2) := by
  induction ops1 with
  | nil =>
    intro ops2 f f1 f2 ts1 ts2 h1 h2
    simp only [run, Except.ok.injEq, Prod.mk.injEq] at h1
    obtain ⟨rfl, rfl⟩ := h1
    simpa using h2
  | cons op ops1 ih =>
    intro ops2 f f1 f2 ts1 ts2 h1 h2
    cases op with
    | push a =>
      rw [List.cons_append, run_push]
      rw [run_push] at h1
      cases hp : binomial_forest_push f (BINOMIAL_TREE_INIT a) with
      | error e => simp [hp] at h1
      | ok f' =>
        simp only [hp] at h1 ⊢
        exact ih ops2 f' f1 f2 ts1 ts2 h1 h2
    | pop =>
      rw [List.cons_append, run_pop]
      rw [run_pop] at h1
      cases hp : binomial_forest_pop f with
      | error e => simp [hp] at h1
      | ok r =>
        obtain ⟨f', t⟩ := r
        simp only [hp] at h1 ⊢
        cases hr : run f' ops1 with
        | error e => simp [hr] at h1
        | ok r' =>
          obtain ⟨f'', ts'⟩ := r'
          simp only [hr, Except.ok.injEq, Prod.mk.injEq] at h1
          obtain ⟨rfl, rfl⟩ := h1
          rw [ih ops2 f' f'' f2 ts' ts2 hr h2]
          simp

/-! ## The three steal functions on a well-formed forest -/

/-- The function `binomial_forest_steal_2` on a well-formed forest that holds a
node: it returns the tree of the highest occupied slot `k`. -/
theorem steal_2_spec {f : BinomialForest} (h : wf_forest f) (ho : f.order ≤ 32)
    (hne : ¬ all_empty f) :
    ∃ f1 t k, binomial_forest_steal_2 f = .ok (f1, t) ∧ wf_forest f1 ∧ f1.order = f.order ∧
      wf_tree t ∧ to_stack f = to_stack f1 ++ elems t ∧
      f1.num_nodes + 2 ^ t.order = f.num_nodes ∧
      k < f.order ∧ slot f k = t ∧ (∀ i, k < i → slot f i = NULL) ∧ t.order = k ∧
      2 ^ k ≤ f.num_nodes ∧ f.num_nodes < 2 * 2 ^ k ∧
      (f.num_nodes = 2 ^ k ↔ ∀ i, i < k → slot f i = NULL) := by
  obtain ⟨pre, a, k, c, m, hf, hk, hc⟩ := exists_highest_of_wf h hne
  obtain ⟨o, n, l⟩ := f
  simp only [BinomialForest.mk.injEq, true_and] at hf
  subst hf
  simp only at ho
  obtain ⟨-, -, -, hk32, hn, hcp, hwpre, hrh, hwf1⟩ := remove_highest_decomp h ho
  obtain ⟨hko, hsk, hgt, hle, hlt, hiff⟩ := highest_slot_facts h ho
  refine ⟨_, _, k, hrh, hwf1, rfl, wf_tree_node.2 ⟨rfl, hc⟩, ?_, ?_, hko, hsk, hgt, rfl,
    hle, hlt, hiff⟩
  · simp [to_stack_mk, slots_elems_append, slots_elems_cons, slots_elems_replicate_NULL, elems]
  · simp only [BinomialTree.order]; omega

/-- The function `binomial_forest_steal_1` on a well-formed forest that holds a
node: the tree returned has the order of the highest occupied slot `k` less
one (order 0 when `k` is 0). -/
theorem steal_1_spec {f : BinomialForest} (h : wf_forest f) (ho : f.order ≤ 32)
    (hne : ¬ all_empty f) :
    ∃ f1 t k, binomial_forest_steal_1 f = .ok (f1, t) ∧ wf_forest f1 ∧ f1.order = f.order ∧
      wf_tree t ∧ to_stack f = to_stack f1 ++ elems t ∧
      f1.num_nodes + 2 ^ t.order = f.num_nodes ∧
      k < f.order ∧ slot f k ≠ NULL ∧ (∀ i, k < i → slot f i = NULL) ∧ t.order = k - 1 ∧
      2 ^ k ≤ f.num_nodes ∧ f.num_nodes < 2 * 2 ^ k ∧
      (f.num_nodes = 2 ^ k ↔ ∀ i, i < k → slot f i = NULL) := by
  obtain ⟨pre, a, k, c, m, hf, hk, hc⟩ := exists_highest_of_wf h hne
  obtain ⟨o, n, l⟩ := f
  simp only [BinomialForest.mk.injEq, true_and] at hf
  subst hf
  simp only at ho
  obtain ⟨-, -, -, hk32, hn, hcp, hwpre, hrh, hwf1⟩ := remove_highest_decomp h ho
  obtain ⟨hko, hsk, hgt, hle, hlt, hiff⟩ := highest_slot_facts h ho
  obtain ⟨f2, t, hsm, hw2, ho2, hwt, hst, hnn, hto⟩ := split_merge_after_remove h ho
  refine ⟨f2, t, k, ?_, hw2, ho2, hwt, hst, hnn, hko, by rw [hsk]; simp, hgt, hto,
    hle, hlt, hiff⟩
  simp only [binomial_forest_steal_1, hrh, hsm]

/-- The function `binomial_forest_steal_3` on a well-formed forest that holds a
node, with `k` the highest occupied slot: it does what `binomial_forest_steal_2`
does when more than `2^k / 2` nodes lie below slot `k`, and what
`binomial_forest_steal_1` does otherwise. -/
theorem steal_3_cases {f : BinomialForest} (h : wf_forest f) (ho : f.order ≤ 32)
    (hne : ¬ all_empty f) :
    ∃ k, k < f.order ∧ slot f k ≠ NULL ∧ (∀ i, k < i → slot f i = NULL) ∧
      2 ^ k ≤ f.num_nodes ∧ f.num_nodes < 2 * 2 ^ k ∧
      (f.num_nodes - 2 ^ k > 2 ^ k / 2 → binomial_forest_steal_3 f = binomial_forest_steal_2 f) ∧
      (f.num_nodes - 2 ^ k ≤ 2 ^ k / 2 → binomial_forest_steal_3 f = binomial_forest_steal_1 f) := by
  obtain ⟨pre, a, k, c, m, hf, hk, hc⟩ := exists_highest_of_wf h hne
  obtain ⟨o, n, l⟩ := f
  simp only [BinomialForest.mk.injEq, true_and] at hf
  subst hf
  simp only at ho
  obtain ⟨-, -, -, hk32, hn, hcp, hwpre, hrh, hwf1⟩ := remove_highest_decomp h ho
  obtain ⟨hko, hsk, hgt, hle, hlt, hiff⟩ := highest_slot_facts h ho
  refine ⟨k, hko, by rw [hsk]; simp, hgt, hle, hlt, ?_, ?_⟩
  · intro hbig
    simp only at hbig
    simp only [binomial_forest_steal_3, binomial_forest_steal_2, hrh, POW_2_of_lt hk32]
    rw [if_pos hbig]
  · intro hsmall
    simp only at hsmall
    simp only [binomial_forest_steal_3, binomial_forest_steal_1, hrh, POW_2_of_lt hk32]
    rw [if_neg (by omega)]

/-- The function `binomial_forest_steal_3` on a well-formed forest that holds a
node. -/
theorem steal_3_spec {f : BinomialForest} (h : wf_forest f) (ho : f.order ≤ 32)
    (hne : ¬ all_empty f) :
    ∃ f1 t k, binomial_forest_steal_3 f = .ok (f1, t) ∧ wf_forest f1 ∧ f1.order = f.order ∧
      wf_tree t ∧ to_stack f = to_stack f1 ++ elems t ∧
      f1.num_nodes + 2 ^ t.order = f.num_nodes ∧
      k < f.order ∧ slot f k ≠ NULL ∧ (∀ i, k < i → slot f i = NULL) ∧
      2 ^ k ≤ f.num_nodes ∧ f.num_nodes < 2 * 2 ^ k ∧
      ((f.num_nodes - 2 ^ k > 2 ^ k / 2 ∧ t.order = k) ∨
       (f.num_nodes - 2 ^ k ≤ 2 ^ k / 2 ∧ t.order = k - 1)) := by
  obtain ⟨k, hko, hsk, hgt, hle, hlt, hbig, hsmall⟩ := steal_3_cases h ho hne
  have huniq : ∀ k', k' < f.order → slot f k' ≠ NULL → (∀ i, k' < i → slot f i = NULL) →
      k' = k := by
    intro k' _ hs' hg'
    rcases Nat.lt_trichotomy k' k with hlt' | heq | hgt'
    · exact absurd (hg' k hlt') hsk
    · exact heq
    · exact absurd (hgt k' hgt') hs'
  by_cases hb : f.num_nodes - 2 ^ k > 2 ^ k / 2
  · obtain ⟨f1, t, k2, hs2, hw1, ho1, hwt, hst, hnn, hk2, hsl2, hg2, hto, -⟩ :=
      steal_2_spec h ho hne
    have hk2k : k2 = k := huniq k2 hk2 (by rw [hsl2]; exact hwt.1) hg2
    subst hk2k
    exact ⟨f1, t, k2, by rw [hbig hb]; exact hs2, hw1, ho1, hwt, hst, hnn, hko, hsk, hgt,
      hle, hlt, Or.inl ⟨hb, hto⟩⟩
  · obtain ⟨f1, t, k1, hs1, hw1, ho1, hwt, hst, hnn, hk1, hsl1, hg1, hto, -⟩ :=
      steal_1_spec h ho hne
    have hk1k : k1 = k := huniq k1 hk1 hsl1 hg1
    subst hk1k
    exact ⟨f1, t, k1, by rw [hsmall (by omega)]; exact hs1, hw1, ho1, hwt, hst, hnn, hko, hsk,
      hgt, hle, hlt, Or.inr ⟨by omega, hto⟩⟩

/-- Each steal function on a well-formed forest without nodes returns `NULL` and
leaves the forest as it is. -/
theorem steal_empty {f : BinomialForest} (h : wf_forest f) (he : all_empty f) :
    binomial_forest_steal_1 f = .ok (f, NULL) ∧ binomial_forest_steal_2 f = .ok (f, NULL) ∧
    binomial_forest_steal_3 f = .ok (f, NULL) := by
  have hr := remove_highest_empty h he
  refine ⟨?_, hr, ?_⟩
  · simp only [binomial_forest_steal_1, hr, split_merge]
  · simp only [binomial_forest_steal_3, hr]

/-! ## C1: LIFO law -/

/-- C1 (LIFO law). In a forest of capacity exponent `n ≤ 32`, pushing fresh nodes
at distinct addresses `as` (at most `2^n - 1` of them) into the empty forest and
popping as many times returns, every call returning, pointers to these nodes in
the reverse of the push order, and `binomial_forest_empty` then returns true.
More generally any sequence `ops` of pushes of fresh nodes and pops that stays
within capacity runs to its end from the empty forest, and each pop returns
what the reference stack returns: the most recently pushed node not yet
popped (`NULL` when there is none). -/
theorem lifo_law (n : Nat) (as : List Nat) (ops : List Op) (hn : n ≤ 32)
    (hnd : as.Nodup) (hlen : as.length ≤ 2 ^ n - 1) (hadm : admissible (2 ^ n - 1) ops []) :
    (∃ f0 f ts, binomial_forest_alloc n = .ok f0 ∧
      run f0 (as.map Op.push ++ List.replicate as.length Op.pop) = .ok (f, ts) ∧
      ts.map ptr = as.reverse.map some ∧ binomial_forest_empty f = .ok true) ∧
    (∃ f0 f ts, binomial_forest_alloc n = .ok f0 ∧ run f0 ops = .ok (f, ts) ∧
      ts.map ptr = (stack_run ops []).2 ∧ to_stack f = (stack_run ops []).1) := by
  have hw0 := wf_forest_replicate n
  have he0 : all_empty ⟨n, 0, List.replicate n NULL⟩ := all_empty_replicate _ _ _
  have hst0 : to_stack ⟨n, 0, List.replicate n NULL⟩ = [] :=
    (all_empty_iff_to_stack hw0).1 he0
  constructor
  · obtain ⟨f1, hrun1, hw1, ho1, hst1, hn1⟩ := run_pushes as hw0 hn he0 hnd hlen
    obtain ⟨f2, ts, hrun2, -, -, hts, -, hem⟩ := run_drain hw1 (ho1 ▸ hn)
    rw [hn1] at hrun2
    refine ⟨_, f2, ts, alloc_spec hn, ?_, by rw [hts, hst1], hem⟩
    have := run_append _ _ _ _ _ _ _ hrun1 hrun2
    simpa using this
  · have hadm' : admissible (2 ^ n - 1) ops (to_stack ⟨n, 0, List.replicate n NULL⟩) := by
      rw [hst0]; exact hadm
    obtain ⟨f1, ts, hrun, -, -, hts, hst⟩ := run_refines ops _ hw0 hn hadm'
    rw [hst0] at hts hst
    exact ⟨_, f1, ts, alloc_spec hn, hrun, hts, hst⟩

set_option maxRecDepth 100000 in
/-- Witness of C1 on the input of `test_push_pop_stack_data` (capacity exponent 5,
nodes 0 to 30) and on an interleaving of pushes and pops. -/
theorem lifo_law_witness :
    (5 ≤ 32 ∧ (List.range 31).Nodup ∧ (List.range 31).length ≤ 2 ^ 5 - 1 ∧
      admissible (2 ^ 5 - 1)
        [Op.push 1, Op.push 2, Op.pop, Op.push 3, Op.pop, Op.pop, Op.pop, Op.push 2] []) ∧
    ((∃ f0 f ts, binomial_forest_alloc 5 = .ok f0 ∧
      run f0 ((List.range 31).map Op.push ++ List.replicate (List.range 31).length Op.pop)
        = .ok (f, ts) ∧
      ts.map ptr = (List.range 31).reverse.map some ∧ binomial_forest_empty f = .ok true) ∧
    (∃ f0 f ts, binomial_forest_alloc 5 = .ok f0 ∧
      run f0 [Op.push 1, Op.push 2, Op.pop, Op.push 3, Op.pop, Op.pop, Op.pop, Op.push 2]
        = .ok (f, ts) ∧
      ts.map ptr = (stack_run
        [Op.push 1, Op.push 2, Op.pop, Op.push 3, Op.pop, Op.pop, Op.pop, Op.push 2] []).2 ∧
      to_stack f = (stack_run
        [Op.push 1, Op.push 2, Op.pop, Op.push 3, Op.pop, Op.pop, Op.pop, Op.push 2] []).1)) :=
  ⟨⟨by decide, by decide, by decide, by decide⟩,
    lifo_law 5 (List.range 31)
      [Op.push 1, Op.push 2, Op.pop, Op.push 3, Op.pop, Op.pop, Op.pop, Op.push 2]
      (by decide) (by decide) (by decide) (by decide)⟩

/-! ## C2: the binary-counter invariant -/

/-- C2 (binary-counter invariant). On a well-formed forest `f` (of capacity
exponent at most 32, as `binomial_forest_alloc` creates them) every public
operation returns and leaves a well-formed forest of the same capacity
exponent: the push of a fresh order-0 node when `f` has a free slot, pop,
the three steal functions, and the seed of a well-formed tree of order below
`f.order` when `f` holds no node. `binomial_forest_alloc n`, `n ≤ 32`, returns a
well-formed forest without nodes. -/
theorem wf_preserved (f : BinomialForest) (hw : wf_forest f) (ho : f.order ≤ 32) :
    (∀ a, ¬ all_occupied f → ∃ f1, binomial_forest_push f (BINOMIAL_TREE_INIT a) = .ok f1 ∧
      wf_forest f1 ∧ f1.order = f.order) ∧
    (∃ f1 t, binomial_forest_pop f = .ok (f1, t) ∧ wf_forest f1 ∧ f1.order = f.order) ∧
    (∃ f1 t, binomial_forest_steal_1 f = .ok (f1, t) ∧ wf_forest f1 ∧ f1.order = f.order) ∧
    (∃ f1 t, binomial_forest_steal_2 f = .ok (f1, t) ∧ wf_forest f1 ∧ f1.order = f.order) ∧
    (∃ f1 t, binomial_forest_steal_3 f = .ok (f1, t) ∧ wf_forest f1 ∧ f1.order = f.order) ∧
    (∀ t, wf_tree t → all_empty f → t.order < f.order →
      ∃ f1, binomial_forest_seed (some f) t = .ok f1 ∧ wf_forest f1 ∧ f1.order = f.order) ∧
    (∀ n, n ≤ 32 → ∃ f0, binomial_forest_alloc n = .ok f0 ∧ wf_forest f0 ∧ all_empty f0 ∧
      f0.order = n) := by
  refine ⟨?_, ?_, ?_, ?_, ?_, ?_, ?_⟩
  · intro a hfree
    obtain ⟨f1, hp, hw1, ho1, -⟩ := push_spec a hw ho hfree
    exact ⟨f1, hp, hw1, ho1⟩
  · by_cases he : all_empty f
    · exact ⟨f, NULL, pop_empty hw he, hw, rfl⟩
    · obtain ⟨f1, a, m, hp, hw1, ho1, -⟩ := pop_spec hw ho he
      exact ⟨f1, _, hp, hw1, ho1⟩
  · by_cases he : all_empty f
    · exact ⟨f, NULL, (steal_empty hw he).1, hw, rfl⟩
    · obtain ⟨f1, t, k, hs, hw1, ho1, -⟩ := steal_1_spec hw ho he
      exact ⟨f1, t, hs, hw1, ho1⟩
  · by_cases he : all_empty f
    · exact ⟨f, NULL, (steal_empty hw he).2.1, hw, rfl⟩
    · obtain ⟨f1, t, k, hs, hw1, ho1, -⟩ := steal_2_spec hw ho he
      exact ⟨f1, t, hs, hw1, ho1⟩
  · by_cases he : all_empty f
    · exact ⟨f, NULL, (steal_empty hw he).2.2, hw, rfl⟩
    · obtain ⟨f1, t, k, hs, hw1, ho1, -⟩ := steal_3_spec hw ho he
      exact ⟨f1, t, hs, hw1, ho1⟩
  · intro t ht he hlt
    cases t with
    | NULL => exact absurd rfl ht.1
    | node a k c s =>
      obtain ⟨rfl, hc⟩ := wf_tree_node.1 ht
      exact ⟨_, seed_some_spec hw he ho hlt, wf_forest_seeded hc hlt, rfl⟩
  · intro n hn
    exact ⟨_, alloc_spec hn, wf_forest_replicate n, all_empty_replicate _ _ _, rfl⟩

example : (match binomial_forest_alloc 3 with | Except.error e => Except.error e | Except.ok f => run f ((List.range 5).map Op.push)) = .ok (sample_forest, []) := by decide
example : (match binomial_forest_alloc 2 with | Except.error e => Except.error e | Except.ok f => run f ((List.range 2).map Op.push)) = .ok (two_node_forest, []) := by decide
example : (match binomial_forest_alloc 1 with | Except.error e => Except.error e | Except.ok f => run f ((List.range 1).map Op.push)) = .ok (single_node_forest, []) := by decide
example : wf_tree sample_tree := by decide

/-- Witness of C2 on the forest holding nodes 0 to 4. -/
theorem wf_preserved_witness :
    (wf_forest sample_forest ∧ sample_forest.order ≤ 32) ∧
    ((∀ a, ¬ all_occupied sample_forest →
      ∃ f1, binomial_forest_push sample_forest (BINOMIAL_TREE_INIT a) = .ok f1 ∧
      wf_forest f1 ∧ f1.order = sample_forest.order) ∧
    (∃ f1 t, binomial_forest_pop sample_forest = .ok (f1, t) ∧ wf_forest f1 ∧
      f1.order = sample_forest.order) ∧
    (∃ f1 t, binomial_forest_steal_1 sample_forest = .ok (f1, t) ∧ wf_forest f1 ∧
      f1.order = sample_forest.order) ∧
    (∃ f1 t, binomial_forest_steal_2 sample_forest = .ok (f1, t) ∧ wf_forest f1 ∧
      f1.order = sample_forest.order) ∧
    (∃ f1 t, binomial_forest_steal_3 sample_forest = .ok (f1, t) ∧ wf_forest f1 ∧
      f1.order = sample_forest.order) ∧
    (∀ t, wf_tree t → all_empty sample_forest → t.order < sample_forest.order →
      ∃ f1, binomial_forest_seed (some sample_forest) t = .ok f1 ∧ wf_forest f1 ∧
      f1.order = sample_forest.order) ∧
    (∀ n, n ≤ 32 → ∃ f0, binomial_forest_alloc n = .ok f0 ∧ wf_forest f0 ∧ all_empty f0 ∧
      f0.order = n)) :=
  ⟨⟨by decide, by decide⟩, wf_preserved sample_forest (by decide) (by decide)⟩

/-! ## C3: steal, seed, drain -/

/-- Seeding a well-formed tree into a fit target and popping as many times as
the tree has nodes. -/
theorem seed_drain {t : BinomialTree} (ht : wf_tree t) (hk : t.order ≤ 31)
    (g : Option BinomialForest) (hg : seed_target g t) :
    ∃ g1 g2 ts, binomial_forest_seed g t = .ok g1 ∧
      run g1 (List.replicate (2 ^ t.order) Op.pop) = .ok (g2, ts) ∧
      ts.map ptr = (elems t).map some ∧ binomial_forest_empty g2 = .ok true := by
  cases t with
  | NULL => exact absurd rfl ht.1
  | node a k c s =>
    obtain ⟨rfl, hc⟩ := wf_tree_node.1 ht
    simp only [BinomialTree.order] at hk
    cases g with
    | none =>
      have hw1 := wf_forest_seeded (o := k + 1) (a := a) hc (Nat.lt_succ_self k)
      simp only [Nat.add_sub_cancel_left, Nat.sub_self, List.replicate_zero] at hw1
      obtain ⟨g2, ts, hrun, -, -, hts, -, hem⟩ := run_drain hw1 (show k + 1 ≤ 32 by omega)
      refine ⟨_, g2, ts, seed_none_spec hk, hrun, ?_, hem⟩
      rw [hts]
      have := to_stack_seeded (k + 1) (2 ^ k) a k 0 c
      simp only [List.replicate_zero] at this
      rw [this]
    | some g0 =>
      obtain ⟨hw0, he0, ho0, hlt⟩ := hg
      simp only [BinomialTree.order] at hlt
      have hw1 := wf_forest_seeded (o := g0.order) (a := a) hc hlt
      obtain ⟨g2, ts, hrun, -, -, hts, -, hem⟩ := run_drain hw1 ho0
      refine ⟨_, g2, ts, seed_some_spec hw0 he0 ho0 hlt, hrun, ?_, hem⟩
      rw [hts, to_stack_seeded]

/-- The round trip holds for any function that behaves as a steal on `f`. -/
theorem round_trip_of_steal {steal : BinomialForest → Except Abort (BinomialForest × BinomialTree)}
    {f f1 : BinomialForest} {t : BinomialTree} (ho : f.order ≤ 32) (hs : steal f = .ok (f1, t))
    (hw1 : wf_forest f1) (ho1 : f1.order = f.order) (ht : wf_tree t) (hto : t.order < f.order)
    (hst : to_stack f = to_stack f1 ++ elems t) : steal_round_trip steal f := by
  obtain ⟨f2, ts, hrun, -, -, hts, -⟩ := run_drain hw1 (ho1 ▸ ho)
  exact ⟨f1, t, hs, ht.1, hw1, ho1, length_elems_of_wf_tree ht, hst,
    fun g hg => seed_drain ht (by omega) g hg, f2, ts, hrun, hts⟩

set_option maxRecDepth 1000000 in
/-- C3 (steal / seed / drain round trip). Pushing fresh nodes at distinct
addresses `as` into the empty forest of capacity exponent `n ≤ 32` gives a
well-formed forest whose stack `to_stack` is `as` reversed, newest first. For
every well-formed forest `f` that holds a node (a forest so built, or what
earlier steals left of it), `to_stack f` is the order in which `f` pops its
nodes, and each of the three steal functions makes the round trip
`steal_round_trip`: the tree returned holds the `2 ^ order` oldest nodes, seeding
it (into `NULL` or into an empty forest of larger capacity exponent) and popping
returns them newest first and leaves that forest empty, and the nodes left are
the newer ones, still popped newest first. `test_push_steal` passes all its
assertions with each steal function and ends with both forests empty. -/
theorem steal_seed_drain (n : Nat) (as : List Nat) (f : BinomialForest) (hn : n ≤ 32)
    (hnd : as.Nodup) (hlen : as.length ≤ 2 ^ n - 1)
    (hw : wf_forest f) (ho : f.order ≤ 32) (hne : ¬ all_empty f) :
    (∃ f0 fa, binomial_forest_alloc n = .ok f0 ∧ run f0 (as.map Op.push) = .ok (fa, []) ∧
      wf_forest fa ∧ fa.order ≤ 32 ∧ to_stack fa = as.reverse) ∧
    (∃ f2 ts, run f (List.replicate f.num_nodes Op.pop) = .ok (f2, ts) ∧
      ts.map ptr = (to_stack f).map some) ∧
    steal_round_trip binomial_forest_steal_1 f ∧
    steal_round_trip binomial_forest_steal_2 f ∧
    steal_round_trip binomial_forest_steal_3 f ∧
    test_push_steal binomial_forest_steal_1 100
      = .ok (some (⟨10, 0, List.replicate 10 NULL⟩, ⟨6, 0, List.replicate 6 NULL⟩)) ∧
    test_push_steal binomial_forest_steal_2 100
      = .ok (some (⟨10, 0, List.replicate 10 NULL⟩, ⟨7, 0, List.replicate 7 NULL⟩)) ∧
    test_push_steal binomial_forest_steal_3 100
      = .ok (some (⟨10, 0, List.replicate 10 NULL⟩, ⟨7, 0, List.replicate 7 NULL⟩)) := by
  refine ⟨?_, ?_, ?_, ?_, ?_, by decide, by decide, by decide⟩
  · obtain ⟨fa, hrun, hwa, hoa, hsta, -⟩ := run_pushes as (wf_forest_replicate n) hn
      (all_empty_replicate _ _ _) hnd hlen
    exact ⟨_, fa, alloc_spec hn, hrun, hwa, by rw [hoa]; exact hn, hsta⟩
  · obtain ⟨f2, ts, hrun, -, -, hts, -⟩ := run_drain hw ho
    exact ⟨f2, ts, hrun, hts⟩
  · obtain ⟨f1, t, k, hs, hw1, ho1, hwt, hst, -, hk, -, -, hto, -⟩ := steal_1_spec hw ho hne
    exact round_trip_of_steal ho hs hw1 ho1 hwt (by omega) hst
  · obtain ⟨f1, t, k, hs, hw1, ho1, hwt, hst, -, hk, -, -, hto, -⟩ := steal_2_spec hw ho hne
    exact round_trip_of_steal ho hs hw1 ho1 hwt (by omega) hst
  · obtain ⟨f1, t, k, hs, hw1, ho1, hwt, hst, -, hk, -, -, -, -, hcase⟩ :=
      steal_3_spec hw ho hne
    exact round_trip_of_steal ho hs hw1 ho1 hwt (by omega) hst

set_option maxRecDepth 1000000 in
/-- Witness of C3 on the forest holding nodes 0 to 4. -/
theorem steal_seed_drain_witness :
    (3 ≤ 32 ∧ [0, 1, 2, 3, 4].Nodup ∧ [0, 1, 2, 3, 4].length ≤ 2 ^ 3 - 1 ∧
      wf_forest sample_forest ∧ sample_forest.order ≤ 32 ∧ ¬ all_empty sample_forest) ∧
    ((∃ f0 fa, binomial_forest_alloc 3 = .ok f0 ∧
      run f0 ([0, 1, 2, 3, 4].map Op.push) = .ok (fa, []) ∧
      wf_forest fa ∧ fa.order ≤ 32 ∧ to_stack fa = [0, 1, 2, 3, 4].reverse) ∧
    (∃ f2 ts, run sample_forest (List.replicate sample_forest.num_nodes Op.pop) = .ok (f2, ts) ∧
      ts.map ptr = (to_stack sample_forest).map some) ∧
    steal_round_trip binomial_forest_steal_1 sample_forest ∧
    steal_round_trip binomial_forest_steal_2 sample_forest ∧
    steal_round_trip binomial_forest_steal_3 sample_forest ∧
    test_push_steal binomial_forest_steal_1 100
      = .ok (some (⟨10, 0, List.replicate 10 NULL⟩, ⟨6, 0, List.replicate 6 NULL⟩)) ∧
    test_push_steal binomial_forest_steal_2 100
      = .ok (some (⟨10, 0, List.replicate 10 NULL⟩, ⟨7, 0, List.replicate 7 NULL⟩)) ∧
    test_push_steal binomial_forest_steal_3 100
      = .ok (some (⟨10, 0, List.replicate 10 NULL⟩, ⟨7, 0, List.replicate 7 NULL⟩))) :=
  ⟨⟨by decide, by decide, by decide, by decide, by decide, by decide⟩,
    steal_seed_drain 3 [0, 1, 2, 3, 4] sample_forest (by decide) (by decide) (by decide)
      (by decide) (by decide) (by decide)⟩

/-! ## C4: the node returned by pop -/

/-- C4, at the input where the code departs from it: after the pushes of two
fresh nodes into the empty forest of capacity exponent 2, pop returns the node
pushed last with `children` and `siblings` cleared but with `order` 1, the index
of the slot it was taken from, not 0: the node is not in its initial state
`BINOMIAL_TREE_INIT`, and pushing it again fails `assert(t->order == 0)`. -/
theorem pop_returns_stale_order :
    binomial_forest_alloc 2 = .ok ⟨2, 0, [NULL, NULL]⟩ ∧
    run ⟨2, 0, [NULL, NULL]⟩ [Op.push 0, Op.push 1] = .ok (two_node_forest, []) ∧
    wf_forest two_node_forest ∧ ¬ all_empty two_node_forest ∧
    binomial_forest_pop two_node_forest
      = .ok (⟨2, 1, [node 0 0 NULL NULL, NULL]⟩, node 1 1 NULL NULL) ∧
    (node 1 1 NULL NULL).order ≠ 0 ∧ node 1 1 NULL NULL ≠ BINOMIAL_TREE_INIT 1 ∧
    binomial_forest_push ⟨2, 1, [node 0 0 NULL NULL, NULL]⟩ (node 1 1 NULL NULL)
      = .error (.assertion 154) := by
  refine ⟨by decide, by decide, by decide, by decide, by decide, by decide, by decide, by decide⟩

/-! ## C5: fraction taken by steal_2 -/

/-- C5 (steal_2 fraction bound). On a well-formed forest that holds `N` nodes,
`N > 0`, `binomial_forest_steal_2` returns the tree `t` of the highest occupied
slot `k`; its node count `s` satisfies `N < 2 * s` and `s ≤ N`, with `s = N` exactly
when no other slot is occupied, and `num_nodes` is `N - s` afterwards. -/
theorem steal_2_fraction (f : BinomialForest) (hw : wf_forest f) (ho : f.order ≤ 32)
    (hne : ¬ all_empty f) :
    ∃ f1 t k, binomial_forest_steal_2 f = .ok (f1, t) ∧ t ≠ NULL ∧
      k < f.order ∧ slot f k = t ∧ (∀ i, k < i → slot f i = NULL) ∧
      f.num_nodes < 2 * t.size ∧ t.size ≤ f.num_nodes ∧
      (t.size = f.num_nodes ↔ ∀ i, i < f.order → i ≠ k → slot f i = NULL) ∧
      f1.num_nodes = f.num_nodes - t.size := by
  obtain ⟨f1, t, k, hs, -, -, hwt, -, hnn, hk, hsl, hgt, hto, hle, hlt, hiff⟩ :=
    steal_2_spec hw ho hne
  have hsz : t.size = 2 ^ k := by rw [wf_tree_size hwt, hto]
  rw [hto] at hnn
  refine ⟨f1, t, k, hs, hwt.1, hk, hsl, hgt, by omega, by omega, ?_, by omega⟩
  rw [hsz]
  constructor
  · intro heq i _ hik
    rcases Nat.lt_or_gt_of_ne hik with h | h
    · exact (hiff.1 heq.symm) i h
    · exact hgt i h
  · intro hall
    exact (hiff.2 (fun i hi => hall i (by omega) (by omega))).symm

/-- Witness of C5 on the forest holding nodes 0 to 4. -/
theorem steal_2_fraction_witness :
    (wf_forest sample_forest ∧ sample_forest.order ≤ 32 ∧ ¬ all_empty sample_forest) ∧
    ∃ f1 t k, binomial_forest_steal_2 sample_forest = .ok (f1, t) ∧ t ≠ NULL ∧
      k < sample_forest.order ∧ slot sample_forest k = t ∧
      (∀ i, k < i → slot sample_forest i = NULL) ∧
      sample_forest.num_nodes < 2 * t.size ∧ t.size ≤ sample_forest.num_nodes ∧
      (t.size = sample_forest.num_nodes ↔
        ∀ i, i < sample_forest.order → i ≠ k → slot sample_forest i = NULL) ∧
      f1.num_nodes = sample_forest.num_nodes - t.size :=
  ⟨⟨by decide, by decide, by decide⟩,
    steal_2_fraction sample_forest (by decide) (by decide) (by decide)⟩

/-! ## C6: fraction taken by steal_1 -/

/-- C6 as stated fails on the forest that holds a single node:
`binomial_forest_steal_1` returns that node, so `s = N = 1` and `2 * s ≤ N` is false. -/
theorem steal_1_fraction_fails_single_node :
    wf_forest single_node_forest ∧ ¬ all_empty single_node_forest ∧
    single_node_forest.num_nodes = 1 ∧
    binomial_forest_steal_1 single_node_forest = .ok (⟨1, 0, [NULL]⟩, node 0 0 NULL NULL) ∧
    ¬ (2 * (node 0 0 NULL NULL).size ≤ single_node_forest.num_nodes) := by
  refine ⟨by decide, by decide, by decide, by decide, by decide⟩

/-- C6 amended (steal_1 fraction bound). On a well-formed forest that holds `N`
nodes, `N > 0`, the tree returned by `binomial_forest_steal_1` has a node count `s`
with `N ≤ 4 * s`, and `num_nodes` is `N - s` afterwards; `2 * s ≤ N` holds when
`N ≥ 2`, and when `N = 1` the tree is the single node (`s = 1`) and the forest is
left empty. -/
theorem steal_1_fraction (f : BinomialForest) (hw : wf_forest f) (ho : f.order ≤ 32)
    (hne : ¬ all_empty f) :
    ∃ f1 t, binomial_forest_steal_1 f = .ok (f1, t) ∧ t ≠ NULL ∧
      f.num_nodes ≤ 4 * t.size ∧ (2 ≤ f.num_nodes → 2 * t.size ≤ f.num_nodes) ∧
      (f.num_nodes = 1 → t.size = 1 ∧ all_empty f1) ∧
      f1.num_nodes = f.num_nodes - t.size := by
  obtain ⟨f1, t, k, hs, hw1, -, hwt, -, hnn, hk, hsl, hgt, hto, hle, hlt, -⟩ :=
    steal_1_spec hw ho hne
  have hsz : t.size = 2 ^ (k - 1) := by rw [wf_tree_size hwt, hto]
  rw [hto] at hnn
  refine ⟨f1, t, hs, hwt.1, ?_, ?_, ?_, by omega⟩
  · cases k with
    | zero => simp only [pow_zero] at hlt; simp only [hsz, Nat.zero_sub, pow_zero]; omega
    | succ k =>
      simp only [Nat.add_sub_cancel, pow_succ] at hsz hlt ⊢
      omega
  · intro h2
    cases k with
    | zero => simp only [pow_zero] at hlt; omega
    | succ k =>
      simp only [Nat.add_sub_cancel, pow_succ] at hsz hle ⊢
      omega
  · intro h1
    cases k with
    | zero =>
      simp only [Nat.zero_sub, pow_zero] at hsz hnn
      exact ⟨hsz, (all_empty_iff_num_nodes hw1).2 (by omega)⟩
    | succ k =>
      have : 0 < 2 ^ k := by positivity
      simp only [pow_succ] at hle
      omega

/-- Witness of C6 amended on the forest holding nodes 0 to 4. -/
theorem steal_1_fraction_witness :
    (wf_forest sample_forest ∧ sample_forest.order ≤ 32 ∧ ¬ all_empty sample_forest) ∧
    ∃ f1 t, binomial_forest_steal_1 sample_forest = .ok (f1, t) ∧ t ≠ NULL ∧
      sample_forest.num_nodes ≤ 4 * t.size ∧
      (2 ≤ sample_forest.num_nodes → 2 * t.size ≤ sample_forest.num_nodes) ∧
      (sample_forest.num_nodes = 1 → t.size = 1 ∧ all_empty f1) ∧
      f1.num_nodes = sample_forest.num_nodes - t.size :=
  ⟨⟨by decide, by decide, by decide⟩,
    steal_1_fraction sample_forest (by decide) (by decide) (by decide)⟩

/-! ## C7: fraction taken by steal_3 -/

/-- C7 as stated fails on the forest that holds a single node:
`binomial_forest_steal_3` returns that node, so `s = N = 1` and `3 * s ≤ 2 * N` is
false. -/
theorem steal_3_fraction_fails_single_node :
    wf_forest single_node_forest ∧ ¬ all_empty single_node_forest ∧
    single_node_forest.num_nodes = 1 ∧
    binomial_forest_steal_3 single_node_forest = .ok (⟨1, 0, [NULL]⟩, node 0 0 NULL NULL) ∧
    ¬ (3 * (node 0 0 NULL NULL).size ≤ 2 * single_node_forest.num_nodes) := by
  refine ⟨by decide, by decide, by decide, by decide, by decide⟩

/-- C7 amended (steal_3 fraction bound). On a well-formed forest that holds `N`
nodes, `N > 0`, the tree returned by `binomial_forest_steal_3` has a node count `s`
with `N ≤ 3 * s`, and `num_nodes` is `N - s` afterwards; `3 * s ≤ 2 * N` holds when
`N ≥ 2`, and when `N = 1` the tree is the single node (`s = 1`) and the forest is
left empty. -/
theorem steal_3_fraction (f : BinomialForest) (hw : wf_forest f) (ho : f.order ≤ 32)
    (hne : ¬ all_empty f) :
    ∃ f1 t, binomial_forest_steal_3 f = .ok (f1, t) ∧ t ≠ NULL ∧
      f.num_nodes ≤ 3 * t.size ∧ (2 ≤ f.num_nodes → 3 * t.size ≤ 2 * f.num_nodes) ∧
      (f.num_nodes = 1 → t.size = 1 ∧ all_empty f1) ∧
      f1.num_nodes = f.num_nodes - t.size := by
  obtain ⟨f1, t, k, hs, hw1, -, hwt, -, hnn, hk, hsl, hgt, hle, hlt, hcase⟩ :=
    steal_3_spec hw ho hne
  have hsz : t.size = 2 ^ t.order := wf_tree_size hwt
  refine ⟨f1, t, hs, hwt.1, ?_, ?_, ?_, by omega⟩
  · rcases hcase with ⟨hb, hto⟩ | ⟨hb, hto⟩
    · rw [hsz, hto]; omega
    · rw [hsz, hto]
      cases k with
      | zero => simp only [pow_zero] at hlt ⊢; omega
      | succ k =>
        simp only [Nat.add_sub_cancel, pow_succ] at hb hlt hle ⊢
        omega
  · intro h2
    rcases hcase with ⟨hb, hto⟩ | ⟨hb, hto⟩
    · rw [hsz, hto]
      cases k with
      | zero => simp only [pow_zero] at hlt; omega
      | succ k =>
        simp only [pow_succ] at hb hlt hle ⊢
        omega
    · rw [hsz, hto]
      cases k with
      | zero => simp only [pow_zero] at hlt; omega
      | succ k =>
        simp only [Nat.add_sub_cancel, pow_succ] at hb hlt hle ⊢
        omega
  · intro h1
    have hk0 : k = 0 := by
      cases k with
      | zero => rfl
      | succ k =>
        have : 0 < 2 ^ k := by positivity
        simp only [pow_succ] at hle
        omega
    subst hk0
    have hto : t.order = 0 := by
      rcases hcase with ⟨-, hto⟩ | ⟨-, hto⟩
      · exact hto
      · exact hto
    rw [hto] at hsz hnn
    simp only [pow_zero] at hsz hnn
    exact ⟨hsz, (all_empty_iff_num_nodes hw1).2 (by omega)⟩

/-- Witness of C7 amended on the forest holding nodes 0 to 4. -/
theorem steal_3_fraction_witness :
    (wf_forest sample_forest ∧ sample_forest.order ≤ 32 ∧ ¬ all_empty sample_forest) ∧
    ∃ f1 t, binomial_forest_steal_3 sample_forest = .ok (f1, t) ∧ t ≠ NULL ∧
      sample_forest.num_nodes ≤ 3 * t.size ∧
      (2 ≤ sample_forest.num_nodes → 3 * t.size ≤ 2 * sample_forest.num_nodes) ∧
      (sample_forest.num_nodes = 1 → t.size = 1 ∧ all_empty f1) ∧
      f1.num_nodes = sample_forest.num_nodes - t.size :=
  ⟨⟨by decide, by decide, by decide⟩,
    steal_3_fraction sample_forest (by decide) (by decide) (by decide)⟩

/-! ## C8: what the steal functions return -/

theorem empty_true_iff {f : BinomialForest} (hw : wf_forest f) :
    binomial_forest_empty f = .ok true ↔ all_empty f := by
  rw [empty_eq_of_wf hw]
  simp

/-- C8. On a well-formed forest each of the three steal functions returns; the
result is `NULL` exactly when the forest is empty (`binomial_forest_empty` returns
true), and then the forest is left as it was; otherwise the result is a
well-formed binomial tree, whose `siblings` is `NULL`. -/
theorem steal_null_iff_empty (f : BinomialForest) (hw : wf_forest f) (ho : f.order ≤ 32) :
    (∃ f1 t, binomial_forest_steal_1 f = .ok (f1, t) ∧
      (t = NULL ↔ binomial_forest_empty f = .ok true) ∧ (t = NULL → f1 = f) ∧
      (t ≠ NULL → wf_tree t ∧ t.siblings = NULL)) ∧
    (∃ f1 t, binomial_forest_steal_2 f = .ok (f1, t) ∧
      (t = NULL ↔ binomial_forest_empty f = .ok true) ∧ (t = NULL → f1 = f) ∧
      (t ≠ NULL → wf_tree t ∧ t.siblings = NULL)) ∧
    (∃ f1 t, binomial_forest_steal_3 f = .ok (f1, t) ∧
      (t = NULL ↔ binomial_forest_empty f = .ok true) ∧ (t = NULL → f1 = f) ∧
      (t ≠ NULL → wf_tree t ∧ t.siblings = NULL)) := by
  have hiff := empty_true_iff hw
  by_cases he : all_empty f
  · obtain ⟨h1, h2, h3⟩ := steal_empty hw he
    have hem := hiff.2 he
    exact ⟨⟨f, NULL, h1, by simp [hem], fun _ => rfl, fun h => absurd rfl h⟩,
      ⟨f, NULL, h2, by simp [hem], fun _ => rfl, fun h => absurd rfl h⟩,
      ⟨f, NULL, h3, by simp [hem], fun _ => rfl, fun h => absurd rfl h⟩⟩
  · have hem : ¬ binomial_forest_empty f = .ok true := fun h => he (hiff.1 h)
    obtain ⟨f1, t1, -, hs1, -, -, hwt1, -⟩ := steal_1_spec hw ho he
    obtain ⟨f2, t2, -, hs2, -, -, hwt2, -⟩ := steal_2_spec hw ho he
    obtain ⟨f3, t3, -, hs3, -, -, hwt3, -⟩ := steal_3_spec hw ho he
    exact ⟨⟨f1, t1, hs1, by simp [hem, hwt1.1], fun h => absurd h hwt1.1, fun _ => ⟨hwt1, hwt1.2.1⟩⟩,
      ⟨f2, t2, hs2, by simp [hem, hwt2.1], fun h => absurd h hwt2.1, fun _ => ⟨hwt2, hwt2.2.1⟩⟩,
      ⟨f3, t3, hs3, by simp [hem, hwt3.1], fun h => absurd h hwt3.1, fun _ => ⟨hwt3, hwt3.2.1⟩⟩⟩

/-- Witness of C8 on the forest holding nodes 0 to 4. -/
theorem steal_null_iff_empty_witness :
    (wf_forest sample_forest ∧ sample_forest.order ≤ 32) ∧
    ((∃ f1 t, binomial_forest_steal_1 sample_forest = .ok (f1, t) ∧
      (t = NULL ↔ binomial_forest_empty sample_forest = .ok true) ∧
      (t = NULL → f1 = sample_forest) ∧ (t ≠ NULL → wf_tree t ∧ t.siblings = NULL)) ∧
    (∃ f1 t, binomial_forest_steal_2 sample_forest = .ok (f1, t) ∧
      (t = NULL ↔ binomial_forest_empty sample_forest = .ok true) ∧
      (t = NULL → f1 = sample_forest) ∧ (t ≠ NULL → wf_tree t ∧ t.siblings = NULL)) ∧
    (∃ f1 t, binomial_forest_steal_3 sample_forest = .ok (f1, t) ∧
      (t = NULL ↔ binomial_forest_empty sample_forest = .ok true) ∧
      (t = NULL → f1 = sample_forest) ∧ (t ≠ NULL → wf_tree t ∧ t.siblings = NULL))) :=
  ⟨⟨by decide, by decide⟩, steal_null_iff_empty sample_forest (by decide) (by decide)⟩

/-! ## C9: seed with a `NULL` forest -/

/-- C9. For a well-formed tree `t` (its `siblings` is `NULL`) of order at most 31,
`binomial_forest_seed(NULL, t)` returns a forest of capacity exponent `t.order + 1`
whose slot `t.order` holds `t`, whose other slots are empty and whose `num_nodes` is
`2 ^ t.order`; this forest is well-formed, `binomial_forest_empty` returns false on
it and `binomial_forest_rep` returns the node count of `t`. -/
theorem seed_none_exact (t : BinomialTree) (ht : wf_tree t) (hk : t.order ≤ 31) :
    ∃ g, binomial_forest_seed none t = .ok g ∧ g.order = t.order + 1 ∧
      slot g t.order = t ∧ (∀ i, i ≠ t.order → slot g i = NULL) ∧
      g.num_nodes = 2 ^ t.order ∧ wf_forest g ∧
      binomial_forest_empty g = .ok false ∧ binomial_forest_rep g = .ok t.size := by
  cases t with
  | NULL => exact absurd rfl ht.1
  | node a k c s =>
    obtain ⟨rfl, hc⟩ := wf_tree_node.1 ht
    simp only [BinomialTree.order] at hk ⊢
    have hw1 := wf_forest_seeded (o := k + 1) (a := a) hc (Nat.lt_succ_self k)
    simp only [Nat.add_sub_cancel_left, Nat.sub_self, List.replicate_zero] at hw1
    have hslot : slot ⟨k + 1, 2 ^ k, List.replicate k NULL ++ [node a k c NULL]⟩ k
        = node a k c NULL := by
      rw [slot_mk]
      simp
    have hne : ¬ all_empty ⟨k + 1, 2 ^ k, List.replicate k NULL ++ [node a k c NULL]⟩ := by
      intro hall
      have := hall k (Nat.lt_succ_self k)
      rw [hslot] at this
      exact absurd this (by simp)
    refine ⟨_, seed_none_spec hk, rfl, hslot, ?_, rfl, hw1, ?_, ?_⟩
    · intro i hi
      rw [slot_mk]
      rcases Nat.lt_or_gt_of_ne hi with h | h
      · exact getD_replicate_append_lt _ h
      · have := getD_highest_gt (List.replicate k NULL) (node a k c NULL) 0 (i := i)
          (by simpa using h)
        simpa using this
    · rw [empty_eq_of_wf hw1, decide_eq_false hne]
    · rw [rep_eq_of_wf hw1 (show k + 1 ≤ 32 by omega), wf_tree_size ht]
      rfl

/-- Witness of C9 on a tree of order 2. -/
theorem seed_none_exact_witness :
    (wf_tree sample_tree ∧ sample_tree.order ≤ 31) ∧
    ∃ g, binomial_forest_seed none sample_tree = .ok g ∧ g.order = sample_tree.order + 1 ∧
      slot g sample_tree.order = sample_tree ∧ (∀ i, i ≠ sample_tree.order → slot g i = NULL) ∧
      g.num_nodes = 2 ^ sample_tree.order ∧ wf_forest g ∧
      binomial_forest_empty g = .ok false ∧ binomial_forest_rep g = .ok sample_tree.size :=
  ⟨⟨by decide, by decide⟩, seed_none_exact sample_tree (by decide) (by decide)⟩

/-! ## C10: capacity -/

/-- Capacity law on the code. From the empty forest of capacity exponent
`n ≤ 32`, the pushes of `2^n - 1` fresh nodes all return and leave every slot
occupied, and `binomial_forest_rep` returns `2^n - 1`. `binomial_forest_full` then
returns true when `n < 32`; when `n = 32` its assertion evaluates `1u << 32`. -/
theorem capacity_law (n : Nat) (as : List Nat) (hn : n ≤ 32) (hnd : as.Nodup)
    (hlen : as.length = 2 ^ n - 1) :
    ∃ f0 f, binomial_forest_alloc n = .ok f0 ∧ run f0 (as.map Op.push) = .ok (f, []) ∧
      wf_forest f ∧ f.order = n ∧ all_occupied f ∧ binomial_forest_rep f = .ok (2 ^ n - 1) ∧
      (n < 32 → binomial_forest_full f = .ok true) ∧
      (n = 32 → binomial_forest_full f = .error .shift_overflow) := by
  obtain ⟨f, hrun, hw, ho, -, hnum⟩ := run_pushes as (wf_forest_replicate n) hn
    (all_empty_replicate _ _ _) hnd (le_of_eq hlen)
  simp only at ho
  have hocc : all_occupied f := (all_occupied_iff_num_nodes hw).2 (by rw [hnum, hlen, ho])
  refine ⟨_, f, alloc_spec hn, hrun, hw, ho, hocc, ?_, ?_, ?_⟩
  · rw [rep_eq_of_wf hw (ho ▸ hn), hnum, hlen]
  · intro hlt
    rw [full_eq_of_wf hw (ho ▸ hlt), decide_eq_true hocc]
  · intro h32
    exact full_undefined_of_order_32 ((wf_forest_iff f).1 hw).1 (ho.trans h32) hocc

/-- A push of a fresh node into a well-formed forest fails the assertion
"Insertion overflow" exactly when every slot is occupied. -/
theorem push_overflow_iff (f : BinomialForest) (a : Nat) (hw : wf_forest f) (ho : f.order ≤ 32) :
    binomial_forest_push f (BINOMIAL_TREE_INIT a) = .error (.assertion 171) ↔ all_occupied f := by
  constructor
  · intro herr
    by_contra hfree
    obtain ⟨f1, hp, -⟩ := push_spec a hw ho hfree
    rw [hp] at herr
    exact absurd herr (by simp)
  · exact push_overflow a hw ho

/-- C10, at the input where the code departs from it: from the empty forest of
capacity exponent 32, the `2^32 - 1` pushes all return and leave every slot
occupied, `binomial_forest_rep` returns `2^32 - 1` and one more push fails the
assertion "Insertion overflow"; but `binomial_forest_full` does not return true:
its assertion evaluates `POW_2(32)`, the shift `1u << 32`, which is undefined. -/
theorem capacity_law_full_at_32 :
    ∃ f0 f, binomial_forest_alloc 32 = .ok f0 ∧
      run f0 ((List.range (2 ^ 32 - 1)).map Op.push) = .ok (f, []) ∧
      wf_forest f ∧ all_occupied f ∧ binomial_forest_rep f = .ok (2 ^ 32 - 1) ∧
      binomial_forest_push f (BINOMIAL_TREE_INIT (2 ^ 32 - 1)) = .error (.assertion 171) ∧
      binomial_forest_full f = .error .shift_overflow := by
  obtain ⟨f0, f, ha, hrun, hw, ho, hocc, hrep, -, hfull⟩ :=
    capacity_law 32 (List.range (2 ^ 32 - 1)) (le_refl 32) (List.nodup_range _)
      (List.length_range _)
  exact ⟨f0, f, ha, hrun, hw, hocc, hrep, push_overflow _ hw (le_of_eq ho) hocc, hfull rfl⟩

/-! ## C13 and C18: what pop returns and what it writes -/

theorem chain_slots_getD : ∀ (k : Nat) (c : BinomialTree), wf_chain k c → ∀ j, j < k →
    (chain_slots c).getD j NULL = chain_find j c
  | 0, NULL, _, j, hj => absurd hj (Nat.not_lt_zero j)
  | k + 1, node a o c s, h, j, hj => by
    obtain ⟨rfl, hc, hs⟩ := h
    have hl := chain_slots_length o s hs
    simp only [chain_slots, chain_find]
    by_cases hjo : o = j
    · subst hjo
      have := getD_append_length (chain_slots s) (node a o c NULL) []
      rw [hl] at this
      simp only [if_true]
      exact this
    · have hlt : j < o := by omega
      simp only [hjo, if_false]
      rw [List.getD_eq_getElem?_getD, List.getElem?_append_left (by omega),
        ← List.getD_eq_getElem?_getD]
      exact chain_slots_getD o s hs j hlt
  | 0, node _ _ _ _, h, _, _ => h.elim
  | _ + 1, NULL, h, _, _ => h.elim

theorem chain_find_ne_NULL : ∀ (k : Nat) (c : BinomialTree), wf_chain k c → ∀ j, j < k →
    chain_find j c ≠ NULL
  | 0, NULL, _, j, hj => absurd hj (Nat.not_lt_zero j)
  | k + 1, node a o c s, h, j, hj => by
    obtain ⟨rfl, -, hs⟩ := h
    simp only [chain_find]
    by_cases hjo : o = j
    · simp [hjo]
    · simp only [hjo, if_false]
      exact chain_find_ne_NULL o s hs j (by omega)
  | 0, node _ _ _ _, h, _, _ => h.elim
  | _ + 1, NULL, h, _, _ => h.elim

/-- A pop from a well-formed forest that holds a node, slot by slot: with `m` the
lowest occupied slot and `node a m c NULL` its tree, pop returns that node with
`children` cleared, clears slot `m`, puts in each slot below `m` the child of that
order with `siblings` cleared, and leaves the slots above `m` as they were. -/
theorem pop_frame {f : BinomialForest} (h : wf_forest f) (ho : f.order ≤ 32)
    (hne : ¬ all_empty f) :
    ∃ f1 a m c, m < f.order ∧ (∀ j, j < m → slot f j = NULL) ∧ slot f m = node a m c NULL ∧
      binomial_forest_pop f = .ok (f1, node a m NULL NULL) ∧ wf_forest f1 ∧
      f1.order = f.order ∧ f1.num_nodes + 1 = f.num_nodes ∧ slot f1 m = NULL ∧
      (∀ j, j < m → slot f1 j = chain_find j c) ∧ (∀ j, m < j → slot f1 j = slot f j) := by
  obtain ⟨o, n, l⟩ := f
  obtain ⟨hl, -, -⟩ := wf_forest_mk.1 h
  obtain ⟨m, s, rest, rfl, hs⟩ := exists_lowest l ((not_all_empty_iff hl).1 hne)
  cases s with
  | NULL => exact absurd rfl hs
  | node a k c s =>
    obtain ⟨rfl, rfl, hc, hn, hpop, hwf1⟩ := pop_decomp h ho
    have hcl := chain_slots_length k c hc
    have hlen : k + (rest.length + 1) = o := by simpa using hl
    refine ⟨_, a, k, c, (show k < o by omega), ?_, ?_, hpop, hwf1, rfl,
      (show n - 1 + 1 = n by omega), ?_, ?_, ?_⟩
    · intro j hj
      rw [slot_mk]; exact getD_replicate_append_lt _ hj
    · rw [slot_mk]
      have := getD_append_length (List.replicate k NULL) (node a k c NULL) rest
      simpa using this
    · rw [slot_mk]
      have := getD_append_length (chain_slots c) NULL rest
      rw [hcl] at this
      exact this
    · intro j hj
      rw [slot_mk, List.getD_eq_getElem?_getD, List.getElem?_append_left (by omega),
        ← List.getD_eq_getElem?_getD]
      exact chain_slots_getD k c hc j hj
    · intro j hj
      obtain ⟨d, rfl⟩ : ∃ d, j = k + (d + 1) := ⟨j - k - 1, by omega⟩
      rw [slot_mk, slot_mk]
      have h1 := getD_append_add (chain_slots c) (NULL :: rest) (d + 1)
      have h2 := getD_append_add (List.replicate k NULL) (node a k c NULL :: rest) (d + 1)
      rw [hcl] at h1
      simp only [List.length_replicate] at h2
      rw [h1, h2]
      simp [List.getD_eq_getElem?_getD]

/-- C13. On a well-formed forest `binomial_forest_pop` returns; the result is
`NULL` exactly when the forest is empty (`binomial_forest_empty` returns true), and
then all slots and `num_nodes` are left as they were; otherwise the result is a
pointer to the root of the tree in the lowest occupied slot `m` and `num_nodes` is
less by exactly 1. -/
theorem pop_null_iff_empty (f : BinomialForest) (hw : wf_forest f) (ho : f.order ≤ 32) :
    ∃ f1 t, binomial_forest_pop f = .ok (f1, t) ∧
      (t = NULL ↔ binomial_forest_empty f = .ok true) ∧ (t = NULL → f1 = f) ∧
      (t ≠ NULL → ∃ m, m < f.order ∧ (∀ j, j < m → slot f j = NULL) ∧ slot f m ≠ NULL ∧
        ptr t = ptr (slot f m) ∧ f1.num_nodes + 1 = f.num_nodes ∧
        f1.num_nodes = f.num_nodes - 1) := by
  have hiff := empty_true_iff hw
  by_cases he : all_empty f
  · exact ⟨f, NULL, pop_empty hw he, by simp [hiff.2 he], fun _ => rfl, fun h => absurd rfl h⟩
  · have hem : ¬ binomial_forest_empty f = .ok true := fun h => he (hiff.1 h)
    obtain ⟨f1, a, m, c, hm, hlow, hsm, hpop, -, -, hnn, -⟩ := pop_frame hw ho he
    refine ⟨f1, _, hpop, by simp [hem], fun h => by simp at h, fun _ => ⟨m, hm, hlow, ?_, ?_, hnn, by omega⟩⟩
    · rw [hsm]; simp
    · rw [hsm]; rfl

/-- Witness of C13 on the forest holding nodes 0 to 4. -/
theorem pop_null_iff_empty_witness :
    (wf_forest sample_forest ∧ sample_forest.order ≤ 32) ∧
    ∃ f1 t, binomial_forest_pop sample_forest = .ok (f1, t) ∧
      (t = NULL ↔ binomial_forest_empty sample_forest = .ok true) ∧
      (t = NULL → f1 = sample_forest) ∧
      (t ≠ NULL → ∃ m, m < sample_forest.order ∧ (∀ j, j < m → slot sample_forest j = NULL) ∧
        slot sample_forest m ≠ NULL ∧ ptr t = ptr (slot sample_forest m) ∧
        f1.num_nodes + 1 = sample_forest.num_nodes ∧
        f1.num_nodes = sample_forest.num_nodes - 1) :=
  ⟨⟨by decide, by decide⟩, pop_null_iff_empty sample_forest (by decide) (by decide)⟩

/-- C18 (frame of pop). On a well-formed forest whose lowest occupied slot is `i`,
holding the tree `r`, `binomial_forest_pop` returns and clears slot `i`, stores in
each slot `j < i` the child of order `j` of `r` with its `siblings` cleared, leaves
every slot above `i` as it was, and the slots it stores into, `0` to `i - 1`, were all
empty before the call. -/
theorem pop_frame_effect (f : BinomialForest) (i : Nat) (hw : wf_forest f) (ho : f.order ≤ 32)
    (hi : i < f.order) (hocc : slot f i ≠ NULL) (hlow : ∀ j, j < i → slot f j = NULL) :
    ∃ f1 t, binomial_forest_pop f = .ok (f1, t) ∧ ptr t = ptr (slot f i) ∧
      slot f1 i = NULL ∧
      (∀ j, j < i → slot f j = NULL ∧ slot f1 j = chain_find j (slot f i).children ∧
        (slot f1 j).order = j ∧ (slot f1 j).siblings = NULL ∧ slot f1 j ≠ NULL) ∧
      (∀ j, i < j → slot f1 j = slot f j) := by
  have hne : ¬ all_empty f := fun hall => hocc (hall i hi)
  obtain ⟨f1, a, m, c, hm, hlow', hsm, hpop, hw1, ho1, -, hcl, hbelow, habove⟩ :=
    pop_frame hw ho hne
  have hmi : m = i := by
    rcases Nat.lt_trichotomy m i with h | h | h
    · have := hlow m h
      rw [hsm] at this
      exact absurd this (by simp)
    · exact h
    · exact absurd (hlow' i h) hocc
  subst hmi
  refine ⟨f1, _, hpop, by rw [hsm]; rfl, hcl, ?_, habove⟩
  intro j hj
  have hslots := hw1.2.1 j (by rw [ho1]; omega)
  have hfind : slot f1 j = chain_find j (slot f m).children := by
    rw [hsm]; exact hbelow j hj
  have hnn : slot f1 j ≠ NULL := by
    rw [hbelow j hj]
    have hw0 := hw.2.1 m hi
    rw [hsm] at hw0
    have hc : wf_chain m c := (wf_tree_node.1 (hw0.resolve_left (by simp)).1).2
    exact chain_find_ne_NULL m c hc j hj
  have hwj' := hslots.resolve_left hnn
  exact ⟨hlow j hj, hfind, hwj'.2, hwj'.1.2.1, hnn⟩

/-- Witness of C18 on the forest holding nodes 0 to 3, whose lowest occupied
slot is 2. -/
theorem pop_frame_effect_witness :
    (wf_forest four_node_forest ∧ four_node_forest.order ≤ 32 ∧ 2 < four_node_forest.order ∧
      slot four_node_forest 2 ≠ NULL ∧ ∀ j, j < 2 → slot four_node_forest j = NULL) ∧
    ∃ f1 t, binomial_forest_pop four_node_forest = .ok (f1, t) ∧
      ptr t = ptr (slot four_node_forest 2) ∧ slot f1 2 = NULL ∧
      (∀ j, j < 2 → slot four_node_forest j = NULL ∧
        slot f1 j = chain_find j (slot four_node_forest 2).children ∧
        (slot f1 j).order = j ∧ (slot f1 j).siblings = NULL ∧ slot f1 j ≠ NULL) ∧
      (∀ j, 2 < j → slot f1 j = slot four_node_forest j) :=
  ⟨⟨by decide, by decide, by decide, by decide, by decide⟩,
    pop_frame_effect four_node_forest 2 (by decide) (by decide) (by decide) (by decide)
      (by decide)⟩

/-! ## C14 and C15: steal_3 as a choice between steal_2 and steal_1 -/

/-- The highest occupied slot of a forest is unique. -/
theorem highest_unique {f : BinomialForest} {k k1 : Nat} (hk : slot f k ≠ NULL)
    (hgt : ∀ i, k < i → slot f i = NULL) (hk1 : slot f k1 ≠ NULL)
    (hgt1 : ∀ i, k1 < i → slot f i = NULL) : k1 = k := by
  rcases Nat.lt_trichotomy k1 k with h | h | h
  · exact absurd (hgt1 k h) hk
  · exact h
  · exact absurd (hgt k1 h) hk1

/-- C14 (steal_3 selects between the other two policies). On a well-formed
forest that holds `N` nodes, `N > 0`, whose highest occupied slot `k` holds a tree of
`x = 2^k` nodes, `binomial_forest_steal_3` returns, and its result (tree and forest)
is that of `binomial_forest_steal_2` when `N - x > x / 2` and that of
`binomial_forest_steal_1` otherwise. -/
theorem steal_3_selects (f : BinomialForest) (k : Nat) (hw : wf_forest f) (ho : f.order ≤ 32)
    (hk : k < f.order) (hocc : slot f k ≠ NULL) (hhigh : ∀ i, k < i → slot f i = NULL) :
    (slot f k).size = 2 ^ k ∧
    (∃ f1 t, binomial_forest_steal_3 f = .ok (f1, t) ∧ t ≠ NULL) ∧
    (f.num_nodes - 2 ^ k > 2 ^ k / 2 →
      binomial_forest_steal_3 f = binomial_forest_steal_2 f) ∧
    (¬ f.num_nodes - 2 ^ k > 2 ^ k / 2 →
      binomial_forest_steal_3 f = binomial_forest_steal_1 f) := by
  have hne : ¬ all_empty f := fun hall => hocc (hall k hk)
  obtain ⟨k1, hk1, hocc1, hhigh1, -, -, hbig, hsmall⟩ := steal_3_cases hw ho hne
  have hkk : k1 = k := highest_unique hocc hhigh hocc1 hhigh1
  subst hkk
  obtain ⟨f1, t, -, hs, -, -, hwt, -⟩ := steal_3_spec hw ho hne
  have hslot := (hw.2.1 k1 hk).resolve_left hocc
  refine ⟨by rw [wf_tree_size hslot.1, hslot.2], ⟨f1, t, hs, hwt.1⟩, hbig, fun h => hsmall (by omega)⟩

/-- Witness of C14 on the forest holding nodes 0 to 4. -/
theorem steal_3_selects_witness :
    (wf_forest sample_forest ∧ sample_forest.order ≤ 32 ∧ 2 < sample_forest.order ∧
      slot sample_forest 2 ≠ NULL ∧ ∀ i, 2 < i → slot sample_forest i = NULL) ∧
    ((slot sample_forest 2).size = 2 ^ 2 ∧
    (∃ f1 t, binomial_forest_steal_3 sample_forest = .ok (f1, t) ∧ t ≠ NULL) ∧
    (sample_forest.num_nodes - 2 ^ 2 > 2 ^ 2 / 2 →
      binomial_forest_steal_3 sample_forest = binomial_forest_steal_2 sample_forest) ∧
    (¬ sample_forest.num_nodes - 2 ^ 2 > 2 ^ 2 / 2 →
      binomial_forest_steal_3 sample_forest = binomial_forest_steal_1 sample_forest)) :=
  ⟨⟨by decide, by decide, by decide, by decide,
      fun i hi => getD_highest_gt [node 4 0 NULL NULL, NULL] _ 0 hi⟩,
    steal_3_selects sample_forest 2 (by decide) (by decide) (by decide) (by decide)
      (fun i hi => getD_highest_gt [node 4 0 NULL NULL, NULL] _ 0 hi)⟩

/-- C15 (the inequality behind steal_3). On a well-formed forest that holds
`N ≥ 2` nodes, with highest occupied slot `k`, `x = 2^k` and `r = N - x`: `k ≥ 1`, and
`binomial_forest_steal_3` returns a tree of `s` nodes with `s = x` when `r > x / 2` and
`s = x / 2` when `r ≤ x / 2`. In the first case `N < 2 * s` and `3 * s < 2 * N`, in the
second `N ≤ 3 * s` and `2 * s ≤ N`; in both `N ≤ 3 * s` and `3 * s ≤ 2 * N`. -/
theorem steal_3_inequality (f : BinomialForest) (k : Nat) (hw : wf_forest f)
    (ho : f.order ≤ 32) (hN : 2 ≤ f.num_nodes)
    (hk : k < f.order) (hocc : slot f k ≠ NULL) (hhigh : ∀ i, k < i → slot f i = NULL) :
    1 ≤ k ∧ 2 ^ k ≤ f.num_nodes ∧
    ∃ f1 t, binomial_forest_steal_3 f = .ok (f1, t) ∧
      (f.num_nodes - 2 ^ k > 2 ^ k / 2 →
        t.size = 2 ^ k ∧ f.num_nodes < 2 * t.size ∧ 3 * t.size < 2 * f.num_nodes) ∧
      (f.num_nodes - 2 ^ k ≤ 2 ^ k / 2 →
        t.size = 2 ^ k / 2 ∧ f.num_nodes ≤ 3 * t.size ∧ 2 * t.size ≤ f.num_nodes) ∧
      f.num_nodes ≤ 3 * t.size ∧ 3 * t.size ≤ 2 * f.num_nodes := by
  have hne : ¬ all_empty f := fun hall => hocc (hall k hk)
  obtain ⟨f1, t, k1, hs, -, -, hwt, -, -, hk1, hocc1, hhigh1, hle, hlt, hcase⟩ :=
    steal_3_spec hw ho hne
  have hkk : k1 = k := highest_unique hocc hhigh hocc1 hhigh1
  subst hkk
  have hsz : t.size = 2 ^ t.order := wf_tree_size hwt
  obtain ⟨j, rfl⟩ : ∃ j, k1 = j + 1 := by
    cases k1 with
    | zero => simp only [pow_zero] at hlt; omega
    | succ j => exact ⟨j, rfl⟩
  have hp : 2 ^ (j + 1) = 2 * 2 ^ j := by rw [pow_succ]; omega
  have hpos : 0 < 2 ^ j := by positivity
  have hhalf : 2 ^ (j + 1) / 2 = 2 ^ j := by omega
  refine ⟨by omega, hle, f1, t, hs, ?_, ?_, ?_, ?_⟩
  · intro hb
    rcases hcase with ⟨-, hto⟩ | ⟨hb', -⟩
    · rw [hsz, hto]; omega
    · omega
  · intro hb
    rcases hcase with ⟨hb', -⟩ | ⟨-, hto⟩
    · omega
    · rw [hsz, hto, Nat.add_sub_cancel]; omega
  · rcases hcase with ⟨hb, hto⟩ | ⟨hb, hto⟩
    · rw [hsz, hto]; omega
    · rw [hsz, hto, Nat.add_sub_cancel]; omega
  · rcases hcase with ⟨hb, hto⟩ | ⟨hb, hto⟩
    · rw [hsz, hto]; omega
    · rw [hsz, hto, Nat.add_sub_cancel]; omega

/-- Witness of C15 on the forest holding nodes 0 to 4. -/
theorem steal_3_inequality_witness :
    (wf_forest sample_forest ∧ sample_forest.order ≤ 32 ∧ 2 ≤ sample_forest.num_nodes ∧
      2 < sample_forest.order ∧ slot sample_forest 2 ≠ NULL ∧
      ∀ i, 2 < i → slot sample_forest i = NULL) ∧
    (1 ≤ 2 ∧ 2 ^ 2 ≤ sample_forest.num_nodes ∧
    ∃ f1 t, binomial_forest_steal_3 sample_forest = .ok (f1, t) ∧
      (sample_forest.num_nodes - 2 ^ 2 > 2 ^ 2 / 2 →
        t.size = 2 ^ 2 ∧ sample_forest.num_nodes < 2 * t.size ∧
        3 * t.size < 2 * sample_forest.num_nodes) ∧
      (sample_forest.num_nodes - 2 ^ 2 ≤ 2 ^ 2 / 2 →
        t.size = 2 ^ 2 / 2 ∧ sample_forest.num_nodes ≤ 3 * t.size ∧
        2 * t.size ≤ sample_forest.num_nodes) ∧
      sample_forest.num_nodes ≤ 3 * t.size ∧ 3 * t.size ≤ 2 * sample_forest.num_nodes) :=
  ⟨⟨by decide, by decide, by decide, by decide, by decide,
      fun i hi => getD_highest_gt [node 4 0 NULL NULL, NULL] _ 0 hi⟩,
    steal_3_inequality sample_forest 2 (by decide) (by decide) (by decide) (by decide)
      (by decide) (fun i hi => getD_highest_gt [node 4 0 NULL NULL, NULL] _ 0 hi)⟩

/-! ## C16: steal_1 splits the highest tree in half -/

theorem getD_append_lt (pre suf : List BinomialTree) {i : Nat} (h : i < pre.length) :
    (pre ++ suf).getD i NULL = pre.getD i NULL := by
  rw [List.getD_eq_getElem?_getD, List.getElem?_append_left h, ← List.getD_eq_getElem?_getD]

/-- The function `binomial_forest_steal_1` when the slot below the highest
occupied slot is free, in terms of the slot list. -/
theorem steal_1_free {o n m a ca k : Nat} {cc cs : BinomialTree} {pre : List BinomialTree}
    (h : wf_forest ⟨o, n, pre ++ NULL :: node a (k + 1) (node ca k cc cs) NULL ::
      List.replicate m NULL⟩) (ho : o ≤ 32) :
    k = pre.length ∧ 2 ^ k ≤ n ∧
    binomial_forest_steal_1 ⟨o, n, pre ++ NULL :: node a (k + 1) (node ca k cc cs) NULL ::
        List.replicate m NULL⟩
      = .ok (⟨o, n - 2 ^ k, pre ++ node a k cs NULL :: NULL :: List.replicate m NULL⟩,
          node ca k cc NULL) := by
  have h' : wf_forest ⟨o, n, (pre ++ [NULL]) ++ node a (k + 1) (node ca k cc cs) NULL ::
      List.replicate m NULL⟩ := by simpa using h
  obtain ⟨hk, -, -, hk32, hn, hcp, -, hrh, -⟩ := remove_highest_decomp h' ho
  have hk' : k = pre.length := by simpa using hk
  have hnlt : n < 2 ^ 32 := by simpa using num_nodes_lt_of_wf h ho
  have hp : 2 ^ (k + 1) = 2 * 2 ^ k := by rw [pow_succ]; omega
  simp only [List.append_assoc, List.singleton_append] at hrh
  refine ⟨hk', by omega, ?_⟩
  simp only [binomial_forest_steal_1, hrh]
  rw [split_merge_free _ _ _ _ _ _ _ _ _ _ hk' (by omega) (by omega)]
  congr 3
  omega

/-- The function `binomial_forest_steal_1` when the slot below the highest
occupied slot is occupied, in terms of the slot list. -/
theorem steal_1_occupied {o n m a ca oa k j : Nat} {cc cs oc os : BinomialTree}
    {pre : List BinomialTree}
    (h : wf_forest ⟨o, n, pre ++ node oa j oc os :: node a (k + 1) (node ca k cc cs) NULL ::
      List.replicate m NULL⟩) (ho : o ≤ 32) :
    k = pre.length ∧ j = k ∧ os = NULL ∧ 2 ^ k ≤ n ∧
    binomial_forest_steal_1 ⟨o, n, pre ++ node oa j oc os ::
        node a (k + 1) (node ca k cc cs) NULL :: List.replicate m NULL⟩
      = .ok (⟨o, n - 2 ^ k, pre ++ NULL :: node oa (k + 1) (node a k cs oc) NULL ::
          List.replicate m NULL⟩, node ca k cc NULL) := by
  have h' : wf_forest ⟨o, n, (pre ++ [node oa j oc os]) ++
      node a (k + 1) (node ca k cc cs) NULL :: List.replicate m NULL⟩ := by simpa using h
  obtain ⟨hk, -, -, hk32, hn, hcp, hwpre, hrh, -⟩ := remove_highest_decomp h' ho
  have hk' : k = pre.length := by simpa using hk
  obtain ⟨-, hwocc⟩ := wf_slots_append.1 hwpre
  obtain ⟨hocc, -⟩ := wf_slots_cons.1 hwocc
  have hocc' := hocc.resolve_left (by simp)
  obtain ⟨rfl, -⟩ := wf_tree_node.1 hocc'.1
  have hj : j = k := by
    have := hocc'.2
    simp only [BinomialTree.order, Nat.zero_add] at this
    omega
  subst hj
  have hnlt : n < 2 ^ 32 := by simpa using num_nodes_lt_of_wf h ho
  have hp : 2 ^ (j + 1) = 2 * 2 ^ j := by rw [pow_succ]; omega
  simp only [List.append_assoc, List.singleton_append] at hrh
  refine ⟨hk', rfl, rfl, by omega, ?_⟩
  simp only [binomial_forest_steal_1, hrh]
  rw [split_merge_occupied _ _ _ _ _ _ _ _ _ _ _ _ hk' (by omega) (by omega)]
  congr 3
  omega

/-- C16 (steal_1 splits the highest tree in half). On a well-formed forest whose
highest occupied slot is `k`, `binomial_forest_steal_1` returns. When `k ≥ 1`, with
`node a k (node ca (k-1) cc cs) NULL` the tree of slot `k`, the result is its former
leftmost child `node ca (k-1) cc NULL` (order `k-1`, `2^(k-1)` nodes); the remainder
`node a (k-1) cs NULL` goes into slot `k-1` if that slot was empty (slot `k` is then
empty), and otherwise becomes the leftmost child of the occupant of slot `k-1`, the
resulting tree of order `k` being stored in slot `k` and slot `k-1` cleared; the slots
below `k-1` are unchanged and `num_nodes` is less by `2^(k-1)`. When `k = 0` the result
is the node of slot 0 itself and the forest is left empty. -/
theorem steal_1_splits (f : BinomialForest) (k : Nat) (hw : wf_forest f) (ho : f.order ≤ 32)
    (hk : k < f.order) (hocc : slot f k ≠ NULL) (hhigh : ∀ i, k < i → slot f i = NULL) :
    ∃ f1 t, binomial_forest_steal_1 f = .ok (f1, t) ∧
      (k = 0 → t = slot f 0 ∧ all_empty f1 ∧ f.num_nodes = 1) ∧
      (1 ≤ k → ∃ a ca cc cs, slot f k = node a k (node ca (k - 1) cc cs) NULL ∧
        t = node ca (k - 1) cc NULL ∧ t.size = 2 ^ (k - 1) ∧
        (slot f (k - 1) = NULL →
          slot f1 (k - 1) = node a (k - 1) cs NULL ∧ slot f1 k = NULL) ∧
        (slot f (k - 1) ≠ NULL → ∃ oa oc, slot f (k - 1) = node oa (k - 1) oc NULL ∧
          slot f1 k = node oa k (node a (k - 1) cs oc) NULL ∧ slot f1 (k - 1) = NULL) ∧
        (∀ i, i < k - 1 → slot f1 i = slot f i) ∧
        f1.num_nodes + 2 ^ (k - 1) = f.num_nodes) := by
  have hne : ¬ all_empty f := fun hall => hocc (hall k hk)
  obtain ⟨pre, a, k1, c, m, hf, hk1, hc⟩ := exists_highest_of_wf hw hne
  obtain ⟨o, n, l⟩ := f
  simp only [BinomialForest.mk.injEq, true_and] at hf
  subst hf
  simp only at ho
  obtain ⟨-, hsk, hgt, -, -, -⟩ := highest_slot_facts hw ho
  have hkk : k1 = k := highest_unique hocc hhigh (by rw [hsk]; simp) hgt
  subst hkk
  cases k1 with
  | zero =>
    have hpre : pre = [] := List.length_eq_zero.1 hk1.symm
    subst hpre
    have hcn : c = NULL := wf_chain_zero.1 hc
    subst hcn
    obtain ⟨-, -, -, -, hn, -, -, hrh, hwf1⟩ := remove_highest_decomp hw ho
    simp only [count_slots, pow_zero, Nat.zero_add] at hn
    have he1 : all_empty ⟨o, n - 2 ^ 0, [] ++ NULL :: List.replicate m NULL⟩ := by
      have := all_empty_replicate o (n - 2 ^ 0) (m + 1)
      simpa [List.replicate_succ] using this
    refine ⟨_, node a 0 NULL NULL, ?_, fun _ => ⟨hsk.symm, he1, hn⟩,
      fun h => absurd h (by omega)⟩
    simp only [binomial_forest_steal_1, hrh]
    exact split_merge_zero a hwf1 he1
  | succ j =>
    obtain ⟨ca, cc, cs, rfl, hcc, hcs⟩ := wf_chain_succ.1 hc
    obtain ⟨pre', occ, rfl⟩ : ∃ pre' occ, pre = pre' ++ [occ] := by
      rcases List.eq_nil_or_concat pre with h | ⟨p, x, h⟩
      · simp [h] at hk1
      · exact ⟨p, x, by simpa using h⟩
    have hj : j = pre'.length := by simpa using hk1
    simp only [List.append_assoc, List.singleton_append] at hw hsk ⊢
    have hszt : (node ca j cc NULL).size = 2 ^ j := by
      have := wf_tree_size (wf_tree_node.2 ⟨rfl, hcc⟩ : wf_tree (node ca j cc NULL))
      simpa [BinomialTree.order] using this
    have hbelow : ∀ (x y : BinomialTree) (n' : Nat) (i : Nat), i < j + 1 - 1 →
        slot ⟨o, n', pre' ++ x :: y :: List.replicate m NULL⟩ i
          = slot ⟨o, n, pre' ++ occ :: node a (j + 1) (node ca j cc cs) NULL ::
              List.replicate m NULL⟩ i := by
      intro x y n' i hi
      rw [slot_mk, slot_mk, getD_append_lt _ _ (by omega), getD_append_lt _ _ (by omega)]
    have hat : ∀ (x y : BinomialTree) (n' : Nat),
        slot ⟨o, n', pre' ++ x :: y :: List.replicate m NULL⟩ (j + 1 - 1) = x := by
      intro x y n'
      rw [slot_mk, Nat.add_sub_cancel, hj]; exact getD_append_length _ _ _
    have hup : ∀ (x y : BinomialTree) (n' : Nat),
        slot ⟨o, n', pre' ++ x :: y :: List.replicate m NULL⟩ (j + 1) = y := by
      intro x y n'
      have := getD_append_add pre' (x :: y :: List.replicate m NULL) 1
      rw [slot_mk, hj]; simpa using this
    cases occ with
    | NULL =>
      obtain ⟨-, hle, hs1⟩ := steal_1_free hw ho
      refine ⟨_, _, hs1, fun h => absurd h (by omega), fun _ => ⟨a, ca, cc, cs, ?_, ?_, ?_,
        fun _ => ⟨hat _ _ _, hup _ _ _⟩, fun hx => absurd (hat _ _ _) hx, hbelow _ _ _, ?_⟩⟩
      · rw [hsk, Nat.add_sub_cancel]
      · rw [Nat.add_sub_cancel]
      · rw [Nat.add_sub_cancel]; exact hszt
      · simp only [Nat.add_sub_cancel]; omega
    | node oa oj oc os =>
      obtain ⟨-, rfl, rfl, hle, hs1⟩ := steal_1_occupied hw ho
      refine ⟨_, _, hs1, fun h => absurd h (by omega), fun _ => ⟨a, ca, cc, cs, ?_, ?_, ?_,
        fun hx => ?_, fun _ => ⟨oa, oc, ?_, hup _ _ _, hat _ _ _⟩, hbelow _ _ _, ?_⟩⟩
      · rw [hsk, Nat.add_sub_cancel]
      · rw [Nat.add_sub_cancel]
      · rw [Nat.add_sub_cancel]; exact hszt
      · rw [hat] at hx; exact absurd hx (by simp)
      · rw [hat, Nat.add_sub_cancel]
      · simp only [Nat.add_sub_cancel]; omega

/-- Witness of C16 on the forest holding nodes 0 to 4. -/
theorem steal_1_splits_witness :
    (wf_forest sample_forest ∧ sample_forest.order ≤ 32 ∧ 2 < sample_forest.order ∧
      slot sample_forest 2 ≠ NULL ∧ ∀ i, 2 < i → slot sample_forest i = NULL) ∧
    ∃ f1 t, binomial_forest_steal_1 sample_forest = .ok (f1, t) ∧
      (2 = 0 → t = slot sample_forest 0 ∧ all_empty f1 ∧ sample_forest.num_nodes = 1) ∧
      (1 ≤ 2 → ∃ a ca cc cs, slot sample_forest 2 = node a 2 (node ca (2 - 1) cc cs) NULL ∧
        t = node ca (2 - 1) cc NULL ∧ t.size = 2 ^ (2 - 1) ∧
        (slot sample_forest (2 - 1) = NULL →
          slot f1 (2 - 1) = node a (2 - 1) cs NULL ∧ slot f1 2 = NULL) ∧
        (slot sample_forest (2 - 1) ≠ NULL → ∃ oa oc,
          slot sample_forest (2 - 1) = node oa (2 - 1) oc NULL ∧
          slot f1 2 = node oa 2 (node a (2 - 1) cs oc) NULL ∧ slot f1 (2 - 1) = NULL) ∧
        (∀ i, i < 2 - 1 → slot f1 i = slot sample_forest i) ∧
        f1.num_nodes + 2 ^ (2 - 1) = sample_forest.num_nodes) :=
  ⟨⟨by decide, by decide, by decide, by decide,
      fun i hi => getD_highest_gt [node 4 0 NULL NULL, NULL] _ 0 hi⟩,
    steal_1_splits sample_forest 2 (by decide) (by decide) (by decide) (by decide)
      (fun i hi => getD_highest_gt [node 4 0 NULL NULL, NULL] _ 0 hi)⟩

/-! ## C17: unlink inverts link -/

/-- C17 as stated fails for two nodes whose `order` is the largest `unsigned int`:
`binomial_tree_link` computes the order `k + 1` in 32-bit arithmetic, so the linked
tree has order 0, and `binomial_tree_unlink` of it returns `NULL` instead of `b`. -/
theorem unlink_link_fails_at_max_order :
    (node 0 (2 ^ 32 - 1) NULL NULL).order = (node 1 (2 ^ 32 - 1) NULL NULL).order ∧
    (node 0 (2 ^ 32 - 1) NULL NULL).siblings = NULL ∧
    (node 1 (2 ^ 32 - 1) NULL NULL).siblings = NULL ∧
    binomial_tree_link (node 0 (2 ^ 32 - 1) NULL NULL) (node 1 (2 ^ 32 - 1) NULL NULL)
      = .ok (node 0 0 (node 1 (2 ^ 32 - 1) NULL NULL) NULL) ∧
    (node 0 0 (node 1 (2 ^ 32 - 1) NULL NULL) NULL).order ≠ (2 ^ 32 - 1) + 1 ∧
    binomial_tree_unlink (node 0 0 (node 1 (2 ^ 32 - 1) NULL NULL) NULL)
      = .ok (node 0 0 (node 1 (2 ^ 32 - 1) NULL NULL) NULL, NULL) := by
  refine ⟨rfl, rfl, rfl, by decide, by decide, by decide⟩

/-- C17 amended (unlink is the inverse of link). For nodes `a` and `b` of equal
order `k` with `k + 1` in the range of `unsigned int`, both without siblings:
`binomial_tree_link(a, b)` returns `a` with order `k + 1` and with `b` as leftmost child
(in front of the former children of `a`); `binomial_tree_unlink` of the result returns
`b` as it was (no siblings, its order and children unchanged) and leaves `a` as it
was (order `k`, its former children). If `a` and `b` are well-formed, the linked tree
is well-formed and has `2^(k+1)` nodes. `binomial_tree_unlink` of a node of order 0
returns `NULL` and changes nothing. -/
theorem unlink_link (a b z : BinomialTree) (ha : a ≠ NULL) (hb : b ≠ NULL) (hz : z ≠ NULL)
    (ho : a.order = b.order) (hk : a.order + 1 < 2 ^ 32)
    (hsa : a.siblings = NULL) (hsb : b.siblings = NULL) (hz0 : z.order = 0) :
    (∃ ab, binomial_tree_link a b = .ok ab ∧ ptr ab = ptr a ∧ ab.order = a.order + 1 ∧
      ab.siblings = NULL ∧ ptr ab.children = ptr b ∧ ab.children.order = b.order ∧
      ab.children.children = b.children ∧ ab.children.siblings = a.children ∧
      binomial_tree_unlink ab = .ok (a, b) ∧
      (wf_tree a → wf_tree b → wf_tree ab ∧ ab.size = 2 ^ (a.order + 1))) ∧
    binomial_tree_unlink z = .ok (z, NULL) := by
  cases a with
  | NULL => exact absurd rfl ha
  | node aa ao ac asib =>
    cases b with
    | NULL => exact absurd rfl hb
    | node ba bo bc bsib =>
      simp only [BinomialTree.order, BinomialTree.siblings] at ho hk hsa hsb
      subst ho hsa hsb
      constructor
      · refine ⟨node aa (ao + 1) (node ba ao bc ac) NULL, ?_, rfl, rfl, rfl, rfl, rfl, rfl, rfl,
          ?_, ?_⟩
        · simp [binomial_tree_link, u32_of_lt hk]
        · simp [binomial_tree_unlink]
        · intro hwa hwb
          have hca := (wf_tree_node.1 hwa).2
          have hcb := (wf_tree_node.1 hwb).2
          have hwab : wf_tree (node aa (ao + 1) (node ba ao bc ac) NULL) :=
            wf_tree_node.2 ⟨rfl, rfl, hcb, hca⟩
          exact ⟨hwab, wf_tree_size hwab⟩
      · cases z with
        | NULL => exact absurd rfl hz
        | node za zo zc zs =>
          simp only [BinomialTree.order] at hz0
          subst hz0
          simp [binomial_tree_unlink]

/-- Witness of C17 amended on two single nodes and on a node of order 0. -/
theorem unlink_link_witness :
    (node 1 0 NULL NULL ≠ NULL ∧ node 0 0 NULL NULL ≠ NULL ∧ node 2 0 NULL NULL ≠ NULL ∧
      (node 1 0 NULL NULL).order = (node 0 0 NULL NULL).order ∧
      (node 1 0 NULL NULL).order + 1 < 2 ^ 32 ∧ (node 1 0 NULL NULL).siblings = NULL ∧
      (node 0 0 NULL NULL).siblings = NULL ∧ (node 2 0 NULL NULL).order = 0) ∧
    ((∃ ab, binomial_tree_link (node 1 0 NULL NULL) (node 0 0 NULL NULL) = .ok ab ∧
      ptr ab = ptr (node 1 0 NULL NULL) ∧ ab.order = (node 1 0 NULL NULL).order + 1 ∧
      ab.siblings = NULL ∧ ptr ab.children = ptr (node 0 0 NULL NULL) ∧
      ab.children.order = (node 0 0 NULL NULL).order ∧
      ab.children.children = (node 0 0 NULL NULL).children ∧
      ab.children.siblings = (node 1 0 NULL NULL).children ∧
      binomial_tree_unlink ab = .ok (node 1 0 NULL NULL, node 0 0 NULL NULL) ∧
      (wf_tree (node 1 0 NULL NULL) → wf_tree (node 0 0 NULL NULL) →
        wf_tree ab ∧ ab.size = 2 ^ ((node 1 0 NULL NULL).order + 1))) ∧
    binomial_tree_unlink (node 2 0 NULL NULL) = .ok (node 2 0 NULL NULL, NULL)) :=
  ⟨⟨by decide, by decide, by decide, by decide, by decide, by decide, by decide, by decide⟩,
    unlink_link (node 1 0 NULL NULL) (node 0 0 NULL NULL) (node 2 0 NULL NULL)
      (by decide) (by decide) (by decide) (by decide) (by decide) (by decide) (by decide)
      (by decide)⟩

/-! ## C20: the assertion of split_merge that assigns -/

theorem split_merge_ndebug_zero (f : BinomialForest) (a : Nat) :
    split_merge_ndebug f (node a 0 NULL NULL) = .ok (f, node a 0 NULL NULL) := by
  simp only [split_merge_ndebug, binomial_tree_unlink_ndebug, if_true]

theorem split_merge_ndebug_free (o n a ca k : Nat) (cc cs x : BinomialTree)
    (pre rest : List BinomialTree) (hk : k = pre.length) (hk32 : k < 32)
    (hn : n + 2 ^ k < 2 ^ 32) :
    split_merge_ndebug ⟨o, n, pre ++ NULL :: x :: rest⟩ (node a (k + 1) (node ca k cc cs) NULL)
      = .ok (⟨o, n + 2 ^ k, pre ++ node a k cs NULL :: x :: rest⟩, node ca k cc NULL) := by
  simp only [split_merge_ndebug, binomial_tree_unlink_ndebug, Nat.succ_ne_zero, if_false, ne_eq,
    not_true_eq_false, Nat.add_sub_cancel, BinomialTree.order, load_at hk, if_true,
    store_at _ hk, POW_2_of_lt hk32]
  rw [u32_of_lt hn]

theorem split_merge_ndebug_occupied (o n a ca oa k : Nat) (cc cs oc x : BinomialTree)
    (pre rest : List BinomialTree) (hk : k = pre.length) (hk32 : k < 32)
    (hn : n + 2 ^ k < 2 ^ 32) :
    split_merge_ndebug ⟨o, n, pre ++ node oa k oc NULL :: x :: rest⟩
        (node a (k + 1) (node ca k cc cs) NULL)
      = .ok (⟨o, n + 2 ^ k, pre ++ NULL :: node oa (k + 1) (node a k cs oc) NULL :: rest⟩,
          node ca k cc NULL) := by
  have hk1 : k + 1 < 2 ^ 32 := by
    have : (32 : Nat) < 2 ^ 32 := by decide
    omega
  have e1 : pre ++ node oa k oc NULL :: x :: rest
      = (pre ++ [node oa k oc NULL]) ++ x :: rest := by simp
  have hst : store ⟨o, n, pre ++ node oa k oc NULL :: x :: rest⟩ (k + 1)
      (node oa (k + 1) (node a k cs oc) NULL)
      = .ok ⟨o, n, pre ++ node oa k oc NULL :: node oa (k + 1) (node a k cs oc) NULL :: rest⟩ := by
    rw [e1, store_at _ (by simp [hk])]; simp
  simp only [split_merge_ndebug, binomial_tree_unlink_ndebug, Nat.succ_ne_zero, if_false, ne_eq,
    not_true_eq_false, Nat.add_sub_cancel, BinomialTree.order, load_at hk, if_true,
    reduceCtorEq, not_false_eq_true, binomial_tree_link_ndebug, u32_of_lt hk1, hst,
    store_at _ hk, POW_2_of_lt hk32]
  rw [u32_of_lt hn]

/-- C20 (the assertion `assert(tt->order = t->order+1)` of `split_merge`). On a
well-formed forest whose highest occupied slot is `k`, `remove_highest` returns a
tree `t` and vacates slot `k`; `split_merge` on that forest and `t` returns, with the
same tree and the same forest as when compiled with `NDEBUG`. Whenever it links
(`binomial_tree_unlink(t)` returned a child and slot `t->order` is occupied), the
linked tree `tt` already has order `t->order + 1`, the value assigned, which is not
zero; so the assignment changes no field and the assertion passes, and `tt->order`,
the index of the slot written, is `k`, below the capacity exponent. -/
theorem split_merge_assert_assignment (f : BinomialForest) (k : Nat) (hw : wf_forest f)
    (ho : f.order ≤ 32) (hk : k < f.order) (hocc : slot f k ≠ NULL)
    (hhigh : ∀ i, k < i → slot f i = NULL) :
    ∃ f1 t, remove_highest f = .ok (f1, t) ∧ t = slot f k ∧ slot f1 k = NULL ∧
      (∃ f2 c, split_merge f1 t = .ok (f2, c)) ∧
      split_merge f1 t = split_merge_ndebug f1 t ∧
      (∀ t1 c occ, binomial_tree_unlink t = .ok (t1, c) → c ≠ NULL →
        load f1 t1.order = .ok occ → occ ≠ NULL →
        ∃ tt, binomial_tree_link occ t1 = .ok tt ∧ tt.order = t1.order + 1 ∧
          u32 (t1.order + 1) = tt.order ∧ tt.order ≠ 0 ∧ tt.order = k ∧
          tt.order < f.order) := by
  have hne : ¬ all_empty f := fun hall => hocc (hall k hk)
  obtain ⟨pre, a, k1, c, m, hf, hk1, hc⟩ := exists_highest_of_wf hw hne
  obtain ⟨o, n, l⟩ := f
  simp only [BinomialForest.mk.injEq, true_and] at hf
  subst hf
  simp only at ho hk
  obtain ⟨-, hsk, hgt, -, -, -⟩ := highest_slot_facts hw ho
  have hkk : k1 = k := highest_unique hocc hhigh (by rw [hsk]; simp) hgt
  subst hkk
  obtain ⟨-, -, -, hk32, hn, hcp, hwpre, hrh, hwf1⟩ := remove_highest_decomp hw ho
  have hnlt : n < 2 ^ 32 := by simpa using num_nodes_lt_of_wf hw ho
  have hvac : slot ⟨o, n - 2 ^ k1, pre ++ NULL :: List.replicate m NULL⟩ k1 = NULL := by
    rw [slot_mk, hk1]; exact getD_append_length _ _ _
  refine ⟨_, _, hrh, hsk.symm, hvac, ?_⟩
  cases k1 with
  | zero =>
    have hpre : pre = [] := List.length_eq_zero.1 hk1.symm
    subst hpre
    have hcn : c = NULL := wf_chain_zero.1 hc
    subst hcn
    simp only [count_slots, pow_zero, Nat.zero_add] at hn
    have he1 : all_empty ⟨o, n - 2 ^ 0, [] ++ NULL :: List.replicate m NULL⟩ := by
      have := all_empty_replicate o (n - 2 ^ 0) (m + 1)
      simpa [List.replicate_succ] using this
    have hsm := split_merge_zero a hwf1 he1
    refine ⟨⟨_, _, hsm⟩, by rw [hsm, split_merge_ndebug_zero], ?_⟩
    intro t1 c occ hun hcn
    simp only [binomial_tree_unlink, if_true, Except.ok.injEq, Prod.mk.injEq] at hun
    exact absurd hun.2.symm hcn
  | succ j =>
    obtain ⟨ca, cc, cs, rfl, hcc, hcs⟩ := wf_chain_succ.1 hc
    obtain ⟨pre', x, rfl⟩ : ∃ pre' x, pre = pre' ++ [x] := by
      rcases List.eq_nil_or_concat pre with h | ⟨p, x, h⟩
      · simp [h] at hk1
      · exact ⟨p, x, by simpa using h⟩
    have hj : j = pre'.length := by simpa using hk1
    obtain ⟨-, hwx⟩ := wf_slots_append.1 hwpre
    simp only [Nat.zero_add] at hwx
    obtain ⟨hx, -⟩ := wf_slots_cons.1 hwx
    have hp : 2 ^ (j + 1) = 2 * 2 ^ j := by rw [pow_succ]; omega
    have hun0 : binomial_tree_unlink (node a (j + 1) (node ca j cc cs) NULL)
        = .ok (node a j cs NULL, node ca j cc NULL) := by
      simp [binomial_tree_unlink]
    simp only [List.append_assoc, List.singleton_append]
    have hj1 : j + 1 < 2 ^ 32 := by
      have : (32 : Nat) < 2 ^ 32 := by decide
      omega
    rcases hx with rfl | ⟨hxw, hxo⟩
    · refine ⟨⟨_, _, split_merge_free _ _ _ _ _ _ _ _ _ _ hj (by omega) (by omega)⟩, ?_, ?_⟩
      · rw [split_merge_free _ _ _ _ _ _ _ _ _ _ hj (by omega) (by omega),
          split_merge_ndebug_free _ _ _ _ _ _ _ _ _ _ hj (by omega) (by omega)]
      · intro t1 c occ hun hcn hld hoc
        rw [hun0] at hun
        simp only [Except.ok.injEq, Prod.mk.injEq] at hun
        obtain ⟨rfl, rfl⟩ := hun
        simp only [BinomialTree.order, load_at hj, Except.ok.injEq] at hld
        exact absurd hld.symm hoc
    · cases x with
      | NULL => exact absurd rfl hxw.1
      | node oa oj oc os =>
        obtain ⟨rfl, -⟩ := wf_tree_node.1 hxw
        simp only [BinomialTree.order] at hxo
        have hoj : oj = j := by omega
        subst hoj
        refine ⟨⟨_, _, split_merge_occupied _ _ _ _ _ _ _ _ _ _ _ _ hj (by omega) (by omega)⟩,
          ?_, ?_⟩
        · rw [split_merge_occupied _ _ _ _ _ _ _ _ _ _ _ _ hj (by omega) (by omega),
            split_merge_ndebug_occupied _ _ _ _ _ _ _ _ _ _ _ _ hj (by omega) (by omega)]
        · intro t1 c occ hun hcn hld hoc
          rw [hun0] at hun
          simp only [Except.ok.injEq, Prod.mk.injEq] at hun
          obtain ⟨rfl, rfl⟩ := hun
          simp only [BinomialTree.order, load_at hj, Except.ok.injEq] at hld
          subst hld
          refine ⟨node oa (oj + 1) (node a oj cs oc) NULL, ?_, rfl, ?_, ?_, rfl, hk⟩
          · simp [binomial_tree_link, u32_of_lt hj1]
          · simp only [BinomialTree.order]; exact u32_of_lt hj1
          · simp [BinomialTree.order]

/-- Witness of C20 on the forest holding nodes 0 to 5, where `split_merge` links. -/
theorem split_merge_assert_assignment_witness :
    (wf_forest six_node_forest ∧ six_node_forest.order ≤ 32 ∧ 2 < six_node_forest.order ∧
      slot six_node_forest 2 ≠ NULL ∧ ∀ i, 2 < i → slot six_node_forest i = NULL) ∧
    ∃ f1 t, remove_highest six_node_forest = .ok (f1, t) ∧ t = slot six_node_forest 2 ∧
      slot f1 2 = NULL ∧
      (∃ f2 c, split_merge f1 t = .ok (f2, c)) ∧
      split_merge f1 t = split_merge_ndebug f1 t ∧
      (∀ t1 c occ, binomial_tree_unlink t = .ok (t1, c) → c ≠ NULL →
        load f1 t1.order = .ok occ → occ ≠ NULL →
        ∃ tt, binomial_tree_link occ t1 = .ok tt ∧ tt.order = t1.order + 1 ∧
          u32 (t1.order + 1) = tt.order ∧ tt.order ≠ 0 ∧ tt.order = 2 ∧
          tt.order < six_node_forest.order) :=
  ⟨⟨by decide, by decide, by decide, by decide,
      fun i hi => getD_highest_gt [NULL, node 5 1 (node 4 0 NULL NULL) NULL] _ 0 hi⟩,
    split_merge_assert_assignment six_node_forest 2 (by decide) (by decide) (by decide)
      (by decide)
      (fun i hi => getD_highest_gt [NULL, node 5 1 (node 4 0 NULL NULL) NULL] _ 0 hi)⟩

/-! ## C19: stolen orders never grow -/

theorem exp_le_of_pow_bounds {k k1 n n1 : Nat} (h1 : 2 ^ k1 ≤ n1) (h2 : n1 ≤ n)
    (h3 : n < 2 * 2 ^ k) : k1 ≤ k := by
  by_contra hc
  have hle : 2 ^ (k + 1) ≤ 2 ^ k1 := Nat.pow_le_pow_right (by decide) (by omega)
  rw [pow_succ] at hle
  omega

theorem steal_run_steal (steal : BinomialForest → Except Abort (BinomialForest × BinomialTree))
    (f : BinomialForest) (ops : List ThiefOp) :
    steal_run steal f (ThiefOp.steal :: ops) =
      match steal f with
      | .error e => .error e
      | .ok (f1, t) =>
        match steal_run steal f1 ops with
        | .error e => .error e
        | .ok (f2, ts) => .ok (f2, t :: ts) := rfl

theorem steal_run_pop (steal : BinomialForest → Except Abort (BinomialForest × BinomialTree))
    (f : BinomialForest) (ops : List ThiefOp) :
    steal_run steal f (ThiefOp.pop :: ops) =
      match binomial_forest_pop f with
      | .error e => .error e
      | .ok (f1, _) => steal_run steal f1 ops := rfl

theorem stolen_trees_cons_NULL (ts : List BinomialTree) :
    stolen_trees (NULL :: ts) = stolen_trees ts := by
  simp [stolen_trees]

theorem stolen_trees_cons_node {t : BinomialTree} (ht : t ≠ NULL) (ts : List BinomialTree) :
    stolen_trees (t :: ts) = t :: stolen_trees ts := by
  simp [stolen_trees, ht]

theorem mem_stolen_trees {t : BinomialTree} {ts : List BinomialTree} :
    t ∈ stolen_trees ts ↔ t ∈ ts ∧ t ≠ NULL := by
  simp [stolen_trees]

/-- A run of steals and pops on a well-formed forest, for a steal function that
keeps the forest well-formed, does not add nodes, and returns trees whose order
does not grow with the number of nodes of the forest. -/
theorem steal_run_sorted (steal : BinomialForest → Except Abort (BinomialForest × BinomialTree))
    (hspec : ∀ f, wf_forest f → f.order ≤ 32 → ∃ f1 t, steal f = .ok (f1, t) ∧ wf_forest f1 ∧
      f1.order = f.order ∧ f1.num_nodes ≤ f.num_nodes ∧
      (t ≠ NULL → wf_tree t ∧ t.order < f.order))
    (hmono : ∀ f g f1 g1 t u, wf_forest f → wf_forest g → f.order ≤ 32 → g.order ≤ 32 →
      g.num_nodes ≤ f.num_nodes → steal f = .ok (f1, t) → steal g = .ok (g1, u) →
      u ≠ NULL → t ≠ NULL ∧ u.order ≤ t.order)
    (ops : List ThiefOp) : ∀ f, wf_forest f → f.order ≤ 32 →
    ∃ f1 ts, steal_run steal f ops = .ok (f1, ts) ∧
      (∀ u, u ∈ stolen_trees ts → wf_tree u ∧ u.order < f.order ∧
        ∀ fb fb1 tb, wf_forest fb → fb.order ≤ 32 → f.num_nodes ≤ fb.num_nodes →
          steal fb = .ok (fb1, tb) → tb ≠ NULL ∧ u.order ≤ tb.order) ∧
      ((stolen_trees ts).map BinomialTree.order).Pairwise (fun x y => y ≤ x) := by
  induction ops with
  | nil =>
    intro f _ _
    exact ⟨f, [], rfl, by simp [stolen_trees], by simp [stolen_trees]⟩
  | cons op ops ih =>
    intro f hw ho
    cases op with
    | steal =>
      obtain ⟨f1, t, hs, hw1, ho1, hn1, ht⟩ := hspec f hw ho
      obtain ⟨f2, ts, hrun, hb, hp⟩ := ih f1 hw1 (ho1 ▸ ho)
      refine ⟨f2, t :: ts, by rw [steal_run_steal, hs]; simp only [hrun], ?_, ?_⟩
      · intro u hu
        obtain ⟨hmem, hun⟩ := mem_stolen_trees.1 hu
        rcases List.mem_cons.1 hmem with rfl | hmem
        · refine ⟨(ht hun).1, (ht hun).2, ?_⟩
          intro fb fb1 tb hwb hob hle hsb
          exact hmono fb f fb1 f1 tb u hwb hw hob ho hle hsb hs hun
        · obtain ⟨hwu, hou, hbu⟩ := hb u (mem_stolen_trees.2 ⟨hmem, hun⟩)
          refine ⟨hwu, by omega, ?_⟩
          intro fb fb1 tb hwb hob hle hsb
          exact hbu fb fb1 tb hwb hob (by omega) hsb
      · by_cases htn : t = NULL
        · subst htn
          rw [stolen_trees_cons_NULL]; exact hp
        · rw [stolen_trees_cons_node htn, List.map_cons, List.pairwise_cons]
          refine ⟨?_, hp⟩
          intro x hx
          obtain ⟨u, hu, rfl⟩ := List.mem_map.1 hx
          exact ((hb u hu).2.2 f f1 t hw ho hn1 hs).2
    | pop =>
      have hpop : ∃ f1 t, binomial_forest_pop f = .ok (f1, t) ∧ wf_forest f1 ∧
          f1.order = f.order ∧ f1.num_nodes ≤ f.num_nodes := by
        by_cases he : all_empty f
        · exact ⟨f, NULL, pop_empty hw he, hw, rfl, le_refl _⟩
        · obtain ⟨f1, a, m, hp, hw1, ho1, hn1, -⟩ := pop_spec hw ho he
          exact ⟨f1, _, hp, hw1, ho1, by omega⟩
      obtain ⟨f1, t, hp, hw1, ho1, hn1⟩ := hpop
      obtain ⟨f2, ts, hrun, hb, hpw⟩ := ih f1 hw1 (ho1 ▸ ho)
      refine ⟨f2, ts, by rw [steal_run_pop, hp]; simp only [hrun], ?_, hpw⟩
      intro u hu
      obtain ⟨hwu, hou, hbu⟩ := hb u hu
      refine ⟨hwu, by omega, ?_⟩
      intro fb fb1 tb hwb hob hle hsb
      exact hbu fb fb1 tb hwb hob (by omega) hsb

theorem not_all_empty_of_pos {f : BinomialForest} (hw : wf_forest f) (h : 0 < f.num_nodes) :
    ¬ all_empty f := fun he => by
  have := (all_empty_iff_num_nodes hw).1 he
  omega

theorem num_nodes_pos_of_not_all_empty {f : BinomialForest} (hw : wf_forest f)
    (h : ¬ all_empty f) : 0 < f.num_nodes := by
  by_contra hc
  exact h ((all_empty_iff_num_nodes hw).2 (by omega))

/-- What the generic run lemma needs of each steal function: it returns on a
well-formed forest, keeps it well-formed, does not add nodes, and its result is
`NULL` or a well-formed tree of order below the capacity exponent. -/
theorem steal_basic (steal : BinomialForest → Except Abort (BinomialForest × BinomialTree))
    (hne : ∀ f, wf_forest f → f.order ≤ 32 → ¬ all_empty f →
      ∃ f1 t k, steal f = .ok (f1, t) ∧ wf_forest f1 ∧ f1.order = f.order ∧ wf_tree t ∧
        f1.num_nodes + 2 ^ t.order = f.num_nodes ∧ k < f.order ∧ t.order ≤ k)
    (he : ∀ f, wf_forest f → all_empty f → steal f = .ok (f, NULL)) :
    ∀ f, wf_forest f → f.order ≤ 32 → ∃ f1 t, steal f = .ok (f1, t) ∧ wf_forest f1 ∧
      f1.order = f.order ∧ f1.num_nodes ≤ f.num_nodes ∧
      (t ≠ NULL → wf_tree t ∧ t.order < f.order) := by
  intro f hw ho
  by_cases hemp : all_empty f
  · exact ⟨f, NULL, he f hw hemp, hw, rfl, le_refl _, fun h => absurd rfl h⟩
  · obtain ⟨f1, t, k, hs, hw1, ho1, hwt, hnn, hk, hto⟩ := hne f hw ho hemp
    exact ⟨f1, t, hs, hw1, ho1, Nat.le.intro hnn, fun _ => ⟨hwt, by omega⟩⟩

theorem steal_1_mono (f g f1 g1 : BinomialForest) (t u : BinomialTree) (hwf : wf_forest f)
    (hwg : wf_forest g) (hof : f.order ≤ 32) (hog : g.order ≤ 32)
    (hle : g.num_nodes ≤ f.num_nodes) (hsf : binomial_forest_steal_1 f = .ok (f1, t))
    (hsg : binomial_forest_steal_1 g = .ok (g1, u)) (hu : u ≠ NULL) :
    t ≠ NULL ∧ u.order ≤ t.order := by
  have hgne : ¬ all_empty g := by
    intro he
    rw [(steal_empty hwg he).1] at hsg
    simp only [Except.ok.injEq, Prod.mk.injEq] at hsg
    exact hu hsg.2.symm
  have hfne : ¬ all_empty f :=
    not_all_empty_of_pos hwf (by have := num_nodes_pos_of_not_all_empty hwg hgne; omega)
  obtain ⟨f1', t', k, hs, -, -, hwt, -, -, -, -, -, hto, hle1, hlt1, -⟩ := steal_1_spec hwf hof hfne
  obtain ⟨g1', u', j, hs', -, -, -, -, -, -, -, -, huo, hle2, hlt2, -⟩ := steal_1_spec hwg hog hgne
  rw [hsf] at hs
  rw [hsg] at hs'
  simp only [Except.ok.injEq, Prod.mk.injEq] at hs hs'
  obtain ⟨-, rfl⟩ := hs
  obtain ⟨-, rfl⟩ := hs'
  have := exp_le_of_pow_bounds hle2 hle hlt1
  exact ⟨hwt.1, by omega⟩

theorem steal_2_mono (f g f1 g1 : BinomialForest) (t u : BinomialTree) (hwf : wf_forest f)
    (hwg : wf_forest g) (hof : f.order ≤ 32) (hog : g.order ≤ 32)
    (hle : g.num_nodes ≤ f.num_nodes) (hsf : binomial_forest_steal_2 f = .ok (f1, t))
    (hsg : binomial_forest_steal_2 g = .ok (g1, u)) (hu : u ≠ NULL) :
    t ≠ NULL ∧ u.order ≤ t.order := by
  have hgne : ¬ all_empty g := by
    intro he
    rw [(steal_empty hwg he).2.1] at hsg
    simp only [Except.ok.injEq, Prod.mk.injEq] at hsg
    exact hu hsg.2.symm
  have hfne : ¬ all_empty f :=
    not_all_empty_of_pos hwf (by have := num_nodes_pos_of_not_all_empty hwg hgne; omega)
  obtain ⟨f1', t', k, hs, -, -, hwt, -, -, -, -, -, hto, hle1, hlt1, -⟩ := steal_2_spec hwf hof hfne
  obtain ⟨g1', u', j, hs', -, -, -, -, -, -, -, -, huo, hle2, hlt2, -⟩ := steal_2_spec hwg hog hgne
  rw [hsf] at hs
  rw [hsg] at hs'
  simp only [Except.ok.injEq, Prod.mk.injEq] at hs hs'
  obtain ⟨-, rfl⟩ := hs
  obtain ⟨-, rfl⟩ := hs'
  have := exp_le_of_pow_bounds hle2 hle hlt1
  exact ⟨hwt.1, by omega⟩

theorem steal_3_mono (f g f1 g1 : BinomialForest) (t u : BinomialTree) (hwf : wf_forest f)
    (hwg : wf_forest g) (hof : f.order ≤ 32) (hog : g.order ≤ 32)
    (hle : g.num_nodes ≤ f.num_nodes) (hsf : binomial_forest_steal_3 f = .ok (f1, t))
    (hsg : binomial_forest_steal_3 g = .ok (g1, u)) (hu : u ≠ NULL) :
    t ≠ NULL ∧ u.order ≤ t.order := by
  have hgne : ¬ all_empty g := by
    intro he
    rw [(steal_empty hwg he).2.2] at hsg
    simp only [Except.ok.injEq, Prod.mk.injEq] at hsg
    exact hu hsg.2.symm
  have hfne : ¬ all_empty f :=
    not_all_empty_of_pos hwf (by have := num_nodes_pos_of_not_all_empty hwg hgne; omega)
  obtain ⟨f1', t', k, hs, -, -, hwt, -, -, -, -, -, hle1, hlt1, hc1⟩ := steal_3_spec hwf hof hfne
  obtain ⟨g1', u', j, hs', -, -, -, -, -, -, -, -, hle2, hlt2, hc2⟩ := steal_3_spec hwg hog hgne
  rw [hsf] at hs
  rw [hsg] at hs'
  simp only [Except.ok.injEq, Prod.mk.injEq] at hs hs'
  obtain ⟨-, rfl⟩ := hs
  obtain ⟨-, rfl⟩ := hs'
  have hjk := exp_le_of_pow_bounds hle2 hle hlt1
  refine ⟨hwt.1, ?_⟩
  rcases Nat.lt_or_eq_of_le hjk with hlt | heq
  · rcases hc1 with ⟨-, h1⟩ | ⟨-, h1⟩ <;> rcases hc2 with ⟨-, h2⟩ | ⟨-, h2⟩ <;> omega
  · subst heq
    rcases hc1 with ⟨-, h1⟩ | ⟨hb1, h1⟩ <;> rcases hc2 with ⟨hb2, h2⟩ | ⟨-, h2⟩ <;> omega

/-- From the sorted run to the statement on seeds. -/
theorem orders_never_grow_of_sorted
    {steal : BinomialForest → Except Abort (BinomialForest × BinomialTree)}
    {f f1 : BinomialForest} {ops : List ThiefOp} {ts : List BinomialTree} (ho : f.order ≤ 32)
    (hrun : steal_run steal f ops = .ok (f1, ts))
    (hb : ∀ u, u ∈ stolen_trees ts → wf_tree u ∧ u.order < f.order)
    (hp : ((stolen_trees ts).map BinomialTree.order).Pairwise (fun x y => y ≤ x)) :
    orders_never_grow steal f ops := by
  refine ⟨f1, ts, hrun, hp, ?_⟩
  intro t0 rest hst
  rw [hst] at hb hp
  obtain ⟨hw0, ho0⟩ := hb t0 (List.mem_cons_self _ _)
  cases t0 with
  | NULL => exact absurd rfl hw0.1
  | node a k c s =>
    obtain ⟨rfl, hc⟩ := wf_tree_node.1 hw0
    simp only [BinomialTree.order] at ho0
    refine ⟨_, seed_none_spec (by omega), rfl, ?_⟩
    intro t ht
    obtain ⟨hwt, -⟩ := hb t (List.mem_cons_of_mem _ ht)
    have hle : t.order ≤ k := by
      rw [List.map_cons, List.pairwise_cons] at hp
      exact hp.1 t.order (List.mem_map_of_mem _ ht)
    cases t with
    | NULL => exact absurd rfl hwt.1
    | node ta tk tc tsib =>
      obtain ⟨rfl, -⟩ := wf_tree_node.1 hwt
      simp only [BinomialTree.order] at hle ⊢
      refine ⟨by omega, ?_⟩
      intro g1 hwg heg hog
      exact ⟨_, seed_some_spec hwg heg (by omega) (by omega)⟩

/-- C19 (stolen orders never grow). For each of the three steal functions and
every well-formed forest `f`, any sequence of steals with that function and pops
(no push in between) runs to its end, and the order of each tree returned by a
steal is at most the order of every tree returned by an earlier steal. So the
forest created by `binomial_forest_seed(NULL, t)` from the first stolen tree has a
capacity exponent above the order of every later stolen tree, and
`binomial_forest_seed` of a later tree into that forest, drained, meets its
precondition and returns. -/
theorem stolen_orders_never_grow (f : BinomialForest) (ops : List ThiefOp)
    (hw : wf_forest f) (ho : f.order ≤ 32) :
    orders_never_grow binomial_forest_steal_1 f ops ∧
    orders_never_grow binomial_forest_steal_2 f ops ∧
    orders_never_grow binomial_forest_steal_3 f ops := by
  refine ⟨?_, ?_, ?_⟩
  · obtain ⟨f1, ts, hrun, hb, hp⟩ := steal_run_sorted binomial_forest_steal_1
      (steal_basic _ (fun f hw ho hne => by
        obtain ⟨f1, t, k, hs, hw1, ho1, hwt, -, hnn, hk, -, -, hto, -⟩ := steal_1_spec hw ho hne
        exact ⟨f1, t, k, hs, hw1, ho1, hwt, hnn, hk, by omega⟩)
        (fun f hw he => (steal_empty hw he).1))
      steal_1_mono ops f hw ho
    exact orders_never_grow_of_sorted ho hrun (fun u hu => ⟨(hb u hu).1, (hb u hu).2.1⟩) hp
  · obtain ⟨f1, ts, hrun, hb, hp⟩ := steal_run_sorted binomial_forest_steal_2
      (steal_basic _ (fun f hw ho hne => by
        obtain ⟨f1, t, k, hs, hw1, ho1, hwt, -, hnn, hk, -, -, hto, -⟩ := steal_2_spec hw ho hne
        exact ⟨f1, t, k, hs, hw1, ho1, hwt, hnn, hk, by omega⟩)
        (fun f hw he => (steal_empty hw he).2.1))
      steal_2_mono ops f hw ho
    exact orders_never_grow_of_sorted ho hrun (fun u hu => ⟨(hb u hu).1, (hb u hu).2.1⟩) hp
  · obtain ⟨f1, ts, hrun, hb, hp⟩ := steal_run_sorted binomial_forest_steal_3
      (steal_basic _ (fun f hw ho hne => by
        obtain ⟨f1, t, k, hs, hw1, ho1, hwt, -, hnn, hk, -, -, -, -, hc⟩ := steal_3_spec hw ho hne
        exact ⟨f1, t, k, hs, hw1, ho1, hwt, hnn, hk, by rcases hc with ⟨-, h⟩ | ⟨-, h⟩ <;> omega⟩)
        (fun f hw he => (steal_empty hw he).2.2))
      steal_3_mono ops f hw ho
    exact orders_never_grow_of_sorted ho hrun (fun u hu => ⟨(hb u hu).1, (hb u hu).2.1⟩) hp

/-- Witness of C19 on the forest holding nodes 0 to 5, with two steals, a pop and
two more steals. -/
theorem stolen_orders_never_grow_witness :
    (wf_forest six_node_forest ∧ six_node_forest.order ≤ 32) ∧
    (orders_never_grow binomial_forest_steal_1 six_node_forest
      [ThiefOp.steal, ThiefOp.steal, ThiefOp.pop, ThiefOp.steal, ThiefOp.steal] ∧
    orders_never_grow binomial_forest_steal_2 six_node_forest
      [ThiefOp.steal, ThiefOp.steal, ThiefOp.pop, ThiefOp.steal, ThiefOp.steal] ∧
    orders_never_grow binomial_forest_steal_3 six_node_forest
      [ThiefOp.steal, ThiefOp.steal, ThiefOp.pop, ThiefOp.steal, ThiefOp.steal]) :=
  ⟨⟨by decide, by decide⟩,
    stolen_orders_never_grow six_node_forest
      [ThiefOp.steal, ThiefOp.steal, ThiefOp.pop, ThiefOp.steal, ThiefOp.steal]
      (by decide) (by decide)⟩

/-! ## C12: rep counts the stored nodes -/

theorem count_slots_succ (l : List BinomialTree) : ∀ i,
    count_slots (i + 1) l = 2 * count_slots i l := by
  induction l with
  | nil => intro i; simp [count_slots]
  | cons t ts ih =>
    intro i
    rw [count_slots_cons, count_slots_cons, ih (i + 1), pow_succ]
    split <;> omega

/-- In a list of slots, slot `j` is occupied exactly when bit `j` of the count is
set. -/
theorem occupied_iff_testBit (l : List BinomialTree) : ∀ j,
    l.getD j NULL ≠ NULL ↔ (count_slots 0 l).testBit j = true := by
  induction l with
  | nil => intro j; simp [count_slots]
  | cons t ts ih =>
    intro j
    rw [count_slots_cons, count_slots_succ, pow_zero]
    cases j with
    | zero =>
      rw [Nat.testBit_zero]
      by_cases ht : t = NULL
      · simp only [ht, if_true, List.getD_cons_zero, ne_eq, not_true_eq_false, false_iff]
        simp
      · simp only [ht, if_false, List.getD_cons_zero, ne_eq, not_false_eq_true, true_iff]
        simp
    | succ j =>
      rw [Nat.testBit_succ, List.getD_cons_succ, ih j]
      have hdiv : ((if t = NULL then 0 else 1) + 2 * count_slots 0 ts) / 2
          = count_slots 0 ts := by
        split <;> omega
      rw [hdiv]

/-- In a well-formed forest, slot `i` is occupied exactly when bit `i` of
`num_nodes` is set. -/
theorem slot_occupied_iff_testBit {f : BinomialForest} (hw : wf_forest f) (i : Nat) :
    slot f i ≠ NULL ↔ f.num_nodes.testBit i = true := by
  obtain ⟨-, -, hn⟩ := (wf_forest_iff f).1 hw
  rw [hn]; exact occupied_iff_testBit f.trees i

theorem num_returned_eq (ts : List BinomialTree) (os : List (Option Nat))
    (h : ts.map ptr = os) : num_returned ts = (os.filter Option.isSome).length := by
  subst h
  induction ts with
  | nil => rfl
  | cons t ts ih =>
    cases t with
    | NULL => simpa [num_returned, ptr] using ih
    | node a o c s => simp [num_returned, ptr, ih]

/-- The reference stack gains one address per push and loses one per pop that
returns a node. -/
theorem stack_run_length (ops : List Op) : ∀ st : List Nat,
    (stack_run ops st).1.length + ((stack_run ops st).2.filter Option.isSome).length
      = st.length + num_pushes ops := by
  induction ops with
  | nil => intro st; simp [stack_run, num_pushes]
  | cons op ops ih =>
    intro st
    cases op with
    | push a =>
      rw [stack_run_push, ih, num_pushes, List.length_cons]
      omega
    | pop =>
      rw [stack_run_pop, num_pushes]
      cases st with
      | nil => simpa using ih []
      | cons a st =>
        have := ih st
        simp only [List.tail_cons, List.head?_cons, List.filter_cons, Option.isSome_some,
          if_true, List.length_cons] at this ⊢
        omega

set_option maxRecDepth 100000 in
/-- C12 (rep counts stored nodes). From the empty forest of capacity exponent
`n ≤ 32`, any sequence of pushes of fresh nodes and pops that stays within
capacity runs to its end; with `p` its number of pushes and `q` the number of its
pops that returned a node, `binomial_forest_rep` then returns `p - q`, and a slot
is occupied exactly when the bit of its index is set in `p - q`. The model of
`test_push_pop_heap_data` (31 pushes, then 11 pops, capacity exponent 5) passes
all its assertions, among them `rep == 0x14`, not empty and not full. -/
theorem rep_counts_nodes (n : Nat) (ops : List Op) (hn : n ≤ 32)
    (hadm : admissible (2 ^ n - 1) ops []) :
    (∃ f0 f ts, binomial_forest_alloc n = .ok f0 ∧ run f0 ops = .ok (f, ts) ∧
      num_returned ts ≤ num_pushes ops ∧
      binomial_forest_rep f = .ok (num_pushes ops - num_returned ts) ∧
      ∀ i, slot f i ≠ NULL ↔ (num_pushes ops - num_returned ts).testBit i = true) ∧
    Except.map BinomialForest.num_nodes test_push_pop_heap_data = .ok 0x14 := by
  refine ⟨?_, by decide⟩
  have hw0 := wf_forest_replicate n
  have hst0 : to_stack ⟨n, 0, List.replicate n NULL⟩ = [] :=
    (all_empty_iff_to_stack hw0).1 (all_empty_replicate _ _ _)
  have hadm' : admissible (2 ^ n - 1) ops (to_stack ⟨n, 0, List.replicate n NULL⟩) := by
    rw [hst0]; exact hadm
  obtain ⟨f, ts, hrun, hw, ho, hts, hst⟩ := run_refines ops _ hw0 hn hadm'
  rw [hst0] at hts hst
  have hlen := stack_run_length ops []
  rw [← hst, ← num_returned_eq ts _ hts, length_to_stack hw] at hlen
  simp only [List.length_nil, Nat.zero_add] at hlen
  have hnum : f.num_nodes = num_pushes ops - num_returned ts := by omega
  refine ⟨_, f, ts, alloc_spec hn, hrun, by omega, ?_, ?_⟩
  · rw [rep_eq_of_wf hw (by rw [ho]; exact hn), hnum]
  · intro i
    rw [← hnum]; exact slot_occupied_iff_testBit hw i

set_option maxRecDepth 100000 in
/-- Witness of C12 on the calls of `test_push_pop_heap_data`. -/
theorem rep_counts_nodes_witness :
    (5 ≤ 32 ∧ admissible (2 ^ 5 - 1)
      ((List.range 31).map Op.push ++ List.replicate 11 Op.pop) []) ∧
    ((∃ f0 f ts, binomial_forest_alloc 5 = .ok f0 ∧
      run f0 ((List.range 31).map Op.push ++ List.replicate 11 Op.pop) = .ok (f, ts) ∧
      num_returned ts ≤ num_pushes ((List.range 31).map Op.push ++ List.replicate 11 Op.pop) ∧
      binomial_forest_rep f = .ok
        (num_pushes ((List.range 31).map Op.push ++ List.replicate 11 Op.pop)
          - num_returned ts) ∧
      ∀ i, slot f i ≠ NULL ↔
        (num_pushes ((List.range 31).map Op.push ++ List.replicate 11 Op.pop)
          - num_returned ts).testBit i = true) ∧
    Except.map BinomialForest.num_nodes test_push_pop_heap_data = .ok 0x14) :=
  ⟨⟨by decide, by decide⟩,
    rep_counts_nodes 5 ((List.range 31).map Op.push ++ List.replicate 11 Op.pop)
      (by decide) (by decide)⟩

/-! ## C11: the assertions of the queries -/

/-- On a forest with a free slot `binomial_forest_full` returns false, without
evaluating its assertion. -/
theorem full_false_of_free {f : BinomialForest} (hl : f.trees.length = f.order)
    (hfree : ¬ all_occupied f) : binomial_forest_full f = .ok false := by
  obtain ⟨o, n, l⟩ := f
  have hao : all_occupied ⟨o, n, l⟩ ↔ ∀ x ∈ l, x ≠ NULL := all_occupied_iff hl
  simp only at hl
  subst hl
  have h1 := full_loop_eq l.length n l []
  simp only [List.nil_append, List.length_nil] at h1
  simp only [binomial_forest_full, h1]
  rw [decide_eq_false (fun h => hfree (hao.2 h))]

/-- The queries on a well-formed forest of capacity exponent at most 32 (every
forest reachable from `binomial_forest_alloc` by pushes, pops, steals and seeds
is one): `binomial_forest_rep` returns the sum of `2^i` over the occupied slots,
equal to `num_nodes`; `binomial_forest_empty` returns, and `num_nodes` is 0 when it
returns true; `binomial_forest_full` returns, and `num_nodes` is `2^order - 1` when it
returns true, unless the capacity exponent is 32 and every slot is occupied:
then its assertion evaluates `1u << 32`. -/
theorem queries_consistent (f : BinomialForest) (hw : wf_forest f) (ho : f.order ≤ 32) :
    binomial_forest_rep f = .ok (slot_sum f) ∧ slot_sum f = f.num_nodes ∧
    (∃ b, binomial_forest_empty f = .ok b ∧ (b = true → f.num_nodes = 0)) ∧
    (¬ (f.order = 32 ∧ all_occupied f) →
      ∃ b, binomial_forest_full f = .ok b ∧ (b = true → f.num_nodes = 2 ^ f.order - 1)) ∧
    (f.order = 32 → all_occupied f → binomial_forest_full f = .error .shift_overflow) := by
  have hl := ((wf_forest_iff f).1 hw).1
  refine ⟨by rw [rep_eq_of_wf hw ho, hw.2.2], hw.2.2.symm, ?_, ?_, ?_⟩
  · refine ⟨decide (all_empty f), empty_eq_of_wf hw, fun h => ?_⟩
    exact (all_empty_iff_num_nodes hw).1 (of_decide_eq_true h)
  · intro hnot
    by_cases hocc : all_occupied f
    · have hlt : f.order < 32 := by
        by_contra hc
        exact hnot ⟨by omega, hocc⟩
      exact ⟨true, by rw [full_eq_of_wf hw hlt, decide_eq_true hocc],
        fun _ => (all_occupied_iff_num_nodes hw).1 hocc⟩
    · exact ⟨false, full_false_of_free hl hocc, fun h => by simp at h⟩
  · intro h32 hocc
    exact full_undefined_of_order_32 hl h32 hocc

/-- C11, at the input where the code departs from it: on the forest reached from
`binomial_forest_alloc(32)` by `2^32 - 1` pushes, `binomial_forest_rep` returns the sum
over the occupied slots, equal to `num_nodes`, and `binomial_forest_empty` returns
false, but the consistency assertion of `binomial_forest_full` does not pass: it
evaluates `POW_2(32)`, the shift `1u << 32`, which is undefined, and the query does
not return true. -/
theorem queries_at_capacity_32 :
    ∃ f0 f, binomial_forest_alloc 32 = .ok f0 ∧
      run f0 ((List.range (2 ^ 32 - 1)).map Op.push) = .ok (f, []) ∧
      wf_forest f ∧ f.order = 32 ∧
      binomial_forest_rep f = .ok (slot_sum f) ∧ slot_sum f = f.num_nodes ∧
      f.num_nodes = 2 ^ 32 - 1 ∧
      binomial_forest_empty f = .ok false ∧
      binomial_forest_full f = .error .shift_overflow ∧
      binomial_forest_full f ≠ .ok true := by
  obtain ⟨f0, f, ha, hrun, hw, ho, hocc, hrep, -, hfull⟩ :=
    capacity_law 32 (List.range (2 ^ 32 - 1)) (le_refl 32) (List.nodup_range _)
      (List.length_range _)
  obtain ⟨hr, hs, -, -, -⟩ := queries_consistent f hw (le_of_eq ho)
  have hnum : f.num_nodes = 2 ^ 32 - 1 := by
    rw [hr] at hrep
    simp only [Except.ok.injEq] at hrep
    rw [← hs, hrep]
  have hne : ¬ all_empty f := by
    intro he
    have := (all_empty_iff_num_nodes hw).1 he
    rw [hnum] at this
    exact absurd this (by decide)
  refine ⟨f0, f, ha, hrun, hw, ho, hr, hs, hnum, ?_, hfull rfl, ?_⟩
  · rw [empty_eq_of_wf hw, decide_eq_false hne]
  · rw [hfull rfl]; simp

end BF
